import Mathlib

/-!
# Verification development for `matrices.h`

A shallow embedding of the row-major matrix layer of `src/src/matrices.h`
(the `MAT_*` generators, generic in the scalar `type`) together with theorems
about it.

Modelling conventions.

* A matrix value is the C struct `{ u32 dim0; u32 dim1; type *data; }`; the
  pointer is a buffer identifier into an explicit heap (`0` is `NULL`).
* `u32` arithmetic is arithmetic on `Nat` reduced modulo `2 ^ 32` wherever the
  source computes a product or sum of `u32` values. Integer arguments of the
  backend calls carry those values unchanged.
* Stateful code is explicit heap passing; a failed `ASSERT` and an access
  outside a live buffer are the two faults a call can end in. The heap also
  counts allocator calls and records the backend kernels invoked.
* Scalars are exact: an arbitrary commutative ring, a field where an inverse
  is taken and an ordered field where a Cholesky factor is.
* The BLAS kernels (copy, scale, general multiply, triangular multiply) are
  functions given by their contracts; the factorisation kernels (LU, LU-based
  inverse, Cholesky) are parameters of the algorithms (`Backend`), their
  contracts are hypotheses of the theorems. The global `DefaultAllocator` is a
  parameter as well.
-/

namespace Matrices

/-- Modulus of the `u32` type used for dimensions and index arithmetic. -/
def U32 : Nat := 2 ^ 32

/-- The two ways a call can fail to return: a failed `ASSERT`, or an access
outside a live buffer (undefined behaviour in C). -/
inductive Fault where
  | assertion
  | memory
  deriving DecidableEq, Repr

deriving instance DecidableEq for Except

/-- Names of the backend kernels, recorded in the heap's call trace. -/
inductive Kernel where
  | copy
  | scal
  | nrm2
  | gemm
  | trmv
  | getrf
  | getri
  | potrf
  deriving DecidableEq, Repr

/-- The struct generated by `MAT_DECL(type)`: `dim0` rows, `dim1` columns and
the `data` pointer (a buffer identifier, `0` for `NULL`). -/
structure Mat where
  dim0 : Nat
  dim1 : Nat
  data : Nat
  deriving DecidableEq, Repr

/-- Memory and instrumentation: `bufs[p - 1]` is the buffer behind pointer `p`
(`none` once released), `allocs` and `frees` count allocator calls, `calls` is
the trace of backend kernels invoked so far (oldest first). -/
structure Heap (α : Type) where
  bufs : List (Option (List α))
  allocs : Nat
  frees : Nat
  calls : List Kernel
  deriving DecidableEq, Repr

/-- Modelled from the spec: the `Allocator` abstraction (`Allocator`, `Alloc`,
`Free`, `DefaultAllocator` are declared outside `matrices.h`). Fresh storage is
uninitialised; `junk` supplies its indeterminate contents. -/
structure Allocator (α : Type) where
  junk : Nat → α

section Memory

variable {α : Type}

/-- The live buffer behind a pointer, if any. -/
def Heap.buf (h : Heap α) (p : Nat) : Option (List α) :=
  if p = 0 then none else h.bufs.getD (p - 1) none

/-- Replace the contents of the buffer behind `p`. -/
def Heap.setBuf (h : Heap α) (p : Nat) (b : List α) : Heap α :=
  if p = 0 then h else { h with bufs := h.bufs.set (p - 1) (some b) }

/-- Append a kernel to the call trace. -/
def Heap.log (h : Heap α) (k : Kernel) : Heap α :=
  { h with calls := h.calls ++ [k] }

/-- The read `p[i]`. -/
def Heap.load (h : Heap α) (p i : Nat) : Except Fault α :=
  match h.buf p with
  | some b =>
    match b[i]? with
    | some v => .ok v
    | none => .error .memory
  | none => .error .memory

/-- The write `p[i] = v`. -/
def Heap.store (h : Heap α) (p i : Nat) (v : α) : Except Fault (Heap α) :=
  match h.buf p with
  | some b => if i < b.length then .ok (h.setBuf p (b.set i v)) else .error .memory
  | none => .error .memory

/-- Modelled from the spec: `Alloc(al, n * sizeof(type))`, declared outside
`matrices.h`: `allocate(byteCount) -> buffer` returns distinct, non-overlapping
storage per call, here a fresh buffer of `n` elements. -/
def Alloc (al : Allocator α) (h : Heap α) (n : Nat) : Nat × Heap α :=
  (h.bufs.length + 1,
   { h with bufs := h.bufs ++ [some ((List.range n).map al.junk)], allocs := h.allocs + 1 })

/-- Modelled from the spec: `Free(al, p)`, declared outside `matrices.h`:
`release(buffer)` gives the storage back; releasing a pointer that is not live
is a memory fault. -/
def Free (h : Heap α) (p : Nat) : Except Fault (Heap α) :=
  match h.buf p with
  | some _ => .ok { h with bufs := h.bufs.set (p - 1) none, frees := h.frees + 1 }
  | none => .error .memory

/-- Modelled from the spec: the `ASSERT` macro, declared outside `matrices.h`:
a violated contract aborts execution immediately. -/
def ASSERT (c : Prop) [Decidable c] : Except Fault Unit :=
  if c then .ok () else .error .assertion

/-- Generator `MAT_MAKE`: the byte count is `dim0 * dim1 * sizeof(type)` where the
product `dim0 * dim1` is formed in `u32`. -/
def MatMake (al : Allocator α) (h : Heap α) (dim0 dim1 : Nat) : Mat × Heap α :=
  let r := Alloc al h ((dim0 * dim1) % U32)
  ({ dim0 := dim0, dim1 := dim1, data := r.1 }, r.2)

/-- Generator `MAT_FREE`. -/
def MatFree (h : Heap α) (m : Mat) : Except Fault (Heap α) := do
  ASSERT (m.data ≠ 0)
  Free h m.data

/-- Overwrite a buffer in place with the output of a kernel: the buffer keeps
its length. -/
def blit (dst src : List α) : List α :=
  src.take dst.length ++ dst.drop src.length

/-- Modelled from the spec: the backend vector copy `cblas_copy(n, x, 1, y, 1)`
(external library): `y[0..n) := x[0..n)`; nothing is touched when `n = 0`. -/
def cblas_copy (h : Heap α) (n x y : Nat) : Except Fault (Heap α) :=
  if n = 0 then .ok (h.log .copy) else
  match h.buf x, h.buf y with
  | some bx, some b =>
    if n ≤ bx.length ∧ n ≤ b.length then
      .ok ((h.setBuf y (bx.take n ++ b.drop n)).log .copy)
    else .error .memory
  | _, _ => .error .memory

/-- Generator `MAT_COPY`: both element counts are `u32` products. -/
def MatCopy (h : Heap α) (src dst : Mat) : Except Fault (Heap α) := do
  ASSERT ((src.dim0 * src.dim1) % U32 = (dst.dim0 * dst.dim1) % U32)
  cblas_copy h ((src.dim0 * src.dim1) % U32) src.data dst.data


/-- Generator `MAT_T`: the nested copy loop of the transpose. -/
def MatT (h : Heap α) (m dst : Mat) : Except Fault (Heap α) := do
  ASSERT (m.dim0 = dst.dim1 ∧ m.dim1 = dst.dim0)
  (List.range m.dim0).foldlM (fun h i =>
    (List.range m.dim1).foldlM (fun h j => do
      let v ← h.load m.data ((j * dst.dim0 + i) % U32)
      h.store dst.data ((i * m.dim0 + j) % U32) v) h) h

/-- The C library routine `memcpy(&dst[dstOff], &src[srcOff], n * sizeof(type))`:
`n` contiguous elements; both ranges must lie inside live buffers. -/
def memcpy (h : Heap α) (dst dstOff src srcOff n : Nat) : Except Fault (Heap α) :=
  match h.buf dst, h.buf src with
  | some d, some s =>
    if dstOff + n ≤ d.length ∧ srcOff + n ≤ s.length then
      .ok (h.setBuf dst (d.take dstOff ++ (s.drop srcOff).take n ++ d.drop (dstOff + n)))
    else .error .memory
  | _, _ => .error .memory

/-- Generator `MAT_SETELEMENT`. -/
def MatSetElement (h : Heap α) (m : Mat) (dim0 dim1 : Nat) (val : α) :
    Except Fault (Heap α) := do
  ASSERT (m.data ≠ 0)
  ASSERT (dim0 ≤ m.dim0)
  ASSERT (dim1 ≤ m.dim1)
  h.store m.data ((dim0 * m.dim1 + dim1) % U32) val

/-- Generator `MAT_GETELEMENT`. -/
def MatGetElement (h : Heap α) (m : Mat) (dim0 dim1 : Nat) : Except Fault α := do
  ASSERT (dim0 ≤ m.dim0)
  ASSERT (dim1 ≤ m.dim1)
  h.load m.data ((dim0 * m.dim1 + dim1) % U32)

/-- Generator `MAT_SETCOL`: one `memcpy` of `m.dim0` elements starting at `dim * m.dim1`. -/
def MatSetCol (h : Heap α) (m : Mat) (dim : Nat) (newCol : Mat) : Except Fault (Heap α) := do
  ASSERT (m.data ≠ 0)
  ASSERT ((newCol.dim0 * newCol.dim1) % U32 = m.dim0)
  let idx := (dim * m.dim1) % U32
  memcpy h m.data idx newCol.data 0 m.dim0

/-- Generator `MAT_GETCOL`: one `memcpy` of `m.dim0` elements starting at `dim * m.dim1`. -/
def MatGetCol (h : Heap α) (m : Mat) (dim : Nat) (newCol : Mat) : Except Fault (Heap α) := do
  ASSERT (m.data ≠ 0)
  ASSERT ((newCol.dim0 * newCol.dim1) % U32 = m.dim0)
  let idx := (dim * m.dim1) % U32
  memcpy h newCol.data 0 m.data idx m.dim0

/-- Generator `MAT_SETROW`: the loop runs over the `m.dim1` elements of row `dim`. -/
def MatSetRow (h : Heap α) (m : Mat) (dim : Nat) (newCol : Mat) : Except Fault (Heap α) := do
  ASSERT (m.data ≠ 0)
  ASSERT ((newCol.dim0 * newCol.dim1) % U32 = m.dim0)
  (List.range m.dim1).foldlM (fun h i => do
    let v ← h.load newCol.data i
    h.store m.data ((dim * m.dim1 + i) % U32) v) h

/-- Generator `MAT_GETROW`: the loop runs over the `m.dim1` elements of row `dim`. -/
def MatGetRow (h : Heap α) (m : Mat) (dim : Nat) (newCol : Mat) : Except Fault (Heap α) := do
  ASSERT (m.data ≠ 0)
  ASSERT ((newCol.dim0 * newCol.dim1) % U32 = m.dim0)
  (List.range m.dim1).foldlM (fun h i => do
    let v ← h.load m.data ((dim * m.dim1 + i) % U32)
    h.store newCol.data i v) h

/-- Modelled from the spec: the factorisation kernels of the external backend,
taken as parameters. `getrf m n a lda` is LU factorisation with partial
pivoting (new contents, 1-based pivot sequence, status); `getri n a lda ipiv`
is LU-based inversion (new contents, status); `potrf n a lda` is the
upper-triangular Cholesky factorisation (new contents, status). -/
structure Backend (α : Type) where
  getrf : Nat → Nat → List α → Nat → List α × List Int × Int
  getri : Nat → List α → Nat → List Int → List α × Int
  potrf : Nat → List α → Nat → List α × Int

/-- The call `LAPACKE_getrf(RowMajor, m, n, a, lda, ipiv)`: the buffer is
factored in place; returns the pivot sequence written to `ipiv` and the
status. -/
def LAPACKE_getrf (be : Backend α) (h : Heap α) (m n a lda : Nat) :
    Except Fault (List Int × Int × Heap α) :=
  match h.buf a with
  | some A =>
    if lda * m ≤ A.length then
      let r := be.getrf m n A lda
      .ok (r.2.1, r.2.2, (h.setBuf a (blit A r.1)).log .getrf)
    else .error .memory
  | none => .error .memory

/-- The call `LAPACKE_getri(RowMajor, n, a, lda, ipiv)`: the factored buffer is
inverted in place; returns the status. -/
def LAPACKE_getri (be : Backend α) (h : Heap α) (n a lda : Nat) (ipiv : List Int) :
    Except Fault (Int × Heap α) :=
  match h.buf a with
  | some A =>
    if lda * n ≤ A.length then
      let r := be.getri n A lda ipiv
      .ok (r.2, (h.setBuf a (blit A r.1)).log .getri)
    else .error .memory
  | none => .error .memory

/-- The call `LAPACKE_potrf(RowMajor, 'U', n, a, lda)`: the buffer is factored
in place; returns the status. -/
def LAPACKE_potrf (be : Backend α) (h : Heap α) (n a lda : Nat) :
    Except Fault (Int × Heap α) :=
  match h.buf a with
  | some A =>
    if lda * n ≤ A.length then
      let r := be.potrf n A lda
      .ok (r.2, (h.setBuf a (blit A r.1)).log .potrf)
    else .error .memory
  | none => .error .memory

/-- Generator `MAT_INV`: returns the status and the final heap. -/
def MatInv (be : Backend α) (al : Allocator α) (h : Heap α) (m dst : Mat) :
    Except Fault (Int × Heap α) := do
  ASSERT (m.dim0 = m.dim1 ∧ m.dim0 = dst.dim0 ∧ m.dim1 = dst.dim1)
  let (tmp, h) := MatMake al h m.dim0 m.dim1
  let h ← MatCopy h m tmp
  let n := tmp.dim0
  let (ipiv, ret, h) ← LAPACKE_getrf be h n n tmp.data n
  if ret ≠ 0 then
    return (ret, h)
  let (ret, h) ← LAPACKE_getri be h n tmp.data n ipiv
  let h ← MatCopy h tmp dst
  let h ← MatFree h tmp
  return (ret, h)

end Memory

section Kernels

variable {α : Type} [CommRing α]

/-- Entry `(i, j)` of `alpha * A * B + beta * C` for row-major operands with
leading dimensions `lda`, `ldb`, `ldc` and inner dimension `k`. -/
def gemmEntry (k : Nat) (alpha : α) (A : List α) (lda : Nat) (B : List α) (ldb : Nat)
    (beta : α) (C : List α) (ldc : Nat) (i j : Nat) : α :=
  alpha * ((List.range k).map (fun t => A.getD (i * lda + t) 0 * B.getD (t * ldb + j) 0)).sum
    + beta * C.getD (i * ldc + j) 0

/-- Modelled from the spec: the backend general matrix multiply
`cblas_gemm(RowMajor, NoTrans, NoTrans, M, N, K, alpha, a, lda, b, ldb, beta, c, ldc)`
(external library), by its row-major contract `C = alpha * A * B + beta * C`. -/
def cblas_gemm (h : Heap α) (M N K : Nat) (alpha : α) (a lda b ldb : Nat) (beta : α)
    (c ldc : Nat) : Except Fault (Heap α) :=
  match h.buf a, h.buf b, h.buf c with
  | some A, some B, some C =>
    if lda * M ≤ A.length ∧ ldb * K ≤ B.length ∧ ldc * M ≤ C.length
        ∧ K ≤ lda ∧ N ≤ ldb ∧ N ≤ ldc then
      .ok ((h.setBuf c ((List.range C.length).map (fun p =>
        if p / ldc < M ∧ p % ldc < N then
          gemmEntry K alpha A lda B ldb beta C ldc (p / ldc) (p % ldc)
        else C.getD p 0))).log .gemm)
    else .error .memory
  | _, _, _ => .error .memory

/-- The vector `U * x` for the upper triangle `U` (diagonal included) of the
row-major `N x N` matrix in `A` with leading dimension `lda`: element `i < N` is
`∑ j ≥ i, A[i * lda + j] * X[j]`; elements of `X` from `N` on are kept. -/
def trmvVec (N : Nat) (A : List α) (lda : Nat) (X : List α) : List α :=
  (List.range X.length).map (fun i =>
    if i < N then
      (((List.range N).filter (fun j => i ≤ j)).map
        (fun j => A.getD (i * lda + j) 0 * X.getD j 0)).sum
    else X.getD i 0)

/-- Modelled from the spec: the backend triangular matrix-vector multiply
`cblas_trmv(RowMajor, Upper, NoTrans, NonUnit, N, a, lda, x, 1)` (external
library): `x := U * x` where `U` is the upper triangle of `a`, diagonal
included; entries below the diagonal are not referenced. -/
def cblas_trmv (h : Heap α) (N a lda x : Nat) : Except Fault (Heap α) :=
  match h.buf a, h.buf x with
  | some A, some X =>
    if lda * N ≤ A.length ∧ N ≤ lda ∧ N ≤ X.length then
      .ok ((h.setBuf x (trmvVec N A lda X)).log .trmv)
    else .error .memory
  | _, _ => .error .memory

/-- Modelled from the spec: the backend vector scale `cblas_scal(n, val, x, 1)`
(external library): `x[i] := val * x[i]` for `i < n`. -/
def cblas_scal (h : Heap α) (n : Nat) (val : α) (x : Nat) : Except Fault (Heap α) :=
  if n = 0 then .ok (h.log .scal) else
  match h.buf x with
  | some X =>
    if n ≤ X.length then
      .ok ((h.setBuf x ((X.take n).map (fun v => val * v) ++ X.drop n)).log .scal)
    else .error .memory
  | none => .error .memory

/-- Generator `MAT_MUL`: `c = a * b` through the backend's general matrix multiply. -/
def MatMul (h : Heap α) (a b c : Mat) : Except Fault (Heap α) := do
  ASSERT (a.dim0 = c.dim0 ∧ a.dim1 = b.dim0 ∧ b.dim1 = c.dim1)
  cblas_gemm h a.dim0 b.dim1 a.dim1 1 a.data a.dim1 b.data b.dim1 0 c.data b.dim1

/-- Generator `MAT_DET`: returns the value and the final heap. -/
def MatDet (be : Backend α) (al : Allocator α) (h : Heap α) (m : Mat) :
    Except Fault (α × Heap α) := do
  ASSERT (m.dim0 = m.dim1)
  let (tmp, h) := MatMake al h m.dim0 m.dim0
  let h ← MatCopy h m tmp
  let n := tmp.dim0
  let (ipiv, ret1, h) ← LAPACKE_getrf be h n n tmp.data n
  if ret1 ≠ 0 then
    return (0, h)
  let det ← (List.range n).foldlM (fun det i => do
    let v ← h.load tmp.data ((i * n + i) % U32)
    pure (det * v)) (1 : α)
  let detp := (List.range n).foldl (fun (detp : α) j =>
    if (((j + 1) % U32 : Nat) : Int) ≠ (ipiv.getD j 0) % (U32 : Int) then -detp else detp) (1 : α)
  let h ← MatFree h tmp
  return (det * detp, h)

/-- Generator `MAT_COVSCALE`. -/
def MatCovScale (be : Backend α) (al : Allocator α) (h : Heap α) (cov x dst : Mat) :
    Except Fault (Heap α) := do
  ASSERT (cov.dim0 = cov.dim1)
  ASSERT (x.dim0 = 1 ∨ x.dim1 = 1)
  ASSERT (cov.dim0 = x.dim0)
  ASSERT (x.dim0 = dst.dim0 ∧ dst.dim1 = 1)
  let (tmpC, h) := MatMake al h cov.dim0 cov.dim0
  let (tmpX, h) := MatMake al h x.dim0 x.dim1
  let h ← MatCopy h cov tmpC
  let h ← MatCopy h x tmpX
  let (_, h) ← LAPACKE_potrf be h tmpC.dim0 tmpC.data tmpC.dim0
  let h ← cblas_trmv h tmpC.dim0 tmpC.data tmpC.dim0 tmpX.data
  let h ← MatCopy h tmpX dst
  let h ← MatFree h tmpC
  let h ← MatFree h tmpX
  return h

/-- Generator `MAT_COVSCALEIP`. -/
def MatCovScaleIP (be : Backend α) (al : Allocator α) (h : Heap α) (cov x : Mat) :
    Except Fault (Heap α) := do
  ASSERT (cov.dim0 = cov.dim1)
  ASSERT (x.dim0 = 1 ∨ x.dim1 = 1)
  ASSERT (cov.dim0 = x.dim0)
  let (tmpC, h) := MatMake al h cov.dim0 cov.dim0
  let h ← MatCopy h cov tmpC
  let (_, h) ← LAPACKE_potrf be h tmpC.dim0 tmpC.data tmpC.dim0
  let h ← cblas_trmv h tmpC.dim0 tmpC.data tmpC.dim0 x.data
  let h ← MatFree h tmpC
  return h

end Kernels


/-- A heap holding the given buffers at pointers `1, 2, ...`. -/
def mkHeap {α : Type} (bs : List (List α)) : Heap α :=
  { bufs := bs.map some, allocs := 0, frees := 0, calls := [] }

/-- The matrix `m` holds the contents `A` in heap `h`: its dimensions are `u32`
values, `data` points to a live buffer of exactly `dim0 * dim1` elements, and
that element count fits `u32`, as it does for every matrix whose buffer
`MatMake` can provide: a temporary made for a larger matrix is too small for
it, and no backend call on the temporary is then inside its buffer. -/
def Mat.Holds {α : Type} (h : Heap α) (m : Mat) (A : List α) : Prop :=
  m.dim0 < U32 ∧ m.dim1 < U32 ∧ m.dim0 * m.dim1 < U32 ∧ h.buf m.data = some A
    ∧ A.length = m.dim0 * m.dim1

instance {α : Type} [DecidableEq α] (h : Heap α) (m : Mat) (A : List α) :
    Decidable (m.Holds h A) := by
  unfold Mat.Holds
  infer_instance

/-- An allocator of the integers whose fresh storage reads as `7`. -/
def intAlloc : Allocator Int := ⟨fun _ => 7⟩

/-- A backend of the integers whose LU factorisation reports status `1` (an
exactly-zero pivot) and leaves the buffer as it is. -/
def singularBackend : Backend Int :=
  { getrf := fun _ n a _ => (a, (List.range n).map (fun j => ((j + 1 : Nat) : Int)), 1),
    getri := fun _ a _ _ => (a, 0),
    potrf := fun _ a _ => (a, 0) }

/-- The heap of `test_add_sub_mul` at the call of `f64MatMul`: `a` holds `0..8`,
`b` holds `2 * (0..8)` and `c` arbitrary values, at pointers 1, 2 and 3. -/
def mulHeap : Heap Int :=
  mkHeap [[0, 1, 2, 3, 4, 5, 6, 7, 8], [0, 2, 4, 6, 8, 10, 12, 14, 16],
    [7, 7, 7, 7, 7, 7, 7, 7, 7]]

/-- A heap with a 1 x 1 zero matrix at pointer 1 and a 1 x 1 destination holding
`5` at pointer 2. -/
def zeroHeap : Heap Int := mkHeap [[0], [5]]

section Contracts

variable {α : Type} [CommRing α]

/-- The `r x c` matrix stored row-major in a buffer: entry `(i, j)` is the
element at offset `i * c + j`. -/
def toMatrix (r c : Nat) (A : List α) : Matrix (Fin r) (Fin c) α :=
  fun i j => A.getD (i * c + j) 0

/-- The unit lower-triangular factor `L` packed below the diagonal of a
factored `n x n` buffer. -/
def lowerOf (n : Nat) (lu : List α) : Matrix (Fin n) (Fin n) α :=
  fun i j => if j < i then lu.getD (i * n + j) 0 else if j = i then 1 else 0

/-- The upper-triangular factor `U` packed on and above the diagonal of a
factored `n x n` buffer. -/
def upperOf (n : Nat) (lu : List α) : Matrix (Fin n) (Fin n) α :=
  fun i j => if i ≤ j then lu.getD (i * n + j) 0 else 0

/-- The row that step `j` of the factorisation swapped with row `j`: the
1-based pivot entry `ipiv[j]` names row `ipiv[j] - 1`. -/
def pivotRow (n : Nat) (ipiv : List Int) (j : Fin n) : Fin n :=
  if h : (ipiv.getD j 0 - 1).toNat < n then ⟨(ipiv.getD j 0 - 1).toNat, h⟩ else j

/-- The row permutation of a pivot sequence: the swaps of steps `0, 1, ...`
applied one after the other. -/
def pivotPerm (n : Nat) (ipiv : List Int) : Equiv.Perm (Fin n) :=
  ((List.finRange n).map (fun j => Equiv.swap j (pivotRow n ipiv j))).prod

/-- Modelled from the spec: the contract of a successful LU factorisation with
partial pivoting of the `n x n` buffer `A` (external backend): the output `lu`
packs `L` and `U`, the pivot sequence is 1-based with `j + 1 ≤ ipiv[j] ≤ n`, and
`A` with its rows swapped step by step equals `L * U`. -/
def IsLU (n : Nat) (A lu : List α) (ipiv : List Int) : Prop :=
  lu.length = n * n
    ∧ (∀ j : Fin n, ((j : Nat) : Int) + 1 ≤ ipiv.getD j 0 ∧ ipiv.getD j 0 ≤ (n : Int))
    ∧ (toMatrix n n A).submatrix (pivotPerm n ipiv) id = lowerOf n lu * upperOf n lu

/-- The number of pivot positions that differ from the identity: the `j` with
`ipiv[j] ≠ j + 1`. -/
def pivotMismatches (n : Nat) (ipiv : List Int) : Nat :=
  (Finset.univ.filter (fun j : Fin n => ipiv.getD j 0 ≠ ((j : Nat) : Int) + 1)).card

end Contracts

/-- An allocator of the rationals whose fresh storage reads as `0`. -/
def ratAlloc : Allocator ℚ := ⟨fun _ => 0⟩

/-- The 3 x 3 matrix of `test_determinant`, as exact rationals. -/
def detTestMatrix : List ℚ :=
  [3306201 / 10000000, 6187407 / 10000000, 6796355 / 10000000,
   4953877 / 10000000, 9147741 / 10000000, 3992435 / 10000000,
   5875585 / 10000000, 4554847 / 10000000, 8567403 / 10000000]

/-- The packed LU factors of `detTestMatrix` under partial pivoting: row 0 is
swapped with row 2, the pivot sequence is `[3, 2, 3]`. -/
def detTestFactors : List ℚ :=
  [1175117 / 2000000, 4554847 / 10000000, 8567403 / 10000000,
   4953877 / 5875585, 15592089005833 / 29377925000000, -4745992367989 / 14688962500000,
   3306201 / 5875585, 10647698025924 / 15592089005833,
   2037632376696198871 / 4872527814322812500]

/-- A backend whose LU factorisation answers with the factors of
`detTestMatrix` and status 0. -/
def detTestBackend : Backend ℚ :=
  { getrf := fun _ _ _ _ => (detTestFactors, [3, 2, 3], 0),
    getri := fun _ a _ _ => (a, 0),
    potrf := fun _ a _ => (a, 0) }

section InverseContracts

variable {α : Type} [CommRing α]

/-- Modelled from the spec: the contract of the backend LU factorisation at the
`n x n` input `A` (external backend): the factorisation is completed (`IsLU`),
and the status is 0 exactly when no diagonal entry of `U` is zero (a positive
status names an exactly-zero pivot). -/
def GetrfContract (be : Backend α) (n : Nat) (A : List α) : Prop :=
  IsLU n A (be.getrf n n A n).1 (be.getrf n n A n).2.1
    ∧ ((be.getrf n n A n).2.2 = 0
        ↔ ∀ i : Fin n, (be.getrf n n A n).1.getD (i * n + i) 0 ≠ 0)

/-- Modelled from the spec: the contract of the backend LU-based inversion at
the factored input `lu`, `ipiv` (external backend): whenever these are the
factors of a matrix `A` and no diagonal entry of `U` is zero, the status is 0
and the output is an `n x n` buffer holding the inverse of `A`. -/
def GetriContract (be : Backend α) (n : Nat) (lu : List α) (ipiv : List Int) : Prop :=
  ∀ A : List α, A.length = n * n → IsLU n A lu ipiv →
    (∀ i : Fin n, lu.getD (i * n + i) 0 ≠ 0) →
    (be.getri n lu n ipiv).2 = 0 ∧ (be.getri n lu n ipiv).1.length = n * n
      ∧ toMatrix n n A * toMatrix n n (be.getri n lu n ipiv).1 = 1

end InverseContracts

/-- The matrix `diag(0.5, 1.5, 2.5)` of `test_inverse`, as exact rationals. -/
def invTestMatrix : List ℚ := [1 / 2, 0, 0, 0, 3 / 2, 0, 0, 0, 5 / 2]

/-- The matrix `diag(1 / 0.5, 1 / 1.5, 1 / 2.5)` expected by `test_inverse`. -/
def invTestExpected : List ℚ := [2, 0, 0, 0, 2 / 3, 0, 0, 0, 2 / 5]

/-- A backend for `test_inverse`: a diagonal matrix is its own packed LU
factorisation with the identity pivot sequence, and the inversion answers with
`invTestExpected`. -/
def invTestBackend : Backend ℚ :=
  { getrf := fun _ _ a _ => (a, [1, 2, 3], 0),
    getri := fun _ _ _ _ => (invTestExpected, 0),
    potrf := fun _ a _ => (a, 0) }

/-- The heap of `test_inverse` at the call of `f64MatInv`: `c` holds
`invTestMatrix` at pointer 1, the destination `f` is at pointer 2 and a third
3 x 3 matrix for the product at pointer 3. -/
def invTestHeap : Heap ℚ :=
  mkHeap [invTestMatrix, [9, 9, 9, 9, 9, 9, 9, 9, 9], [8, 8, 8, 8, 8, 8, 8, 8, 8]]

section CholeskyContracts

variable {α : Type} [LinearOrderedField α]

/-- The matrix `U` is the upper-triangular Cholesky factor of the symmetric
matrix whose upper triangle is stored in the `n x n` buffer `C`: `U` is upper
triangular with positive diagonal and `Uᵀ * U` agrees with `C` on and above the
diagonal. Entries of `C` below the diagonal do not occur. -/
def IsCholesky (n : Nat) (U : Matrix (Fin n) (Fin n) α) (C : List α) : Prop :=
  (∀ i j : Fin n, j < i → U i j = 0) ∧ (∀ i : Fin n, 0 < U i i)
    ∧ ∀ i j : Fin n, i ≤ j → (U.transpose * U) i j = C.getD (i * n + j) 0

/-- Modelled from the spec: the contract of the backend Cholesky factorisation
`potrf('U', n, C, n)` at the input `C` (external backend): if the upper
triangle of `C` is that of a symmetric positive-definite matrix (one with a
Cholesky factor), the status is 0, the buffer keeps its `n * n` elements and
its upper triangle holds a Cholesky factor of that matrix. -/
def PotrfContract (be : Backend α) (n : Nat) (C : List α) : Prop :=
  (∃ U : Matrix (Fin n) (Fin n) α, IsCholesky n U C) →
    (be.potrf n C n).2 = 0 ∧ (be.potrf n C n).1.length = n * n
      ∧ IsCholesky n (upperOf n (be.potrf n C n).1) C

end CholeskyContracts

section Elementwise

variable {α : Type}

/-- The comparison loop of `MAT_EQUAL` over the remaining indices: it returns 0
at the first pair that fails the scalar predicate `equalFun` and 1 when no
index is left. -/
def MatEqualLoop {ε : Type} (equalFun : α → α → ε → Bool) (h : Heap α) (a b : Mat) (eps : ε) :
    List Nat → Except Fault Bool
  | [] => .ok true
  | i :: rest => do
    let x ← h.load a.data i
    let y ← h.load b.data i
    if !(equalFun x y eps) then
      return false
    MatEqualLoop equalFun h a b eps rest

/-- Generator `MAT_EQUAL`, with the scalar tolerance predicate `equalFun` (for
`f64` it is `f64Equal`, declared outside `matrices.h`) as a parameter; the loop
bound `a.dim0 * a.dim1` is formed in `u32`. -/
def MatEqual {ε : Type} (equalFun : α → α → ε → Bool) (h : Heap α) (a b : Mat) (eps : ε) :
    Except Fault Bool :=
  if a.dim0 ≠ b.dim0 then .ok false
  else if a.dim1 ≠ b.dim1 then .ok false
  else MatEqualLoop equalFun h a b eps (List.range ((a.dim0 * a.dim1) % U32))

/-- The C library routine `memset(p, 0, n * sizeof(type))`: the first `n`
elements of the buffer become zero. -/
def memset [Zero α] (h : Heap α) (p n : Nat) : Except Fault (Heap α) :=
  match h.buf p with
  | some b =>
    if n ≤ b.length then .ok (h.setBuf p (List.replicate n 0 ++ b.drop n))
    else .error .memory
  | none => .error .memory

/-- Generator `MAT_ZERO`: the byte count of the `memset` is the expression of
`MAT_MAKE`, with the product `dim0 * dim1` formed in `u32`. -/
def MatZeroMake [Zero α] (al : Allocator α) (h : Heap α) (dim0 dim1 : Nat) :
    Except Fault (Mat × Heap α) := do
  let (m, h) := MatMake al h dim0 dim1
  let h ← memset h m.data ((dim0 * dim1) % U32)
  return (m, h)

/-- Generator `MAT_ADD` (and `MAT_SUB`, which has the same body), with the
scalar operation `fun` of the generator as the parameter `f`; the loop bound
`a.dim0 * a.dim1` is formed in `u32`. -/
def MatAdd (f : α → α → α) (h : Heap α) (a b c : Mat) : Except Fault (Heap α) := do
  ASSERT (a.dim0 = b.dim0 ∧ a.dim1 = b.dim1 ∧ a.dim0 = c.dim0 ∧ a.dim1 = c.dim1)
  (List.range ((a.dim0 * a.dim1) % U32)).foldlM (fun h i => do
    let x ← h.load a.data i
    let y ← h.load b.data i
    h.store c.data i (f x y)) h

/-- Generator `MAT_SUB`: the body of `MAT_ADD` with the scalar subtraction. -/
def MatSub (f : α → α → α) (h : Heap α) (a b c : Mat) : Except Fault (Heap α) := do
  ASSERT (a.dim0 = b.dim0 ∧ a.dim1 = b.dim1 ∧ a.dim0 = c.dim0 ∧ a.dim1 = c.dim1)
  (List.range ((a.dim0 * a.dim1) % U32)).foldlM (fun h i => do
    let x ← h.load a.data i
    let y ← h.load b.data i
    h.store c.data i (f x y)) h

/-- Modelled from the spec: the scalar addition `f64Add` (declared outside
`matrices.h`), exact. -/
def f64Add [Add α] (x y : α) : α := x + y

/-- Modelled from the spec: the scalar subtraction `f64Sub` (declared outside
`matrices.h`), exact. -/
def f64Sub [Sub α] (x y : α) : α := x - y

end Elementwise

section Scaling

variable {α : Type} [CommRing α]

/-- Generator `MAT_SCALE`: copy, then scale the destination in place; the
element count `dst.dim0 * dst.dim1` is formed in `u32`. -/
def MatScale (h : Heap α) (m : Mat) (val : α) (dst : Mat) : Except Fault (Heap α) := do
  ASSERT (m.dim0 = dst.dim0 ∧ m.dim1 = dst.dim1)
  let h ← MatCopy h m dst
  cblas_scal h ((dst.dim0 * dst.dim1) % U32) val dst.data

end Scaling

section InverseStages

variable {α : Type}

/-- The contents of the temporary of `inverse` after the factorisation stage:
the copy of `A` overwritten in place by the output of the backend. -/
def factoredTmp (be : Backend α) (n : Nat) (A : List α) : List α :=
  blit A (be.getrf n n A n).1

/-- The contents of the temporary of `inverse` after the inversion stage: the
factored temporary overwritten in place by the output of the backend. -/
def invertedTmp (be : Backend α) (n : Nat) (A : List α) : List α :=
  blit (factoredTmp be n A)
    (be.getri n (factoredTmp be n A) n (be.getrf n n A n).2.1).1

/-- The status reported by the inversion stage of `inverse`. -/
def inversionStatus (be : Backend α) (n : Nat) (A : List α) : Int :=
  (be.getri n (factoredTmp be n A) n (be.getrf n n A n).2.1).2

end InverseStages

section CovarianceStages

variable {α : Type} [CommRing α]

/-- The vector computed by both covariance-scaling functions from the contents
`C` of `cov` and `X` of the vector: the triangular product of `X` with whatever
the backend Cholesky call left in the temporary copy of `C`. -/
def covScaled (be : Backend α) (n : Nat) (C X : List α) : List α :=
  trmvVec n (blit C (be.potrf n C n).1) n X

end CovarianceStages

/-- A backend of the integers whose Cholesky call factors the matrix
`[[4, 2], [2, 5]]` into the upper factor `[[2, 1], [0, 2]]`, written over the
upper triangle, with status `0`, and reports status `1` on every other
input. -/
def cholBackend : Backend Int :=
  { getrf := fun _ n a _ => (a, (List.range n).map (fun j => ((j + 1 : Nat) : Int)), 1),
    getri := fun _ a _ _ => (a, 0),
    potrf := fun _ a _ => if a = [4, 2, 2, 5] then ([2, 1, 2, 2], 0) else (a, 1) }

/-- A heap with the covariance matrix `[[4, 2], [2, 5]]` at pointer 1, the
vector `[1, 2]` at pointers 2 and 4 and a destination vector at pointer 3. -/
def covHeap : Heap Int := mkHeap [[4, 2, 2, 5], [1, 2], [7, 7], [1, 2]]

/-- Modelled from the spec: the scalar tolerance predicate `f64Equal` (declared
outside `matrices.h`): every element pair must satisfy `|a[i] - b[i]| < eps`. -/
def f64Equal {α : Type} [LinearOrderedRing α] (x y eps : α) : Bool :=
  decide (|x - y| < eps)

/-- A heap with the data `1..6` at pointers 1 and 2 and the data `1, 2, 3, 4, 5, 9`
at pointer 3. -/
def equalHeap : Heap Int :=
  mkHeap [[1, 2, 3, 4, 5, 6], [1, 2, 3, 4, 5, 6], [1, 2, 3, 4, 5, 9]]

/-- A backend of the integers whose LU factorisation reports status `0` and
leaves the buffer as it is, and whose inversion stage writes `42` and reports
status `3`. -/
def stagedBackend : Backend Int :=
  { getrf := fun _ n a _ => (a, (List.range n).map (fun j => ((j + 1 : Nat) : Int)), 0),
    getri := fun _ _ _ _ => ([42], 3),
    potrf := fun _ a _ => (a, 0) }

/-- A heap with a 1 x 1 covariance matrix `[4]` at pointer 1, a 1 x 2 row vector
`[1, 2]` at pointer 2 and a 1 x 1 destination at pointer 3. -/
def rowHeap : Heap Int := mkHeap [[4], [1, 2], [7]]

/-- A heap with the indefinite matrix `[[1, 2], [2, 1]]` at pointer 1, the vector
`[1, 2]` at pointer 2 and a destination vector at pointer 3. -/
def indefiniteHeap : Heap Int := mkHeap [[1, 2, 2, 1], [1, 2], [7, 7]]

/-- A heap with the 1 x 1 matrices `[1]`, `[2]` and `[7]` at pointers 1, 2
and 3. -/
def aliasHeap : Heap Int := mkHeap [[1], [2], [7]]

/-! ## Theorems -/

/-! ### Heap and loop lemmas -/

section HeapLemmas

variable {α : Type}

theorem set_length_append (l : List (Option (List α))) (x y : Option (List α)) :
    (l ++ [x]).set l.length y = l ++ [y] := by
  induction l with
  | nil => rfl
  | cons a l ih => simp [List.set, ih]

theorem getD_length_append (l : List (Option (List α))) (x d : Option (List α)) :
    (l ++ [x]).getD l.length d = x := by
  induction l with
  | nil => rfl
  | cons a l ih => simp [List.getD]

/-- A live pointer is non-null and inside the table of buffers. -/
theorem buf_some_bounds (h : Heap α) (p : Nat) (b : List α) (hp : h.buf p = some b) :
    p ≠ 0 ∧ p - 1 < h.bufs.length := by
  unfold Heap.buf at hp
  by_cases h0 : p = 0
  · simp [h0] at hp
  · refine ⟨h0, ?_⟩
    simp only [h0, if_false] at hp
    by_contra hge
    rw [List.getD_eq_default _ _ (by omega)] at hp
    exact absurd hp (by simp)

/-- Buffers that were live before an allocation are not affected by it. -/
theorem buf_append_old (h : Heap α) (x : Option (List α)) (a f : Nat) (c : List Kernel)
    (p : Nat) (b : List α) (hp : h.buf p = some b) :
    Heap.buf { bufs := h.bufs ++ [x], allocs := a, frees := f, calls := c } p = some b := by
  obtain ⟨h0, hlt⟩ := buf_some_bounds h p b hp
  unfold Heap.buf at hp ⊢
  simp only [h0, if_false] at hp ⊢
  rw [List.getD_eq_getElem?_getD, List.getElem?_append_left hlt, ← List.getD_eq_getElem?_getD]
  exact hp

/-- The freshly allocated pointer reads the fresh buffer. -/
theorem buf_append_new (l : List (Option (List α))) (x : Option (List α)) (a f : Nat)
    (c : List Kernel) :
    Heap.buf { bufs := l ++ [x], allocs := a, frees := f, calls := c } (l.length + 1) = x := by
  unfold Heap.buf
  simp only [Nat.add_one_ne_zero, if_false, Nat.add_sub_cancel]
  exact getD_length_append _ _ _

/-- Overwriting the freshly allocated buffer. -/
theorem setBuf_append_new (l : List (Option (List α))) (x : Option (List α)) (a f : Nat)
    (c : List Kernel) (b : List α) :
    Heap.setBuf { bufs := l ++ [x], allocs := a, frees := f, calls := c } (l.length + 1) b
      = { bufs := l ++ [some b], allocs := a, frees := f, calls := c } := by
  simp [Heap.setBuf, set_length_append]

theorem blit_eq_of_length (dst src : List α) (hlen : src.length = dst.length) :
    blit dst src = src := by
  unfold blit
  rw [← hlen, List.take_length, List.drop_eq_nil_of_le (by omega), List.append_nil]

/-- The first two steps of every composite algorithm: a temporary of the shape
of `m` is allocated and `m` is copied into it. -/
theorem make_copy (al : Allocator α) (h : Heap α) (m : Mat) (A : List α)
    (hm : m.Holds h A) :
    MatCopy (MatMake al h m.dim0 m.dim1).2 m (MatMake al h m.dim0 m.dim1).1
      = .ok { bufs := h.bufs ++ [some A], allocs := h.allocs + 1, frees := h.frees,
              calls := h.calls ++ [.copy] } := by
  obtain ⟨_, _, hfit, hbuf, hlen⟩ := hm
  have hmod : m.dim0 * m.dim1 % U32 = m.dim0 * m.dim1 := Nat.mod_eq_of_lt hfit
  simp only [MatCopy, MatMake, Alloc, ASSERT, hmod, if_true]
  show cblas_copy _ _ _ _ = _
  unfold cblas_copy
  by_cases hz : m.dim0 * m.dim1 = 0
  · have hA : A = [] := List.length_eq_zero.mp (by omega)
    simp [hz, Heap.log, hA]
  · rw [if_neg hz, buf_append_old _ _ _ _ _ _ _ hbuf, buf_append_new]
    simp only [List.length_map, List.length_range, hlen, le_refl, and_self, if_true]
    simp [Heap.setBuf, Heap.log, set_length_append, ← hlen]

end HeapLemmas

section BackendLemmas

variable {α : Type}

/-- The factorisation call on the freshly allocated temporary. -/
theorem getrf_on_temporary (be : Backend α) (l : List (Option (List α))) (A : List α)
    (a f : Nat) (c : List Kernel) (n : Nat) (hlen : A.length = n * n) :
    LAPACKE_getrf be { bufs := l ++ [some A], allocs := a, frees := f, calls := c }
        n n (l.length + 1) n
      = .ok ((be.getrf n n A n).2.1, (be.getrf n n A n).2.2,
          { bufs := l ++ [some (blit A (be.getrf n n A n).1)], allocs := a, frees := f,
            calls := c ++ [.getrf] }) := by
  unfold LAPACKE_getrf
  rw [buf_append_new]
  simp [hlen, setBuf_append_new, Heap.log]

end BackendLemmas

section SetBufLemmas

variable {α : Type}

theorem buf_log (h : Heap α) (k : Kernel) (p : Nat) : (h.log k).buf p = h.buf p := rfl

/-- Writing a live buffer: the pointer written reads the new contents. -/
theorem buf_setBuf_same (h : Heap α) (p : Nat) (b b' : List α) (hp : h.buf p = some b) :
    (h.setBuf p b').buf p = some b' := by
  obtain ⟨h0, hlt⟩ := buf_some_bounds h p b hp
  unfold Heap.setBuf Heap.buf
  simp only [h0, if_false]
  rw [List.getD_eq_getElem?_getD, List.getElem?_set_self hlt]
  rfl

/-- Writing a buffer leaves every other pointer as it was. -/
theorem buf_setBuf_other (h : Heap α) (p q : Nat) (b' : List α) (hpq : q ≠ p) :
    (h.setBuf p b').buf q = h.buf q := by
  unfold Heap.setBuf
  by_cases h0 : p = 0
  · simp [h0]
  · simp only [h0, if_false]
    unfold Heap.buf
    by_cases hq : q = 0
    · simp [hq]
    · simp only [hq, if_false]
      rw [List.getD_eq_getElem?_getD, List.getD_eq_getElem?_getD,
        List.getElem?_set_ne (by omega)]

theorem list_range_sum_eq [AddCommMonoid α] (f : Nat → α) (n : Nat) :
    ((List.range n).map f).sum = ∑ t in Finset.range n, f t := by
  induction n with
  | zero => simp
  | succ n ih => simp [List.range_succ, Finset.sum_range_succ, ih]

theorem getD_map_range (f : Nat → α) (n p : Nat) (d : α) (hp : p < n) :
    ((List.range n).map f).getD p d = f p := by
  rw [List.getD_eq_getElem?_getD]
  simp [hp]

end SetBufLemmas

section TemporaryLemmas

variable {α : Type}

/-- Reading the freshly allocated buffer. -/
theorem load_append_new (l : List (Option (List α))) (B : List α) (a f : Nat)
    (c : List Kernel) (i : Nat) (d : α) (hi : i < B.length) :
    Heap.load { bufs := l ++ [some B], allocs := a, frees := f, calls := c } (l.length + 1) i
      = .ok (B.getD i d) := by
  unfold Heap.load
  rw [buf_append_new]
  simp [hi, List.getD_eq_getElem?_getD]

/-- Releasing the freshly allocated buffer. -/
theorem free_append_new (l : List (Option (List α))) (B : List α) (a f : Nat)
    (c : List Kernel) (r k : Nat) :
    MatFree { bufs := l ++ [some B], allocs := a, frees := f, calls := c }
        ⟨r, k, l.length + 1⟩
      = .ok { bufs := l ++ [none], allocs := a, frees := f + 1, calls := c } := by
  unfold MatFree Free
  simp only [ASSERT, ne_eq, Nat.add_one_ne_zero, not_false_eq_true, if_true, bind, Except.bind,
    buf_append_new, Nat.add_sub_cancel, set_length_append]

end TemporaryLemmas

section AppendLemmas

variable {α : Type}

/-- Reading through an allocation: the new pointer reads the new buffer, every
other pointer reads what it read before. -/
theorem buf_mk_append (l : List (Option (List α))) (x : Option (List α)) (a f a' f' : Nat)
    (c c' : List Kernel) (p : Nat) :
    Heap.buf { bufs := l ++ [x], allocs := a, frees := f, calls := c } p
      = if p = l.length + 1 then x
        else Heap.buf { bufs := l, allocs := a', frees := f', calls := c' } p := by
  by_cases hp : p = l.length + 1
  · rw [if_pos hp, hp]
    exact buf_append_new _ _ _ _ _
  · rw [if_neg hp]
    unfold Heap.buf
    by_cases h0 : p = 0
    · simp [h0]
    · simp only [h0, if_false]
      rw [List.getD_eq_getElem?_getD, List.getD_eq_getElem?_getD]
      by_cases hlt : p - 1 < l.length
      · rw [List.getElem?_append_left hlt]
      · rw [List.getElem?_eq_none (by simp; omega), List.getElem?_eq_none (by omega)]

/-- Writing a buffer that was live before the last allocation. -/
theorem setBuf_mk_append_old (h : Heap α) (x : Option (List α)) (a f : Nat) (c : List Kernel)
    (p : Nat) (b b' : List α) (hp : h.buf p = some b) :
    Heap.setBuf { bufs := h.bufs ++ [x], allocs := a, frees := f, calls := c } p b'
      = { bufs := h.bufs.set (p - 1) (some b') ++ [x], allocs := a, frees := f, calls := c } := by
  obtain ⟨h0, hlt⟩ := buf_some_bounds h p b hp
  unfold Heap.setBuf
  simp only [h0, if_false]
  rw [List.set_append_left _ _ hlt]

/-- Releasing the last allocated buffer. -/
theorem free_last (l : List (Option (List α))) (B : List α) (a f : Nat)
    (c : List Kernel) (r k p : Nat) (hp : p = l.length + 1) :
    MatFree { bufs := l ++ [some B], allocs := a, frees := f, calls := c } ⟨r, k, p⟩
      = .ok { bufs := l ++ [none], allocs := a, frees := f + 1, calls := c } := by
  subst hp
  exact free_append_new l B a f c r k

/-- The inversion call on the freshly allocated temporary. -/
theorem getri_on_temporary (be : Backend α) (l : List (Option (List α))) (A : List α)
    (a f : Nat) (c : List Kernel) (n : Nat) (ipiv : List Int) (hlen : A.length = n * n) :
    LAPACKE_getri be { bufs := l ++ [some A], allocs := a, frees := f, calls := c }
        n (l.length + 1) n ipiv
      = .ok ((be.getri n A n ipiv).2,
          { bufs := l ++ [some (blit A (be.getri n A n ipiv).1)], allocs := a, frees := f,
            calls := c ++ [.getri] }) := by
  unfold LAPACKE_getri
  rw [buf_append_new]
  simp [hlen, setBuf_append_new, Heap.log]

/-- Copying the temporary into a destination of the same element count. -/
theorem copy_from_temporary (h : Heap α) (T D : List α) (a f : Nat) (c : List Kernel)
    (r k : Nat) (dst : Mat) (hD : h.buf dst.data = some D)
    (hT : T.length = r * k) (hDlen : D.length = r * k) (hfit : r * k < U32)
    (hdims : dst.dim0 * dst.dim1 = r * k) :
    MatCopy { bufs := h.bufs ++ [some T], allocs := a, frees := f, calls := c }
        ⟨r, k, h.bufs.length + 1⟩ dst
      = .ok { bufs := h.bufs.set (dst.data - 1) (some T) ++ [some T], allocs := a, frees := f,
              calls := c ++ [.copy] } := by
  obtain ⟨h0, hlt⟩ := buf_some_bounds h dst.data D hD
  have hmod : r * k % U32 = r * k := Nat.mod_eq_of_lt hfit
  simp only [MatCopy, ASSERT, hdims, hmod, if_true]
  show cblas_copy _ _ _ _ = _
  unfold cblas_copy
  by_cases hz : r * k = 0
  · have hT0 : T = [] := List.length_eq_zero.mp (by omega)
    have hD0 : D = [] := List.length_eq_zero.mp (by omega)
    subst hT0 hD0
    have hset : h.bufs.set (dst.data - 1) (some []) = h.bufs := by
      apply List.ext_getElem (by simp)
      intro i h1 h2
      rw [List.getElem_set]
      split
      · rename_i heq
        subst heq
        unfold Heap.buf at hD
        simp only [h0, if_false] at hD
        rw [List.getD_eq_getElem?_getD, List.getElem?_eq_getElem hlt, Option.getD_some] at hD
        exact hD.symm
      · rfl
    simp [hz, Heap.log, hset]
  · rw [if_neg hz, buf_append_new, buf_append_old _ _ _ _ _ _ _ hD]
    simp only [hT, hDlen, le_refl, and_self, if_true]
    rw [setBuf_mk_append_old _ _ _ _ _ _ _ _ hD]
    have hdrop : List.drop (r * k) D = [] := List.drop_eq_nil_of_le (by omega)
    have htake : List.take (r * k) T = T := List.take_of_length_le (by omega)
    simp [Heap.log, hdrop, htake]

end AppendLemmas

section AfterCopy

variable {α : Type}

/-- Reading the heap after the temporary was copied into the live buffer `q`
and released: `q` reads the copied contents, the released pointer reads
nothing, every other pointer reads what it read before. -/
theorem buf_after_copy_free (h : Heap α) (q : Nat) (T D : List α) (a f : Nat)
    (c : List Kernel) (hq : h.buf q = some D) (p : Nat) :
    Heap.buf { bufs := h.bufs.set (q - 1) (some T) ++ [none], allocs := a, frees := f,
               calls := c } p
      = if p = q then some T else if p = h.bufs.length + 1 then none else h.buf p := by
  obtain ⟨h0, hlt⟩ := buf_some_bounds h q D hq
  have hset : ({ bufs := h.bufs.set (q - 1) (some T), allocs := h.allocs, frees := h.frees,
                 calls := h.calls } : Heap α) = h.setBuf q T := by
    unfold Heap.setBuf
    rw [if_neg h0]
  rw [buf_mk_append _ _ _ _ h.allocs h.frees _ h.calls, hset, List.length_set]
  by_cases hpq : p = q
  · subst hpq
    rw [if_neg (by omega), if_pos rfl]
    exact buf_setBuf_same h p D T hq
  · rw [if_neg hpq, buf_setBuf_other _ _ _ _ hpq]

end AfterCopy

section LiveSteps

variable {α : Type}

/-- Writing a live buffer with the contents it has changes nothing. -/
theorem setBuf_self (h : Heap α) (p : Nat) (b : List α) (hp : h.buf p = some b) :
    h.setBuf p b = h := by
  obtain ⟨h0, hlt⟩ := buf_some_bounds h p b hp
  unfold Heap.setBuf
  rw [if_neg h0]
  have hset : h.bufs.set (p - 1) (some b) = h.bufs := by
    apply List.ext_getElem (by simp)
    intro i h1 h2
    rw [List.getElem_set]
    split
    · rename_i heq
      subst heq
      unfold Heap.buf at hp
      simp only [h0, if_false] at hp
      rw [List.getD_eq_getElem?_getD, List.getElem?_eq_getElem hlt, Option.getD_some] at hp
      exact hp.symm
    · rfl
  rw [hset]

/-- Generator `MAT_COPY` between two live matrices of the same element count: the
destination buffer receives the contents of the source. -/
theorem MatCopy_live (h : Heap α) (src dst : Mat) (S D : List α)
    (hS : h.buf src.data = some S) (hD : h.buf dst.data = some D)
    (hSlen : S.length = src.dim0 * src.dim1) (hDlen : D.length = dst.dim0 * dst.dim1)
    (heq : dst.dim0 * dst.dim1 = src.dim0 * src.dim1) (hfit : src.dim0 * src.dim1 < U32) :
    MatCopy h src dst = .ok ((h.setBuf dst.data S).log .copy) := by
  have hmod : src.dim0 * src.dim1 % U32 = src.dim0 * src.dim1 := Nat.mod_eq_of_lt hfit
  simp only [MatCopy, ASSERT, heq, hmod, if_true]
  show cblas_copy _ _ _ _ = _
  unfold cblas_copy
  by_cases hz : src.dim0 * src.dim1 = 0
  · have hS0 : S = [] := List.length_eq_zero.mp (by omega)
    have hD0 : D = [] := List.length_eq_zero.mp (by omega)
    subst hS0 hD0
    rw [if_pos hz, setBuf_self h _ _ hD]
  · rw [if_neg hz, hS, hD]
    simp only [hSlen, hDlen, heq, le_refl, and_self, if_true]
    have hdrop : List.drop (src.dim0 * src.dim1) D = [] :=
      List.drop_eq_nil_of_le (by omega)
    have htake : List.take (src.dim0 * src.dim1) S = S := List.take_of_length_le (by omega)
    rw [hdrop, htake, List.append_nil]

/-- Generator `MAT_FREE` of a live matrix. -/
theorem MatFree_live (h : Heap α) (m : Mat) (B : List α) (hB : h.buf m.data = some B) :
    MatFree h m
      = .ok { bufs := h.bufs.set (m.data - 1) none, allocs := h.allocs, frees := h.frees + 1,
              calls := h.calls } := by
  obtain ⟨h0, -⟩ := buf_some_bounds h m.data B hB
  unfold MatFree Free
  simp only [ASSERT, ne_eq, h0, not_false_eq_true, if_true, bind, Except.bind, hB]

/-- The Cholesky call on a live `n x n` buffer. -/
theorem potrf_live (be : Backend α) (h : Heap α) (n a : Nat) (A : List α)
    (hA : h.buf a = some A) (hlen : A.length = n * n) :
    LAPACKE_potrf be h n a n
      = .ok ((be.potrf n A n).2, (h.setBuf a (blit A (be.potrf n A n).1)).log .potrf) := by
  unfold LAPACKE_potrf
  rw [hA]
  simp [hlen]

theorem buf_two_fst (l : List (Option (List α))) (x y : Option (List α)) (a f : Nat)
    (c : List Kernel) :
    Heap.buf { bufs := l ++ [x, y], allocs := a, frees := f, calls := c } (l.length + 1) = x := by
  have hl : l ++ [x, y] = (l ++ [x]) ++ [y] := by simp
  rw [hl, buf_mk_append _ _ _ _ a f _ c, if_neg (by simp), buf_append_new]

theorem buf_two_snd (l : List (Option (List α))) (x y : Option (List α)) (a f : Nat)
    (c : List Kernel) :
    Heap.buf { bufs := l ++ [x, y], allocs := a, frees := f, calls := c } (l.length + 1 + 1)
      = y := by
  have hl : l ++ [x, y] = (l ++ [x]) ++ [y] := by simp
  have hlen : l.length + 1 + 1 = (l ++ [x]).length + 1 := by simp
  rw [hl, hlen, buf_append_new]

theorem buf_two_old (h : Heap α) (x y : Option (List α)) (a f : Nat) (c : List Kernel)
    (p : Nat) (b : List α) (hp : h.buf p = some b) :
    Heap.buf { bufs := h.bufs ++ [x, y], allocs := a, frees := f, calls := c } p = some b := by
  have hl : h.bufs ++ [x, y] = (h.bufs ++ [x]) ++ [y] := by simp
  rw [hl]
  exact buf_append_old { bufs := h.bufs ++ [x], allocs := a, frees := f, calls := c } y a f c p b
    (buf_append_old h x a f c p b hp)

theorem setBuf_two_fst (l : List (Option (List α))) (x y : Option (List α)) (a f : Nat)
    (c : List Kernel) (b : List α) :
    Heap.setBuf { bufs := l ++ [x, y], allocs := a, frees := f, calls := c } (l.length + 1) b
      = { bufs := l ++ [some b, y], allocs := a, frees := f, calls := c } := by
  unfold Heap.setBuf
  simp only [Nat.add_one_ne_zero, if_false, Nat.add_sub_cancel]
  congr 1
  induction l with
  | nil => rfl
  | cons z l ih => simp [List.set, ih]

theorem setBuf_two_snd (l : List (Option (List α))) (x y : Option (List α)) (a f : Nat)
    (c : List Kernel) (b : List α) :
    Heap.setBuf { bufs := l ++ [x, y], allocs := a, frees := f, calls := c } (l.length + 1 + 1) b
      = { bufs := l ++ [x, some b], allocs := a, frees := f, calls := c } := by
  unfold Heap.setBuf
  simp only [Nat.add_one_ne_zero, if_false, Nat.add_sub_cancel]
  congr 1
  induction l with
  | nil => rfl
  | cons z l ih => simp [List.set, ih]

theorem setBuf_two_old (h : Heap α) (x y : Option (List α)) (a f : Nat) (c : List Kernel)
    (p : Nat) (b b' : List α) (hp : h.buf p = some b) :
    Heap.setBuf { bufs := h.bufs ++ [x, y], allocs := a, frees := f, calls := c } p b'
      = { bufs := h.bufs.set (p - 1) (some b') ++ [x, y], allocs := a, frees := f,
          calls := c } := by
  obtain ⟨h0, hlt⟩ := buf_some_bounds h p b hp
  unfold Heap.setBuf
  simp only [h0, if_false]
  rw [List.set_append_left _ _ hlt]

theorem set_two_fst (l : List (Option (List α))) (x y z : Option (List α)) :
    (l ++ [x, y]).set l.length z = l ++ [z, y] := by
  induction l with
  | nil => rfl
  | cons w l ih => simp [List.set, ih]

theorem set_two_snd (l : List (Option (List α))) (x y z : Option (List α)) :
    (l ++ [x, y]).set (l.length + 1) z = l ++ [x, z] := by
  induction l with
  | nil => rfl
  | cons w l ih => simp [List.set, ih]

/-- Releasing the first of the last two allocated buffers. -/
theorem free_two_fst (l : List (Option (List α))) (B : List α) (y : Option (List α))
    (a f : Nat) (c : List Kernel) (r k p : Nat) (hp : p = l.length + 1) :
    MatFree { bufs := l ++ [some B, y], allocs := a, frees := f, calls := c } ⟨r, k, p⟩
      = .ok { bufs := l ++ [none, y], allocs := a, frees := f + 1, calls := c } := by
  subst hp
  rw [MatFree_live _ _ B (buf_two_fst _ _ _ _ _ _)]
  simp only [Nat.add_sub_cancel, set_two_fst]

/-- Releasing the second of the last two allocated buffers. -/
theorem free_two_snd (l : List (Option (List α))) (B : List α) (x : Option (List α))
    (a f : Nat) (c : List Kernel) (r k p : Nat) (hp : p = l.length + 1 + 1) :
    MatFree { bufs := l ++ [x, some B], allocs := a, frees := f, calls := c } ⟨r, k, p⟩
      = .ok { bufs := l ++ [x, none], allocs := a, frees := f + 1, calls := c } := by
  subst hp
  rw [MatFree_live _ _ B (buf_two_snd _ _ _ _ _ _)]
  simp only [Nat.add_sub_cancel, set_two_snd]

/-- Buffers that were live before some allocations are not affected by them. -/
theorem buf_app_old (h : Heap α) (s : List (Option (List α))) (a f : Nat) (c : List Kernel)
    (p : Nat) (b : List α) (hp : h.buf p = some b) :
    Heap.buf { bufs := h.bufs ++ s, allocs := a, frees := f, calls := c } p = some b := by
  obtain ⟨h0, hlt⟩ := buf_some_bounds h p b hp
  unfold Heap.buf at hp ⊢
  simp only [h0, if_false] at hp ⊢
  rw [List.getD_eq_getElem?_getD, List.getElem?_append_left hlt, ← List.getD_eq_getElem?_getD]
  exact hp

/-- After a write to the live buffer `q`, followed by allocations, `q` reads
the written contents. -/
theorem buf_set_app_same (h : Heap α) (q : Nat) (T D : List α) (s : List (Option (List α)))
    (a f : Nat) (c : List Kernel) (hq : h.buf q = some D) :
    Heap.buf { bufs := h.bufs.set (q - 1) (some T) ++ s, allocs := a, frees := f, calls := c } q
      = some T := by
  obtain ⟨h0, -⟩ := buf_some_bounds h q D hq
  have hset : (h.setBuf q T).bufs = h.bufs.set (q - 1) (some T) := by
    unfold Heap.setBuf
    rw [if_neg h0]
  rw [← hset]
  exact buf_app_old (h.setBuf q T) s a f c q T (buf_setBuf_same h q D T hq)

/-- After a write to the live buffer `q`, followed by allocations, every other
live buffer reads what it read before. -/
theorem buf_set_app_other (h : Heap α) (q p : Nat) (T D B : List α)
    (s : List (Option (List α))) (a f : Nat) (c : List Kernel) (hq : h.buf q = some D)
    (hp : h.buf p = some B) (hpq : p ≠ q) :
    Heap.buf { bufs := h.bufs.set (q - 1) (some T) ++ s, allocs := a, frees := f, calls := c } p
      = some B := by
  obtain ⟨h0, -⟩ := buf_some_bounds h q D hq
  have hset : (h.setBuf q T).bufs = h.bufs.set (q - 1) (some T) := by
    unfold Heap.setBuf
    rw [if_neg h0]
  rw [← hset]
  exact buf_app_old (h.setBuf q T) s a f c p B ((buf_setBuf_other h q p T hpq).trans hp)

end LiveSteps

/-! ### C1: transpose -/

/-- C1 (evaluation at the failing inputs): `transpose` of a non-square matrix
accesses offsets outside the buffers. For the 1 x 2 matrix `[1, 2]` and a 2 x 1
destination the read `m.data[j * dst.dim0 + i]` at `i = 0, j = 1` is at offset 2 of a buffer of
two elements; for the 2 x 1 matrix and a 1 x 2 destination the write
`dst.data[i * m.dim0 + j]` at `i = 1, j = 0` is at offset 2 as well. -/
theorem MatT_nonsquare_out_of_range :
    MatT (mkHeap [[1, 2], [0, 0]]) ⟨1, 2, 1⟩ ⟨2, 1, 2⟩
        = (.error .memory : Except Fault (Heap Int))
      ∧ MatT (mkHeap [[1, 2], [0, 0]]) ⟨2, 1, 1⟩ ⟨1, 2, 2⟩
        = (.error .memory : Except Fault (Heap Int)) := by
  decide

/-! ### C2: determinant -/

section Determinant

variable {α : Type} [CommRing α]

theorem foldlM_ok {β γ : Type} (f : β → γ → Except Fault β) (g : β → γ → β) (l : List γ)
    (init : β) (hf : ∀ b x, x ∈ l → f b x = .ok (g b x)) :
    l.foldlM f init = .ok (l.foldl g init) := by
  induction l generalizing init with
  | nil => rfl
  | cons x l ih =>
    rw [List.foldlM_cons, hf init x (List.mem_cons_self _ _)]
    exact ih _ (fun b y hy => hf b y (List.mem_cons_of_mem _ hy))

theorem foldl_mul_eq {γ : Type} (f : γ → α) (l : List γ) (init : α) :
    l.foldl (fun d i => d * f i) init = init * (l.map f).prod := by
  induction l generalizing init with
  | nil => simp
  | cons x l ih => simp [ih, mul_assoc]

theorem foldl_neg_eq {γ : Type} (c : γ → Prop) [DecidablePred c] (l : List γ) (init : α) :
    l.foldl (fun d j => if c j then -d else d) init
      = init * (l.map (fun j => if c j then (-1 : α) else 1)).prod := by
  induction l generalizing init with
  | nil => simp
  | cons x l ih =>
    rw [List.foldl_cons, ih, List.map_cons, List.prod_cons]
    by_cases hx : c x <;> simp [hx]

theorem range_map_prod_eq (f : Nat → α) (n : Nat) :
    ((List.range n).map f).prod = ∏ i : Fin n, f i := by
  rw [Fin.prod_univ_def, ← List.map_coe_finRange, List.map_map]
  rfl

/-- The sign of the pivot permutation is the product of the signs of its swaps. -/
theorem sign_pivotPerm (n : Nat) (ipiv : List Int)
    (hp : ∀ j : Fin n, ((j : Nat) : Int) + 1 ≤ ipiv.getD j 0 ∧ ipiv.getD j 0 ≤ (n : Int)) :
    (((Equiv.Perm.sign (pivotPerm n ipiv) : ℤˣ) : ℤ) : α)
      = ∏ j : Fin n, (if ipiv.getD j 0 ≠ ((j : Nat) : Int) + 1 then (-1 : α) else 1) := by
  have hrow : ∀ j : Fin n, (j = pivotRow n ipiv j) ↔ ipiv.getD j 0 = ((j : Nat) : Int) + 1 := by
    intro j
    obtain ⟨h1, h2⟩ := hp j
    have hlt : (ipiv.getD j 0 - 1).toNat < n := by omega
    unfold pivotRow
    rw [dif_pos hlt, Fin.ext_iff]
    simp only
    omega
  have key : ∀ l : List (Fin n),
      (((Equiv.Perm.sign ((l.map (fun j => Equiv.swap j (pivotRow n ipiv j))).prod) : ℤˣ) : ℤ) : α)
        = (l.map (fun j : Fin n =>
            if ipiv.getD j 0 ≠ ((j : Nat) : Int) + 1 then (-1 : α) else 1)).prod := by
    intro l
    induction l with
    | nil => simp
    | cons j l ih =>
      rw [List.map_cons, List.prod_cons, Equiv.Perm.sign_mul, Units.val_mul, Int.cast_mul, ih,
        List.map_cons, List.prod_cons, Equiv.Perm.sign_swap']
      congr 1
      by_cases hj : ipiv.getD j 0 = ((j : Nat) : Int) + 1
      · rw [if_pos ((hrow j).mpr hj), if_neg (not_not.mpr hj)]
        norm_num
      · have hne : ¬ (j = pivotRow n ipiv j) := fun h => hj ((hrow j).mp h)
        rw [if_neg hne, if_pos hj]
        norm_num
  unfold pivotPerm
  rw [key, Fin.prod_univ_def]

theorem prod_neg_one_eq (n : Nat) (ipiv : List Int) :
    (∏ j : Fin n, (if ipiv.getD j 0 ≠ ((j : Nat) : Int) + 1 then (-1 : α) else 1))
      = (-1) ^ pivotMismatches n ipiv := by
  unfold pivotMismatches
  rw [Finset.prod_ite, Finset.prod_const, Finset.prod_const_one, mul_one]

/-- The determinant of a matrix from a successful LU factorisation of it. -/
theorem det_of_IsLU (n : Nat) (A lu : List α) (ipiv : List Int) (hlu : IsLU n A lu ipiv) :
    Matrix.det (toMatrix n n A)
      = (∏ i : Fin n, lu.getD (i * n + i) 0) * (-1) ^ pivotMismatches n ipiv := by
  obtain ⟨_, hp, hperm⟩ := hlu
  have hL : (lowerOf n lu).det = 1 := by
    rw [Matrix.det_of_lowerTriangular]
    · simp [lowerOf]
    · intro i j hij
      have hlt : i < j := hij
      simp [lowerOf, not_lt.mpr hlt.le, hlt.ne']
  have hU : (upperOf n lu).det = ∏ i : Fin n, lu.getD (i * n + i) 0 := by
    rw [Matrix.det_of_upperTriangular]
    · simp [upperOf]
    · intro i j hij
      have hlt : j < i := hij
      simp [upperOf, not_le.mpr hlt]
  have hdet := congrArg Matrix.det hperm
  rw [Matrix.det_permute, Matrix.det_mul, hL, hU, one_mul, sign_pivotPerm n ipiv hp,
    prod_neg_one_eq] at hdet
  have hsq : ((-1 : α) ^ pivotMismatches n ipiv) * ((-1) ^ pivotMismatches n ipiv) = 1 := by
    rw [← mul_pow]
    simp
  calc Matrix.det (toMatrix n n A)
      = ((-1 : α) ^ pivotMismatches n ipiv) * ((-1) ^ pivotMismatches n ipiv)
          * Matrix.det (toMatrix n n A) := by rw [hsq, one_mul]
    _ = (∏ i : Fin n, lu.getD (i * n + i) 0) * (-1) ^ pivotMismatches n ipiv := by
        rw [mul_assoc, hdet, mul_comm]

/-- C2: for a square `n x n` matrix `m` on which the backend LU factorisation
succeeds (status 0, factors packed in the temporary, 1-based pivot sequence),
`determinant(m)` returns the determinant of `m`, which is the product of the
`n` diagonal entries of the factored matrix times `(-1)` raised to the number
of positions `j` with `ipiv[j] ≠ j + 1`; `m` is unchanged. -/
theorem MatDet_eq_det (be : Backend α) (al : Allocator α) (h : Heap α) (m : Mat)
    (A : List α) (n : Nat) (hm : m.Holds h A) (hd0 : m.dim0 = n) (hd1 : m.dim1 = n)
    (hst : (be.getrf n n A n).2.2 = 0)
    (hlu : IsLU n A (be.getrf n n A n).1 (be.getrf n n A n).2.1) :
    ∃ h', MatDet be al h m = .ok (Matrix.det (toMatrix n n A), h')
      ∧ Matrix.det (toMatrix n n A)
          = (∏ i : Fin n, (be.getrf n n A n).1.getD (i * n + i) 0)
              * (-1) ^ pivotMismatches n (be.getrf n n A n).2.1
      ∧ h'.buf m.data = some A := by
  rcases m with ⟨r, c, pm⟩
  have e0 : n = r := hd0.symm
  have e1 : n = c := hd1.symm
  subst e0
  subst e1
  have hlen : A.length = n * n := hm.2.2.2.2
  have hn : n < U32 := hm.1
  have hfit : n * n < U32 := hm.2.2.1
  have hcopy := make_copy al h _ A hm
  simp only at hcopy
  have hdet := det_of_IsLU n A _ _ hlu
  obtain ⟨hlulen, hpiv, -⟩ := hlu
  refine ⟨{ bufs := h.bufs ++ [none], allocs := h.allocs + 1, frees := h.frees + 1,
            calls := h.calls ++ [.copy, .getrf] }, ?_, hdet, ?_⟩
  · unfold MatDet
    simp only [ASSERT, if_true]
    rw [hcopy]
    simp only [bind, Except.bind, MatMake, Alloc, getrf_on_temporary be _ _ _ _ _ _ hlen, hst,
      ne_eq, not_true_eq_false, if_false, pure, Except.pure, List.append_assoc,
      List.singleton_append, blit_eq_of_length _ _ (hlulen.trans hlen.symm)]
    have hidx : ∀ i, i < n → i * n + i < n * n := by
      intro i hi
      calc i * n + i < i * n + n := by omega
        _ = (i + 1) * n := by ring
        _ ≤ n * n := Nat.mul_le_mul_right _ hi
    rw [foldlM_ok _ (fun det i => det * (be.getrf n n A n).1.getD (i * n + i) 0)]
    · simp only [free_append_new, foldl_mul_eq, foldl_neg_eq, one_mul, range_map_prod_eq]
      rw [hdet, ← prod_neg_one_eq]
      congr 3
      refine Finset.prod_congr rfl (fun j _ => ?_)
      obtain ⟨h1, h2⟩ := hpiv j
      have hj : (j : Nat) < n := j.isLt
      have hmod : ((j : Nat) + 1) % U32 = (j : Nat) + 1 := Nat.mod_eq_of_lt (by omega)
      have hU : (0 : Int) < (U32 : Int) := by unfold U32; norm_num
      have hemod : (be.getrf n n A n).2.1.getD j 0 % (U32 : Int)
          = (be.getrf n n A n).2.1.getD j 0 :=
        Int.emod_eq_of_lt (by omega) (by omega)
      rw [hmod, hemod]
      by_cases hc : (be.getrf n n A n).2.1.getD j 0 = ((j : Nat) : Int) + 1
      · rw [if_neg, if_neg]
        · exact not_not.mpr hc
        · rw [hc]
          push_cast
          exact not_not.mpr rfl
      · rw [if_pos, if_pos hc]
        rw [Nat.cast_add, Nat.cast_one]
        exact fun h => hc h.symm
    · intro b i hi
      have hi' : i < n := List.mem_range.mp hi
      rw [Nat.mod_eq_of_lt (lt_trans (hidx i hi') hfit),
        load_append_new _ _ _ _ _ _ 0 (by rw [hlulen]; exact hidx i hi')]
  · exact buf_append_old _ _ _ _ _ _ _ hm.2.2.2.1

theorem pivotPerm_two_swaps : pivotPerm 3 [2, 3, 3] = Equiv.swap 0 1 * Equiv.swap 1 2 := by
  decide

/-- A check of the pivot convention on a matrix that needs two swaps: for the
cyclic permutation matrix `[[0, 0, 1], [1, 0, 0], [0, 1, 0]]` partial pivoting
swaps rows 0 and 1, then rows 1 and 2, and leaves the identity. -/
theorem IsLU_two_swaps :
    IsLU 3 ([0, 0, 1, 1, 0, 0, 0, 1, 0] : List Int) [1, 0, 0, 0, 1, 0, 0, 0, 1] [2, 3, 3] := by
  refine ⟨by decide, by decide, ?_⟩
  rw [pivotPerm_two_swaps]
  ext i j
  fin_cases i <;> fin_cases j <;>
    simp [toMatrix, lowerOf, upperOf, Matrix.mul_apply, Fin.sum_univ_three,
      Equiv.swap_apply_def]

theorem pivotPerm_detTest : pivotPerm 3 [3, 2, 3] = Equiv.swap 0 2 := by
  decide

theorem IsLU_detTest : IsLU 3 detTestMatrix detTestFactors [3, 2, 3] := by
  refine ⟨by decide, by decide, ?_⟩
  rw [pivotPerm_detTest]
  ext i j
  fin_cases i <;> fin_cases j <;>
    simp [toMatrix, lowerOf, upperOf, Matrix.mul_apply, Fin.sum_univ_three, detTestMatrix,
      detTestFactors, Equiv.swap_apply_def] <;> norm_num

/-- Witness for C2: on the 3 x 3 matrix of `test_determinant` (exact rationals)
the result is within `1e-6` of `-0.130408`. -/
theorem MatDet_eq_det_witness :
    Mat.Holds (mkHeap [detTestMatrix]) ⟨3, 3, 1⟩ detTestMatrix
      ∧ (detTestBackend.getrf 3 3 detTestMatrix 3).2.2 = 0
      ∧ IsLU 3 detTestMatrix (detTestBackend.getrf 3 3 detTestMatrix 3).1
          (detTestBackend.getrf 3 3 detTestMatrix 3).2.1
      ∧ ∃ d h', MatDet detTestBackend ratAlloc (mkHeap [detTestMatrix]) ⟨3, 3, 1⟩ = .ok (d, h')
          ∧ |d - (-130408 / 1000000)| < 1 / 1000000 := by
  have hholds : Mat.Holds (mkHeap [detTestMatrix]) ⟨3, 3, 1⟩ detTestMatrix := by
    refine ⟨by decide, by decide, by decide, rfl, rfl⟩
  refine ⟨hholds, rfl, IsLU_detTest, ?_⟩
  obtain ⟨h', hrun, -, -⟩ :=
    MatDet_eq_det detTestBackend ratAlloc (mkHeap [detTestMatrix]) ⟨3, 3, 1⟩ detTestMatrix 3
      hholds rfl rfl rfl IsLU_detTest
  refine ⟨_, h', hrun, ?_⟩
  rw [Matrix.det_fin_three]
  simp only [toMatrix, detTestMatrix]
  norm_num [abs_lt]

end Determinant

/-! ### C3: inverse, factorisation failure -/

section FactorisationFailure

variable {α : Type}

/-- C3: if the LU factorisation of the temporary copy of the square matrix `m`
reports a non-zero status `s`, then `inverse(m, dst)` returns exactly `s`; the
only kernels invoked are the copy into the temporary and the factorisation (the
LU-based inverse routine is not called), and every buffer that was live before
the call, in particular those of `m` and `dst`, has the contents it had. -/
theorem MatInv_factorisation_failure (be : Backend α) (al : Allocator α) (h : Heap α)
    (m dst : Mat) (A : List α) (s : Int)
    (hm : m.Holds h A) (hsq : m.dim0 = m.dim1)
    (hdst : m.dim0 = dst.dim0 ∧ m.dim1 = dst.dim1)
    (hs : (be.getrf m.dim0 m.dim0 A m.dim0).2.2 = s) (hs0 : s ≠ 0) :
    ∃ h', MatInv be al h m dst = .ok (s, h')
      ∧ h'.calls = h.calls ++ [.copy, .getrf]
      ∧ h'.buf m.data = some A
      ∧ ∀ p b, h.buf p = some b → h'.buf p = some b := by
  rcases m with ⟨n, c, pm⟩
  rcases dst with ⟨d0, d1, pd⟩
  simp only at hsq hdst hs
  obtain ⟨rfl, rfl⟩ := hdst
  subst hsq
  have hlen : A.length = n * n := hm.2.2.2.2
  have hcopy := make_copy al h _ A hm
  simp only at hcopy
  refine ⟨{ bufs := h.bufs ++ [some (blit A (be.getrf n n A n).1)],
            allocs := h.allocs + 1, frees := h.frees,
            calls := h.calls ++ [.copy, .getrf] }, ?_, rfl, ?_, ?_⟩
  · unfold MatInv
    simp only [ASSERT, and_self, if_true]
    rw [hcopy]
    simp only [bind, Except.bind, MatMake, Alloc, getrf_on_temporary be _ _ _ _ _ _ hlen, hs,
      ne_eq, hs0, not_false_eq_true, if_true, pure, Except.pure, List.append_assoc,
      List.singleton_append]
  · exact buf_append_old _ _ _ _ _ _ _ hm.2.2.2.1
  · intro p b hp
    exact buf_append_old _ _ _ _ _ _ _ hp

/-- Witness for C3: a 1 x 1 matrix `[0]` whose factorisation reports status 1;
`inverse` returns 1 and the destination still holds `[5]`. -/
theorem MatInv_factorisation_failure_witness :
    Mat.Holds zeroHeap ⟨1, 1, 1⟩ [0]
      ∧ (singularBackend.getrf 1 1 [0] 1).2.2 = 1
      ∧ ∃ h', MatInv singularBackend intAlloc zeroHeap ⟨1, 1, 1⟩ ⟨1, 1, 2⟩
            = .ok (1, h')
          ∧ h'.calls = [.copy, .getrf] ∧ h'.buf 1 = some [0] ∧ h'.buf 2 = some [5] := by
  refine ⟨by decide, rfl, ?_⟩
  obtain ⟨h', hrun, hcalls, hm, hold⟩ :=
    MatInv_factorisation_failure singularBackend intAlloc zeroHeap
      ⟨1, 1, 1⟩ ⟨1, 1, 2⟩ [0] 1 (by decide) rfl (by decide) rfl (by decide)
  exact ⟨h', hrun, hcalls, hm, hold 2 [5] (by decide)⟩

end FactorisationFailure

/-! ### C4: allocator balance -/

/-- C4 (evaluation at the failing input): on the factorisation-failure path
`inverse` and `determinant` return with one allocate call and no release call:
the temporary is still live in the final heap. -/
theorem MatInv_MatDet_failure_leak :
    (MatInv singularBackend intAlloc (mkHeap [[0], [5]]) ⟨1, 1, 1⟩ ⟨1, 1, 2⟩).map
        (fun r => (r.1, r.2.allocs, r.2.frees, r.2.buf 3)) = .ok (1, 1, 0, some [0])
      ∧ (MatDet singularBackend intAlloc (mkHeap [[0]]) ⟨1, 1, 1⟩).map
        (fun r => (r.1, r.2.allocs, r.2.frees, r.2.buf 2)) = .ok (0, 1, 0, some [0]) := by
  decide

/-! ### C5: inverse -/

section MultiplyRun

variable {α : Type} [CommRing α]

/-- The run of `MAT_MUL` on live buffers of matching shapes, the buffer of `c`
distinct from those of `a` and `b`: the entries of `c` afterwards are the sums
of products, `a` and `b` keep their contents. -/
theorem MatMul_run (h : Heap α) (a b c : Mat) (A B C : List α)
    (ha : h.buf a.data = some A) (hA : A.length = a.dim0 * a.dim1)
    (hb : h.buf b.data = some B) (hB : B.length = b.dim0 * b.dim1)
    (hc : h.buf c.data = some C) (hC : C.length = c.dim0 * c.dim1)
    (hshape : a.dim0 = c.dim0 ∧ a.dim1 = b.dim0 ∧ b.dim1 = c.dim1)
    (hca : c.data ≠ a.data) (hcb : c.data ≠ b.data) :
    ∃ h' C', MatMul h a b c = .ok h' ∧ h'.buf c.data = some C'
      ∧ C'.length = c.dim0 * c.dim1
      ∧ (∀ i j, i < c.dim0 → j < c.dim1 →
          C'.getD (i * c.dim1 + j) 0
            = ∑ t in Finset.range a.dim1,
                A.getD (i * a.dim1 + t) 0 * B.getD (t * b.dim1 + j) 0)
      ∧ h'.buf a.data = some A ∧ h'.buf b.data = some B := by
  rcases a with ⟨r, k, pa⟩
  rcases b with ⟨k', n, pb⟩
  rcases c with ⟨r', n', pc⟩
  simp only at ha hA hb hB hc hC hshape hca hcb ⊢
  obtain ⟨rfl, rfl, rfl⟩ := hshape
  refine ⟨(h.setBuf pc ((List.range C.length).map (fun p =>
      if p / n < r ∧ p % n < n then gemmEntry k 1 A k B n 0 C n (p / n) (p % n)
      else C.getD p 0))).log .gemm, _, ?_, buf_setBuf_same h pc C _ hc, ?_, ?_, ?_, ?_⟩
  · unfold MatMul cblas_gemm
    simp only [ASSERT, and_self, if_true, bind, Except.bind, ha, hb, hc]
    rw [if_pos]
    refine ⟨?_, ?_, ?_, le_refl _, le_refl _⟩
    · rw [hA, Nat.mul_comm]
    · rw [hB, Nat.mul_comm]
    · rw [hC, Nat.mul_comm]
  · simp
    exact hC
  · intro i j hi hj
    have hn : 0 < n := by omega
    have hlt : i * n + j < C.length := by
      rw [hC]
      calc i * n + j < i * n + n := by omega
        _ = (i + 1) * n := by ring
        _ ≤ r * n := Nat.mul_le_mul_right _ hi
    rw [getD_map_range _ _ _ _ hlt]
    have hdiv : (i * n + j) / n = i := by
      rw [Nat.mul_comm, Nat.mul_add_div hn, Nat.div_eq_of_lt hj, Nat.add_zero]
    have hmod : (i * n + j) % n = j := by
      rw [Nat.mul_comm, Nat.mul_add_mod, Nat.mod_eq_of_lt hj]
    simp only [hdiv, hmod, hi, hj, and_self, if_true, gemmEntry, one_mul, zero_mul, add_zero,
      list_range_sum_eq]
  · rw [buf_log, buf_setBuf_other _ _ _ _ (Ne.symm hca)]
    exact ha
  · rw [buf_log, buf_setBuf_other _ _ _ _ (Ne.symm hcb)]
    exact hb

end MultiplyRun

section Inverse

variable {α : Type} [Field α]

/-- A matrix with non-zero determinant has no zero on the diagonal of `U`. -/
theorem diag_ne_zero_of_det_ne_zero (n : Nat) (A lu : List α) (ipiv : List Int)
    (hlu : IsLU n A lu ipiv) (hdet : Matrix.det (toMatrix n n A) ≠ 0) :
    ∀ i : Fin n, lu.getD (i * n + i) 0 ≠ 0 := by
  rw [det_of_IsLU n A lu ipiv hlu] at hdet
  have hprod : (∏ i : Fin n, lu.getD (i * n + i) 0) ≠ 0 := left_ne_zero_of_mul hdet
  intro i
  exact (Finset.prod_ne_zero_iff.mp hprod) i (Finset.mem_univ i)

/-- C5: for an invertible `n x n` matrix `m` (exact arithmetic over a field,
the backend LU factorisation and LU-based inversion satisfying their contracts
at the calls made, `dst` a matrix of the same shape in a buffer of its own),
`inverse(m, dst)` returns status 0 and leaves in `dst` the inverse of `m`, with
`m` unchanged; `matMul(m, dst, p)` then leaves the `n x n` identity in `p`. -/
theorem MatInv_inverse (be : Backend α) (al : Allocator α) (h : Heap α) (m dst : Mat)
    (A D : List α) (n : Nat) (hm : m.Holds h A) (hdst : dst.Holds h D)
    (hm0 : m.dim0 = n) (hm1 : m.dim1 = n) (hd0 : dst.dim0 = n) (hd1 : dst.dim1 = n)
    (hne : dst.data ≠ m.data)
    (hinv : Matrix.det (toMatrix n n A) ≠ 0)
    (hrf : GetrfContract be n A)
    (hri : GetriContract be n (be.getrf n n A n).1 (be.getrf n n A n).2.1) :
    ∃ h' inv, MatInv be al h m dst = .ok (0, h')
      ∧ inv = (be.getri n (be.getrf n n A n).1 n (be.getrf n n A n).2.1).1
      ∧ h'.buf dst.data = some inv ∧ inv.length = n * n
      ∧ toMatrix n n A * toMatrix n n inv = 1
      ∧ h'.buf m.data = some A
      ∧ ∀ (p : Mat) (P : List α), p.dim0 = n → p.dim1 = n → h'.buf p.data = some P →
          P.length = n * n → p.data ≠ m.data → p.data ≠ dst.data →
          ∃ h'' I, MatMul h' m dst p = .ok h'' ∧ h''.buf p.data = some I
            ∧ I.length = n * n ∧ toMatrix n n I = 1 ∧ h''.buf m.data = some A := by
  rcases m with ⟨r, c, pm⟩
  rcases dst with ⟨d0, d1, pd⟩
  have e0 : n = r := hm0.symm
  have e1 : n = c := hm1.symm
  have e2 : n = d0 := hd0.symm
  have e3 : n = d1 := hd1.symm
  subst e0 e1 e2 e3
  simp only at hne
  have hlen : A.length = n * n := hm.2.2.2.2
  have hDlen : D.length = n * n := hdst.2.2.2.2
  have hfit : n * n < U32 := hm.2.2.1
  have hA : h.buf pm = some A := hm.2.2.2.1
  have hD : h.buf pd = some D := hdst.2.2.2.1
  have hcopy := make_copy al h _ A hm
  simp only at hcopy
  obtain ⟨hlu, hstatus⟩ := hrf
  have hdiag := diag_ne_zero_of_det_ne_zero n A _ _ hlu hinv
  have hst : (be.getrf n n A n).2.2 = 0 := hstatus.mpr hdiag
  obtain ⟨hri0, hrilen, hrimul⟩ := hri A hlen hlu hdiag
  have hlulen : (be.getrf n n A n).1.length = n * n := hlu.1
  refine ⟨{ bufs := h.bufs.set (pd - 1)
              (some (be.getri n (be.getrf n n A n).1 n (be.getrf n n A n).2.1).1) ++ [none],
            allocs := h.allocs + 1, frees := h.frees + 1,
            calls := h.calls ++ [.copy, .getrf, .getri, .copy] },
          (be.getri n (be.getrf n n A n).1 n (be.getrf n n A n).2.1).1, ?_, rfl, ?_, hrilen,
          hrimul, ?_, ?_⟩
  · unfold MatInv
    simp only [ASSERT, and_self, if_true]
    rw [hcopy]
    simp only [bind, Except.bind, MatMake, Alloc, getrf_on_temporary be _ _ _ _ _ _ hlen, hst,
      ne_eq, not_true_eq_false, if_false, pure, Except.pure, List.append_assoc,
      List.singleton_append, blit_eq_of_length _ _ (hlulen.trans hlen.symm),
      getri_on_temporary be _ _ _ _ _ _ _ hlulen,
      blit_eq_of_length _ _ (hrilen.trans hlulen.symm)]
    rw [copy_from_temporary h _ D _ _ _ n n ⟨n, n, pd⟩ hD hrilen hDlen hfit rfl]
    dsimp only
    rw [free_last _ _ _ _ _ _ _ _ (by rw [List.length_set])]
    simp only [hri0, List.append_assoc, List.singleton_append, List.cons_append,
      List.nil_append]
  · dsimp only
    rw [buf_after_copy_free h pd _ D _ _ _ hD, if_pos rfl]
  · dsimp only
    have hb := (buf_some_bounds h pm A hA).2
    rw [buf_after_copy_free h pd _ D _ _ _ hD, if_neg (Ne.symm hne), if_neg (by omega)]
    exact hA
  · intro p P hp0 hp1 hP hPlen hpm hpd
    rcases p with ⟨p0, p1, pp⟩
    have e4 : n = p0 := hp0.symm
    have e5 : n = p1 := hp1.symm
    subst e4 e5
    dsimp only at hP hpm hpd ⊢
    have hb := (buf_some_bounds h pm A hA).2
    have hmA : Heap.buf
        { bufs := (h.bufs.set (pd - 1)
            (some (be.getri n (be.getrf n n A n).1 n (be.getrf n n A n).2.1).1) ++ [none]),
          allocs := h.allocs + 1, frees := h.frees + 1,
          calls := h.calls ++ [.copy, .getrf, .getri, .copy] } pm = some A := by
      rw [buf_after_copy_free h pd _ D _ _ _ hD, if_neg (Ne.symm hne), if_neg (by omega)]
      exact hA
    have hdI : Heap.buf
        { bufs := (h.bufs.set (pd - 1)
            (some (be.getri n (be.getrf n n A n).1 n (be.getrf n n A n).2.1).1) ++ [none]),
          allocs := h.allocs + 1, frees := h.frees + 1,
          calls := h.calls ++ [.copy, .getrf, .getri, .copy] } pd
          = some (be.getri n (be.getrf n n A n).1 n (be.getrf n n A n).2.1).1 := by
      rw [buf_after_copy_free h pd _ D _ _ _ hD, if_pos rfl]
    obtain ⟨h'', I, hrun, hI, hIlen, hent, hmA', -⟩ :=
      MatMul_run _ ⟨n, n, pm⟩ ⟨n, n, pd⟩ ⟨n, n, pp⟩ A _ P hmA hlen hdI hrilen hP hPlen
        ⟨rfl, rfl, rfl⟩ hpm hpd
    refine ⟨h'', I, hrun, hI, hIlen, ?_, hmA'⟩
    rw [← hrimul]
    ext i j
    rw [Matrix.mul_apply]
    simp only [toMatrix]
    rw [hent i j i.isLt j.isLt, Finset.sum_range]

theorem pivotPerm_identity3 : pivotPerm 3 [1, 2, 3] = 1 := by
  decide

theorem GetrfContract_invTest : GetrfContract invTestBackend 3 invTestMatrix := by
  refine ⟨⟨by decide, by decide, ?_⟩, ?_⟩
  · show (toMatrix 3 3 invTestMatrix).submatrix (pivotPerm 3 [1, 2, 3]) id
        = lowerOf 3 invTestMatrix * upperOf 3 invTestMatrix
    rw [pivotPerm_identity3]
    ext i j
    fin_cases i <;> fin_cases j <;>
      simp [toMatrix, lowerOf, upperOf, Matrix.mul_apply, Fin.sum_univ_three, invTestMatrix]
  · refine ⟨fun _ i => ?_, fun _ => rfl⟩
    show invTestMatrix.getD (i * 3 + i) 0 ≠ 0
    fin_cases i <;> simp [invTestMatrix]

theorem GetriContract_invTest : GetriContract invTestBackend 3 invTestMatrix [1, 2, 3] := by
  intro A _ hlu _
  refine ⟨rfl, by decide, ?_⟩
  have hA := hlu.2.2
  rw [pivotPerm_identity3] at hA
  have hA' : toMatrix 3 3 A = lowerOf 3 invTestMatrix * upperOf 3 invTestMatrix := by
    rw [← hA]
    rfl
  rw [hA']
  show lowerOf 3 invTestMatrix * upperOf 3 invTestMatrix * toMatrix 3 3 invTestExpected = 1
  ext i j
  fin_cases i <;> fin_cases j <;>
    simp [toMatrix, lowerOf, upperOf, Matrix.mul_apply, Fin.sum_univ_three, invTestMatrix,
      invTestExpected]

/-- Witness for C5: for `m = diag(0.5, 1.5, 2.5)` the result is
`diag(1 / 0.5, 1 / 1.5, 1 / 2.5)`, `m` is unchanged, and the product of `m` and
the result is the identity. -/
theorem MatInv_inverse_witness :
    Mat.Holds invTestHeap ⟨3, 3, 1⟩ invTestMatrix
      ∧ Mat.Holds invTestHeap ⟨3, 3, 2⟩ [9, 9, 9, 9, 9, 9, 9, 9, 9]
      ∧ Matrix.det (toMatrix 3 3 invTestMatrix) ≠ 0
      ∧ GetrfContract invTestBackend 3 invTestMatrix
      ∧ GetriContract invTestBackend 3 invTestMatrix [1, 2, 3]
      ∧ ∃ h', MatInv invTestBackend ratAlloc invTestHeap ⟨3, 3, 1⟩ ⟨3, 3, 2⟩ = .ok (0, h')
          ∧ h'.buf 2 = some invTestExpected ∧ h'.buf 1 = some invTestMatrix
          ∧ ∃ h'' I, MatMul h' ⟨3, 3, 1⟩ ⟨3, 3, 2⟩ ⟨3, 3, 3⟩ = .ok h''
              ∧ h''.buf 3 = some I ∧ I.length = 9 ∧ toMatrix 3 3 I = 1 := by
  have hm : Mat.Holds invTestHeap ⟨3, 3, 1⟩ invTestMatrix :=
    ⟨by decide, by decide, by decide, rfl, rfl⟩
  have hd : Mat.Holds invTestHeap ⟨3, 3, 2⟩ [9, 9, 9, 9, 9, 9, 9, 9, 9] :=
    ⟨by decide, by decide, by decide, rfl, rfl⟩
  have hdet : Matrix.det (toMatrix 3 3 invTestMatrix) ≠ 0 := by
    rw [Matrix.det_fin_three]
    simp only [toMatrix, invTestMatrix]
    norm_num
  refine ⟨hm, hd, hdet, GetrfContract_invTest, GetriContract_invTest, ?_⟩
  obtain ⟨h', inv, hrun, hinv, hbuf, -, -, hmbuf, hmul⟩ :=
    MatInv_inverse invTestBackend ratAlloc invTestHeap ⟨3, 3, 1⟩ ⟨3, 3, 2⟩ invTestMatrix
      [9, 9, 9, 9, 9, 9, 9, 9, 9] 3 hm hd rfl rfl rfl rfl (by decide) hdet
      GetrfContract_invTest GetriContract_invTest
  subst hinv
  refine ⟨h', hrun, hbuf, hmbuf, ?_⟩
  have hp : h'.buf 3 = some [8, 8, 8, 8, 8, 8, 8, 8, 8] := by
    have hval : MatInv invTestBackend ratAlloc invTestHeap ⟨3, 3, 1⟩ ⟨3, 3, 2⟩
        = .ok (0, { bufs := [some invTestMatrix, some invTestExpected,
                      some [8, 8, 8, 8, 8, 8, 8, 8, 8], none],
                    allocs := 1, frees := 1, calls := [.copy, .getrf, .getri, .copy] }) := by
      rfl
    rw [hval] at hrun
    cases hrun
    rfl
  obtain ⟨h'', I, hrun2, hI, hIlen, hone, -⟩ :=
    hmul ⟨3, 3, 3⟩ [8, 8, 8, 8, 8, 8, 8, 8, 8] rfl rfl hp rfl (by decide) (by decide)
  exact ⟨h'', I, hrun2, hI, hIlen, hone⟩

end Inverse

/-! ### C6: matrix product -/

section Multiply

variable {α : Type} [CommRing α]

/-- C6: `matMul(a, b, c)` for `a` of shape r x k, `b` of shape k x n and `c` of
shape r x n (the buffer of `c` distinct from those of `a` and `b`), with the
backend general matrix multiply modelled by its row-major contract, returns and
leaves in `c` the standard matrix product: `c[i,j] = ∑ t < k, a[i,t] * b[t,j]`
for all `i < r`, `j < n`, whatever `c` held before; `a` and `b` are
unchanged. -/
theorem MatMul_product (h : Heap α) (a b c : Mat) (A B C : List α)
    (ha : h.buf a.data = some A) (hA : A.length = a.dim0 * a.dim1)
    (hb : h.buf b.data = some B) (hB : B.length = b.dim0 * b.dim1)
    (hc : h.buf c.data = some C) (hC : C.length = c.dim0 * c.dim1)
    (hshape : a.dim0 = c.dim0 ∧ a.dim1 = b.dim0 ∧ b.dim1 = c.dim1)
    (hca : c.data ≠ a.data) (hcb : c.data ≠ b.data) :
    ∃ h' C', MatMul h a b c = .ok h' ∧ h'.buf c.data = some C'
      ∧ C'.length = c.dim0 * c.dim1
      ∧ (∀ i j, i < c.dim0 → j < c.dim1 →
          C'.getD (i * c.dim1 + j) 0
            = ∑ t in Finset.range a.dim1,
                A.getD (i * a.dim1 + t) 0 * B.getD (t * b.dim1 + j) 0)
      ∧ h'.buf a.data = some A ∧ h'.buf b.data = some B :=
  MatMul_run h a b c A B C ha hA hb hB hc hC hshape hca hcb

/-- Witness for C6: the 3 x 3 matrices with data `0..8` and `2 * (0..8)` give
`[[30, 36, 42], [84, 108, 132], [138, 180, 222]]`, whatever `c` held. -/
theorem MatMul_product_witness :
    ∃ h', MatMul mulHeap ⟨3, 3, 1⟩ ⟨3, 3, 2⟩ ⟨3, 3, 3⟩ = .ok h'
      ∧ h'.buf 3 = some [30, 36, 42, 84, 108, 132, 138, 180, 222]
      ∧ h'.buf 1 = some [0, 1, 2, 3, 4, 5, 6, 7, 8]
      ∧ h'.buf 2 = some [0, 2, 4, 6, 8, 10, 12, 14, 16] := by
  obtain ⟨h', C', hrun, _, _, _, ha, hb⟩ :=
    MatMul_product mulHeap ⟨3, 3, 1⟩ ⟨3, 3, 2⟩ ⟨3, 3, 3⟩
      [0, 1, 2, 3, 4, 5, 6, 7, 8] [0, 2, 4, 6, 8, 10, 12, 14, 16] [7, 7, 7, 7, 7, 7, 7, 7, 7]
      (by decide) (by decide) (by decide) (by decide) (by decide) (by decide) (by decide)
      (by decide) (by decide)
  refine ⟨h', hrun, ?_, ha, hb⟩
  have hval : MatMul mulHeap ⟨3, 3, 1⟩ ⟨3, 3, 2⟩ ⟨3, 3, 3⟩
      = (.ok { bufs := [some [0, 1, 2, 3, 4, 5, 6, 7, 8],
                 some [0, 2, 4, 6, 8, 10, 12, 14, 16],
                 some [30, 36, 42, 84, 108, 132, 138, 180, 222]],
               allocs := 0, frees := 0, calls := [.gemm] } : Except Fault (Heap Int)) := by
    decide
  rw [hval] at hrun
  cases hrun
  decide

end Multiply

/-! ### C7, C8, C9: element, column and row access -/

/-- C7 (evaluation at the failing inputs): the index checks of `getElement` and
`setElement` are `<=`, so an index equal to the dimension passes them. On a
1 x 1 matrix the index `(1, 0)` passes both assertions and the access at offset
1 is outside the buffer; on a 2 x 2 matrix the index `(0, 2)` passes and reads,
or overwrites, offset 2, the element `(1, 0)`. -/
theorem MatElement_index_equal_to_dimension_passes :
    MatGetElement (mkHeap [[5]]) ⟨1, 1, 1⟩ 1 0 = (.error .memory : Except Fault Int)
      ∧ MatSetElement (mkHeap [[5]]) ⟨1, 1, 1⟩ 1 0 9
        = (.error .memory : Except Fault (Heap Int))
      ∧ MatGetElement (mkHeap [[1, 2, 3, 4]]) ⟨2, 2, 1⟩ 0 2 = (.ok 3 : Except Fault Int)
      ∧ MatSetElement (mkHeap [[1, 2, 3, 4]]) ⟨2, 2, 1⟩ 0 2 9
        = (.ok (mkHeap [[1, 2, 9, 4]]) : Except Fault (Heap Int)) := by
  decide

/-- C8 (evaluation at the failing input): `getCol` and `setCol` move `m.dim0`
contiguous elements starting at offset `dim * m.dim1`. On the 2 x 2 matrix
`[[1, 2], [3, 4]]` column 0 is `[1, 3]` (offsets 0 and 2), but `getCol` returns
`[1, 2]` and `setCol` overwrites offsets 0 and 1, changing the element `(0, 1)`
outside column 0 and leaving the element `(1, 0)` of column 0 as it was. -/
theorem MatCol_is_contiguous :
    MatGetCol (mkHeap [[1, 2, 3, 4], [0, 0]]) ⟨2, 2, 1⟩ 0 ⟨2, 1, 2⟩
        = (.ok (mkHeap [[1, 2, 3, 4], [1, 2]]) : Except Fault (Heap Int))
      ∧ MatSetCol (mkHeap [[1, 2, 3, 4], [8, 9]]) ⟨2, 2, 1⟩ 0 ⟨2, 1, 2⟩
        = (.ok (mkHeap [[8, 9, 3, 4], [8, 9]]) : Except Fault (Heap Int)) := by
  decide

/-- C9 (evaluation at the failing inputs): `setRow` and `getRow` compare the
element count of the vector with `m.dim0`, the number of rows. For a 1 x 2
matrix a vector of 2 elements (the row length) fails the assertion, and a
vector of 1 element passes it and is then read, or written, at offset 1. -/
theorem MatRow_assertion_uses_row_count :
    MatSetRow (mkHeap [[1, 2], [8, 9]]) ⟨1, 2, 1⟩ 0 ⟨2, 1, 2⟩
        = (.error .assertion : Except Fault (Heap Int))
      ∧ MatGetRow (mkHeap [[1, 2], [8, 9]]) ⟨1, 2, 1⟩ 0 ⟨2, 1, 2⟩
        = (.error .assertion : Except Fault (Heap Int))
      ∧ MatSetRow (mkHeap [[1, 2], [8]]) ⟨1, 2, 1⟩ 0 ⟨1, 1, 2⟩
        = (.error .memory : Except Fault (Heap Int))
      ∧ MatGetRow (mkHeap [[1, 2], [8]]) ⟨1, 2, 1⟩ 0 ⟨1, 1, 2⟩
        = (.error .memory : Except Fault (Heap Int)) := by
  decide

/-! ### C10: covariance scaling -/

section Cholesky

variable {α : Type} [LinearOrderedField α]

/-- Row `k` of a Cholesky factor is determined by the rows above it. -/
theorem cholesky_row_unique (n : Nat) (U V : Matrix (Fin n) (Fin n) α) (C : List α)
    (hU : IsCholesky n U C) (hV : IsCholesky n V C) (k : Fin n)
    (ih : ∀ t : Fin n, t < k → ∀ j, U t j = V t j) : ∀ j, U k j = V k j := by
  obtain ⟨hUtri, hUpos, hUmul⟩ := hU
  obtain ⟨hVtri, hVpos, hVmul⟩ := hV
  have hprod : ∀ j : Fin n, k ≤ j → U k k * U k j = V k k * V k j := by
    intro j hkj
    have h1 := hUmul k j hkj
    have h2 := hVmul k j hkj
    rw [Matrix.mul_apply] at h1 h2
    have hdiff : ∑ t : Fin n, (U.transpose k t * U t j - V.transpose k t * V t j) = 0 := by
      rw [Finset.sum_sub_distrib, h1, h2, sub_self]
    rw [Finset.sum_eq_single k] at hdiff
    · simp only [Matrix.transpose_apply] at hdiff
      exact sub_eq_zero.mp hdiff
    · intro t _ htk
      simp only [Matrix.transpose_apply]
      rcases lt_or_gt_of_ne htk with hlt | hgt
      · rw [ih t hlt k, ih t hlt j, sub_self]
      · rw [hUtri t k hgt, hVtri t k hgt]
        simp
    · intro hk
      exact absurd (Finset.mem_univ k) hk
  have hkk : U k k = V k k :=
    (mul_self_inj_of_nonneg (hUpos k).le (hVpos k).le).mp (hprod k le_rfl)
  intro j
  rcases lt_or_le j k with hjk | hkj
  · rw [hUtri k j hjk, hVtri k j hjk]
  · have h := hprod j hkj
    rw [hkk] at h
    exact mul_left_cancel₀ (ne_of_gt (hVpos k)) h

/-- The Cholesky factor is unique. -/
theorem cholesky_unique (n : Nat) (U V : Matrix (Fin n) (Fin n) α) (C : List α)
    (hU : IsCholesky n U C) (hV : IsCholesky n V C) : U = V := by
  have key : ∀ m : Nat, ∀ k : Fin n, (k : Nat) < m → ∀ j, U k j = V k j := by
    intro m
    induction m with
    | zero => intro k hk; omega
    | succ m ihm =>
      intro k _
      exact cholesky_row_unique n U V C hU hV k
        (fun t htk => ihm t (by have : (t : Nat) < k := htk; omega))
  ext i j
  exact key (i + 1) i (Nat.lt_succ_self _) j

end Cholesky

section CovarianceScale

variable {α : Type} [LinearOrderedField α]

theorem filter_map_sum_eq (f : Nat → α) (p : Nat → Prop) [DecidablePred p] (n : Nat) :
    (((List.range n).filter (fun j => p j)).map f).sum
      = ∑ j in Finset.range n, if p j then f j else 0 := by
  induction n with
  | zero => simp
  | succ n ih =>
    rw [List.range_succ, List.filter_append, List.map_append, List.sum_append, ih,
      Finset.sum_range_succ]
    by_cases hp : p n <;> simp [hp]

theorem trmvVec_length (N : Nat) (A : List α) (lda : Nat) (X : List α) :
    (trmvVec N A lda X).length = X.length := by
  simp [trmvVec]

/-- The entries of `trmvVec` are those of the product of the upper triangle
with the vector. -/
theorem trmvVec_entry (n : Nat) (A X : List α) (hX : X.length = n) (i : Fin n) :
    (trmvVec n A n X).getD i 0
      = Matrix.mulVec (upperOf n A) (fun j : Fin n => X.getD j 0) i := by
  unfold trmvVec
  rw [hX, getD_map_range _ _ _ _ i.isLt, if_pos i.isLt, filter_map_sum_eq, Finset.sum_range]
  simp only [Matrix.mulVec, Matrix.dotProduct, upperOf]
  refine Finset.sum_congr rfl (fun j _ => ?_)
  by_cases hij : i ≤ j
  · have : (i : Nat) ≤ j := hij
    simp [hij, this]
  · have : ¬ ((i : Nat) ≤ j) := hij
    simp [hij, this]

/-- The triangular multiply on live buffers: an `n x n` matrix buffer and a
vector buffer of `n` elements. -/
theorem trmv_live (h : Heap α) (n a x : Nat) (A X : List α)
    (hA : h.buf a = some A) (hX : h.buf x = some X)
    (hAlen : A.length = n * n) (hXlen : X.length = n) :
    cblas_trmv h n a n x = .ok ((h.setBuf x (trmvVec n A n X)).log .trmv) := by
  unfold cblas_trmv
  rw [hA, hX]
  simp [hAlen, hXlen]

/-- C10: for an `n x n` matrix `cov` whose upper triangle is that of the
symmetric positive-definite matrix `Uᵀ * U` (`U` upper triangular with positive
diagonal, its Cholesky factor), an `n`-element column vector `x` and an
`n`-element column vector `dst`, with the backend Cholesky factorisation
satisfying its contract at the call made, `covarianceScale(cov, x, dst)`
returns and leaves `dst = U * x`. The result is determined by `U`, and
`IsCholesky` relates `U` to the entries of `cov` on and above the diagonal
only: the entries below the diagonal have no influence. -/
theorem MatCovScale_cholesky (be : Backend α) (al : Allocator α) (h : Heap α)
    (cov x dst : Mat) (C X D : List α) (n : Nat) (U : Matrix (Fin n) (Fin n) α)
    (hcov : cov.Holds h C) (hx : x.Holds h X) (hdst : dst.Holds h D)
    (hc0 : cov.dim0 = n) (hc1 : cov.dim1 = n) (hx0 : x.dim0 = n) (hx1 : x.dim1 = 1)
    (hd0 : dst.dim0 = n) (hd1 : dst.dim1 = 1)
    (hU : IsCholesky n U C) (hbe : PotrfContract be n C) :
    ∃ h' R, MatCovScale be al h cov x dst = .ok h' ∧ h'.buf dst.data = some R
      ∧ R.length = n
      ∧ ∀ i : Fin n, R.getD i 0 = Matrix.mulVec U (fun j : Fin n => X.getD j 0) i := by
  rcases cov with ⟨c0, c1, pc⟩
  rcases x with ⟨x0, x1, px⟩
  rcases dst with ⟨d0, d1, pd⟩
  have e0 : n = c0 := hc0.symm
  have e1 : n = c1 := hc1.symm
  have e2 : n = x0 := hx0.symm
  have e3 : 1 = x1 := hx1.symm
  have e4 : n = d0 := hd0.symm
  have e5 : 1 = d1 := hd1.symm
  subst e0 e1 e2 e3 e4 e5
  have hClen : C.length = n * n := hcov.2.2.2.2
  have hXlen : X.length = n := by rw [hx.2.2.2.2, Nat.mul_one]
  have hDlen : D.length = n := by rw [hdst.2.2.2.2, Nat.mul_one]
  have hfit : n * n < U32 := hcov.2.2.1
  have hn : n < U32 := hcov.1
  have hC : h.buf pc = some C := hcov.2.2.2.1
  have hX : h.buf px = some X := hx.2.2.2.1
  have hD : h.buf pd = some D := hdst.2.2.2.1
  obtain ⟨hst, hOlen, hOchol⟩ := hbe ⟨U, hU⟩
  have hUeq : upperOf n (be.potrf n C n).1 = U :=
    cholesky_unique n _ _ C hOchol hU
  refine ⟨{ bufs := h.bufs.set (pd - 1) (some (trmvVec n (be.potrf n C n).1 n X))
              ++ [none, none],
            allocs := h.allocs + 2, frees := h.frees + 2,
            calls := h.calls ++ [.copy, .copy, .potrf, .trmv, .copy] },
          trmvVec n (be.potrf n C n).1 n X, ?_, ?_, ?_, ?_⟩
  · unfold MatCovScale
    simp only [ASSERT, and_self, or_true, if_true, bind, Except.bind, MatMake, Alloc,
      List.append_assoc, List.singleton_append, List.length_append, List.length_singleton,
      List.cons_append, List.nil_append]
    rw [Nat.mul_one, Nat.mod_eq_of_lt hfit, Nat.mod_eq_of_lt hn]
    have hjC : (List.map al.junk (List.range (n * n))).length = n * n := by simp
    have hjX : (List.map al.junk (List.range n)).length = n := by simp
    generalize List.map al.junk (List.range (n * n)) = jC at hjC ⊢
    generalize List.map al.junk (List.range n) = jX at hjX ⊢
    rw [MatCopy_live _ ⟨n, n, pc⟩ ⟨n, n, h.bufs.length + 1⟩ C jC
      (buf_two_old h _ _ _ _ _ pc C hC) (buf_two_fst _ _ _ _ _ _) hClen hjC rfl hfit]
    simp only [setBuf_two_fst, Heap.log]
    rw [MatCopy_live _ ⟨n, 1, px⟩ ⟨n, 1, h.bufs.length + 1 + 1⟩ X jX
      (buf_two_old h _ _ _ _ _ px X hX) (buf_two_snd _ _ _ _ _ _)
      (by rw [hXlen, Nat.mul_one]) (by rw [hjX, Nat.mul_one]) rfl
      (by rw [Nat.mul_one]; exact hn)]
    simp only [setBuf_two_snd, Heap.log]
    rw [potrf_live be _ n _ C (buf_two_fst _ _ _ _ _ _) hClen]
    simp only [setBuf_two_fst, Heap.log, blit_eq_of_length _ _ (hOlen.trans hClen.symm)]
    rw [trmv_live _ n _ _ (be.potrf n C n).1 X (buf_two_fst _ _ _ _ _ _)
      (buf_two_snd _ _ _ _ _ _) hOlen hXlen]
    simp only [setBuf_two_snd, Heap.log]
    rw [MatCopy_live _ ⟨n, 1, h.bufs.length + 1 + 1⟩ ⟨n, 1, pd⟩ (trmvVec n (be.potrf n C n).1 n X)
      D (buf_two_snd _ _ _ _ _ _) (buf_two_old h _ _ _ _ _ pd D hD)
      (by rw [trmvVec_length, hXlen, Nat.mul_one]) (by rw [hDlen, Nat.mul_one]) rfl
      (by rw [Nat.mul_one]; exact hn)]
    simp only [setBuf_two_old h _ _ _ _ _ pd D _ hD, Heap.log]
    rw [free_two_fst _ _ _ _ _ _ _ _ _ (by rw [List.length_set])]
    dsimp only
    rw [free_two_snd _ _ _ _ _ _ _ _ _ (by rw [List.length_set])]
    simp only [pure, Except.pure, List.append_assoc, List.singleton_append, List.cons_append,
      List.nil_append]
  · exact buf_set_app_same h pd _ D _ _ _ _ hD
  · rw [trmvVec_length, hXlen]
  · intro i
    rw [trmvVec_entry n _ X hXlen i, hUeq]

end CovarianceScale

section CovarianceScaleWitness

/-- The upper triangle `[[1, 0, 1/2], [0, a, 0], [0, 0, b]]` with `a * a = 1/2`
and `b * b = 7/4` is the Cholesky factor of the covariance matrix of
`test_covariance_scaling`. -/
theorem covTest_cholesky (a b : ℝ) (ha : a * a = 1 / 2) (hb : b * b = 7 / 4) (ha0 : 0 < a)
    (hb0 : 0 < b) :
    IsCholesky 3 (upperOf 3 [1, 0, 1 / 2, 0, a, 0, 0, 0, b])
      [1, 0, 1 / 2, 0, 1 / 2, 0, 0, 0, 2] := by
  refine ⟨?_, ?_, ?_⟩
  · intro i j hij
    fin_cases i <;> fin_cases j <;> first | exact absurd hij (by decide) | simp [upperOf]
  · intro i
    fin_cases i
    · simp [upperOf]
    · simpa [upperOf] using ha0
    · simpa [upperOf] using hb0
  · intro i j hij
    fin_cases i <;> fin_cases j <;>
      first
      | exact absurd hij (by decide)
      | (simp [Matrix.mul_apply, Fin.sum_univ_three, upperOf]; try linarith)

/-- Witness for C10: `cov = [[1, 0, 0.5], [0, 0.5, 0], [0, 0, 2]]` and
`x = [1, 2, 3]` over the reals, with a backend whose Cholesky factorisation
leaves `[[1, 0, 1/2], [., √(1/2), 0], [., ., √(7/4)]]`: the result is
`[2.5, √0.5 * 2, √1.75 * 3]`, within `1e-5` of `[2.5, 1.414214, 3.968627]`. -/
theorem MatCovScale_cholesky_witness :
    ∃ h' R,
      MatCovScale
          ({ getrf := fun _ _ a _ => (a, [], 0),
             getri := fun _ a _ _ => (a, 0),
             potrf := fun _ _ _ =>
               ([1, 0, 1 / 2, 0, Real.sqrt (1 / 2), 0, 0, 0, Real.sqrt (7 / 4)], 0) } :
            Backend ℝ)
          ⟨fun _ => 0⟩ (mkHeap [[1, 0, 1 / 2, 0, 1 / 2, 0, 0, 0, 2], [1, 2, 3], [0, 0, 0]])
          ⟨3, 3, 1⟩ ⟨3, 1, 2⟩ ⟨3, 1, 3⟩ = .ok h'
        ∧ h'.buf 3 = some R ∧ R.length = 3
        ∧ R.getD 0 0 = 5 / 2 ∧ R.getD 1 0 = Real.sqrt (1 / 2) * 2
        ∧ R.getD 2 0 = Real.sqrt (7 / 4) * 3
        ∧ |R.getD 0 0 - 2.5| < 1 / 100000 ∧ |R.getD 1 0 - 1.414214| < 1 / 100000
        ∧ |R.getD 2 0 - 3.968627| < 1 / 100000 := by
  have ha : Real.sqrt (1 / 2) * Real.sqrt (1 / 2) = 1 / 2 := Real.mul_self_sqrt (by norm_num)
  have hb : Real.sqrt (7 / 4) * Real.sqrt (7 / 4) = 7 / 4 := Real.mul_self_sqrt (by norm_num)
  have ha0 : 0 < Real.sqrt (1 / 2) := Real.sqrt_pos.mpr (by norm_num)
  have hb0 : 0 < Real.sqrt (7 / 4) := Real.sqrt_pos.mpr (by norm_num)
  have ha1 : (707102 / 1000000 : ℝ) < Real.sqrt (1 / 2) :=
    (Real.lt_sqrt (by norm_num)).mpr (by norm_num)
  have ha2 : Real.sqrt (1 / 2) < (707111 / 1000000 : ℝ) :=
    (Real.sqrt_lt' (by norm_num)).mpr (by norm_num)
  have hb1 : (1322873 / 1000000 : ℝ) < Real.sqrt (7 / 4) :=
    (Real.lt_sqrt (by norm_num)).mpr (by norm_num)
  have hb2 : Real.sqrt (7 / 4) < (1322878 / 1000000 : ℝ) :=
    (Real.sqrt_lt' (by norm_num)).mpr (by norm_num)
  have hchol := covTest_cholesky _ _ ha hb ha0 hb0
  obtain ⟨h', R, hrun, hbuf, hlen, hent⟩ :=
    MatCovScale_cholesky
      ({ getrf := fun _ _ a _ => (a, [], 0),
         getri := fun _ a _ _ => (a, 0),
         potrf := fun _ _ _ =>
           ([1, 0, 1 / 2, 0, Real.sqrt (1 / 2), 0, 0, 0, Real.sqrt (7 / 4)], 0) } : Backend ℝ)
      ⟨fun _ => 0⟩ (mkHeap [[1, 0, 1 / 2, 0, 1 / 2, 0, 0, 0, 2], [1, 2, 3], [0, 0, 0]])
      ⟨3, 3, 1⟩ ⟨3, 1, 2⟩ ⟨3, 1, 3⟩ [1, 0, 1 / 2, 0, 1 / 2, 0, 0, 0, 2] [1, 2, 3] [0, 0, 0] 3
      (upperOf 3 [1, 0, 1 / 2, 0, Real.sqrt (1 / 2), 0, 0, 0, Real.sqrt (7 / 4)])
      ⟨by decide, by decide, by decide, rfl, rfl⟩ ⟨by decide, by decide, by decide, rfl, rfl⟩
      ⟨by decide, by decide, by decide, rfl, rfl⟩ rfl rfl rfl rfl rfl rfl hchol
      (fun _ => ⟨rfl, rfl, hchol⟩)
  generalize Real.sqrt (1 / 2) = a at *
  generalize Real.sqrt (7 / 4) = b at *
  have e0 : R.getD 0 0 = 5 / 2 :=
    (hent 0).trans (by
      simp [Matrix.mulVec, Matrix.dotProduct, Fin.sum_univ_three, upperOf]
      norm_num)
  have e1 : R.getD 1 0 = a * 2 :=
    (hent 1).trans (by simp [Matrix.mulVec, Matrix.dotProduct, Fin.sum_univ_three, upperOf])
  have e2 : R.getD 2 0 = b * 3 :=
    (hent 2).trans (by simp [Matrix.mulVec, Matrix.dotProduct, Fin.sum_univ_three, upperOf])
  refine ⟨h', R, hrun, hbuf, hlen, e0, e1, e2, ?_, ?_, ?_⟩
  · rw [e0]
    norm_num
  · rw [e1, abs_lt]
    constructor <;> linarith
  · rw [e2, abs_lt]
    constructor <;> linarith

end CovarianceScaleWitness

/-! ### Lemmas for the later claims: in-place overwrites, covariance runs, loops -/

section BlitLemmas

variable {α : Type}

/-- Overwriting a buffer in place keeps its length. -/
theorem blit_length (dst src : List α) : (blit dst src).length = dst.length := by
  unfold blit
  rw [List.length_append, List.length_take, List.length_drop]
  omega

end BlitLemmas

section CovarianceRuns

variable {α : Type} [CommRing α]

theorem length_trmvVec (N : Nat) (A : List α) (lda : Nat) (X : List α) :
    (trmvVec N A lda X).length = X.length := by
  simp [trmvVec]

/-- The triangular multiply on live buffers, over any commutative ring. -/
theorem cblas_trmv_live (h : Heap α) (n a x : Nat) (A X : List α)
    (hA : h.buf a = some A) (hX : h.buf x = some X)
    (hAlen : A.length = n * n) (hXlen : X.length = n) :
    cblas_trmv h n a n x = .ok ((h.setBuf x (trmvVec n A n X)).log .trmv) := by
  unfold cblas_trmv
  rw [hA, hX]
  simp [hAlen, hXlen]

/-- The run of `MAT_COVSCALE` on valid operands, with no assumption on the
backend: the destination receives `covScaled`, both temporaries are released. -/
theorem MatCovScale_run (be : Backend α) (al : Allocator α) (h : Heap α)
    (pc px pd : Nat) (C X D : List α) (n : Nat)
    (hcov : Mat.Holds h ⟨n, n, pc⟩ C) (hx : Mat.Holds h ⟨n, 1, px⟩ X)
    (hdst : Mat.Holds h ⟨n, 1, pd⟩ D) :
    MatCovScale be al h ⟨n, n, pc⟩ ⟨n, 1, px⟩ ⟨n, 1, pd⟩
      = .ok { bufs := h.bufs.set (pd - 1) (some (covScaled be n C X)) ++ [none, none],
              allocs := h.allocs + 2, frees := h.frees + 2,
              calls := h.calls ++ [.copy, .copy, .potrf, .trmv, .copy] } := by
  have hClen : C.length = n * n := hcov.2.2.2.2
  have hXlen : X.length = n := by rw [hx.2.2.2.2, Nat.mul_one]
  have hDlen : D.length = n := by rw [hdst.2.2.2.2, Nat.mul_one]
  have hfit : n * n < U32 := hcov.2.2.1
  have hn : n < U32 := hcov.1
  have hC : h.buf pc = some C := hcov.2.2.2.1
  have hX : h.buf px = some X := hx.2.2.2.1
  have hD : h.buf pd = some D := hdst.2.2.2.1
  have hOlen : (blit C (be.potrf n C n).1).length = n * n := by rw [blit_length, hClen]
  unfold MatCovScale
  simp only [ASSERT, and_self, or_true, if_true, bind, Except.bind, MatMake, Alloc,
    List.append_assoc, List.singleton_append, List.length_append, List.length_singleton,
    List.cons_append, List.nil_append]
  rw [Nat.mul_one, Nat.mod_eq_of_lt hfit, Nat.mod_eq_of_lt hn]
  have hjC : (List.map al.junk (List.range (n * n))).length = n * n := by simp
  have hjX : (List.map al.junk (List.range n)).length = n := by simp
  generalize List.map al.junk (List.range (n * n)) = jC at hjC ⊢
  generalize List.map al.junk (List.range n) = jX at hjX ⊢
  rw [MatCopy_live _ ⟨n, n, pc⟩ ⟨n, n, h.bufs.length + 1⟩ C jC
    (buf_two_old h _ _ _ _ _ pc C hC) (buf_two_fst _ _ _ _ _ _) hClen hjC rfl hfit]
  simp only [setBuf_two_fst, Heap.log]
  rw [MatCopy_live _ ⟨n, 1, px⟩ ⟨n, 1, h.bufs.length + 1 + 1⟩ X jX
    (buf_two_old h _ _ _ _ _ px X hX) (buf_two_snd _ _ _ _ _ _)
    (by rw [hXlen, Nat.mul_one]) (by rw [hjX, Nat.mul_one]) rfl
    (by rw [Nat.mul_one]; exact hn)]
  simp only [setBuf_two_snd, Heap.log]
  rw [potrf_live be _ n _ C (buf_two_fst _ _ _ _ _ _) hClen]
  simp only [setBuf_two_fst, Heap.log]
  rw [cblas_trmv_live _ n _ _ (blit C (be.potrf n C n).1) X (buf_two_fst _ _ _ _ _ _)
    (buf_two_snd _ _ _ _ _ _) hOlen hXlen]
  simp only [setBuf_two_snd, Heap.log]
  rw [MatCopy_live _ ⟨n, 1, h.bufs.length + 1 + 1⟩ ⟨n, 1, pd⟩
    (trmvVec n (blit C (be.potrf n C n).1) n X)
    D (buf_two_snd _ _ _ _ _ _) (buf_two_old h _ _ _ _ _ pd D hD)
    (by rw [length_trmvVec, hXlen, Nat.mul_one]) (by rw [hDlen, Nat.mul_one]) rfl
    (by rw [Nat.mul_one]; exact hn)]
  simp only [setBuf_two_old h _ _ _ _ _ pd D _ hD, Heap.log]
  rw [free_two_fst _ _ _ _ _ _ _ _ _ (by rw [List.length_set])]
  dsimp only
  rw [free_two_snd _ _ _ _ _ _ _ _ _ (by rw [List.length_set])]
  simp only [pure, Except.pure, List.append_assoc, List.singleton_append, List.cons_append,
    List.nil_append, covScaled]

/-- The run of `MAT_COVSCALEIP` on valid operands, with no assumption on the
backend: the vector itself receives `covScaled`, the temporary is released. -/
theorem MatCovScaleIP_run (be : Backend α) (al : Allocator α) (h : Heap α)
    (pc px : Nat) (C X : List α) (n : Nat)
    (hcov : Mat.Holds h ⟨n, n, pc⟩ C) (hx : Mat.Holds h ⟨n, 1, px⟩ X) :
    MatCovScaleIP be al h ⟨n, n, pc⟩ ⟨n, 1, px⟩
      = .ok { bufs := h.bufs.set (px - 1) (some (covScaled be n C X)) ++ [none],
              allocs := h.allocs + 1, frees := h.frees + 1,
              calls := h.calls ++ [.copy, .potrf, .trmv] } := by
  have hClen : C.length = n * n := hcov.2.2.2.2
  have hXlen : X.length = n := by rw [hx.2.2.2.2, Nat.mul_one]
  have hX : h.buf px = some X := hx.2.2.2.1
  have hOlen : (blit C (be.potrf n C n).1).length = n * n := by rw [blit_length, hClen]
  have hcopy := make_copy al h _ C hcov
  simp only at hcopy
  unfold MatCovScaleIP
  simp only [ASSERT, or_true, if_true]
  rw [hcopy]
  simp only [bind, Except.bind, MatMake, Alloc]
  rw [potrf_live be _ n _ C (buf_append_new _ _ _ _ _) hClen]
  simp only [setBuf_append_new, Heap.log]
  rw [cblas_trmv_live _ n _ _ (blit C (be.potrf n C n).1) X (buf_append_new _ _ _ _ _)
    (buf_append_old h _ _ _ _ px X hX) hOlen hXlen]
  simp only [setBuf_mk_append_old h _ _ _ _ px X _ hX, Heap.log]
  rw [free_last _ _ _ _ _ _ _ _ (by rw [List.length_set])]
  simp only [pure, Except.pure, List.append_assoc, List.singleton_append, List.cons_append,
    List.nil_append, covScaled]

end CovarianceRuns

section LoopLemmas

variable {α : Type}

/-- Two writes to the same live buffer: the second one wins. -/
theorem setBuf_setBuf (h : Heap α) (p : Nat) (b b' : List α) :
    (h.setBuf p b).setBuf p b' = h.setBuf p b' := by
  unfold Heap.setBuf
  by_cases h0 : p = 0
  · simp [h0]
  · simp only [h0, if_false, List.set_set]

/-- A read of a live buffer at an offset it has. -/
theorem load_of_getElem? (h : Heap α) (p i : Nat) (B : List α) (v : α)
    (hB : h.buf p = some B) (hv : B[i]? = some v) : h.load p i = .ok v := by
  unfold Heap.load
  rw [hB]
  simp only [hv]

/-- A read after a write to the live buffer `p`: the pointer `p` reads the new
contents, every other pointer what it read before. -/
theorem buf_setBuf_live (h : Heap α) (p q : Nat) (D0 D : List α) (hp : h.buf p = some D0) :
    (h.setBuf p D).buf q = if q = p then some D else h.buf q := by
  by_cases hq : q = p
  · subst hq
    rw [if_pos rfl]
    exact buf_setBuf_same h q D0 D hp
  · rw [if_neg hq]
    exact buf_setBuf_other h p q D hq

/-- A write into the live buffer `p` whose current contents are `D`. -/
theorem store_setBuf (h : Heap α) (p i : Nat) (D0 D : List α) (v : α)
    (hp : h.buf p = some D0) (hi : i < D.length) :
    (h.setBuf p D).store p i v = .ok (h.setBuf p (D.set i v)) := by
  unfold Heap.store
  rw [buf_setBuf_same h p D0 D hp]
  simp only [hi, if_true, setBuf_setBuf]

/-- A `for` loop whose body rewrites the live buffer `p` only: an invariant of
the contents of `p`, indexed by the loop counter, carries through. -/
theorem forLoop_setBuf (h : Heap α) (p : Nat) (f : Heap α → Nat → Except Fault (Heap α))
    (Inv : Nat → List α → Prop) (n : Nat) (D0 : List α) (h0 : Inv 0 D0)
    (hstep : ∀ k D, k < n → Inv k D →
      ∃ D', f (h.setBuf p D) k = .ok (h.setBuf p D') ∧ Inv (k + 1) D') :
    ∃ D', (List.range n).foldlM f (h.setBuf p D0) = .ok (h.setBuf p D') ∧ Inv n D' := by
  induction n with
  | zero => exact ⟨D0, rfl, h0⟩
  | succ n ih =>
    obtain ⟨D1, hrun, hinv⟩ := ih (fun k D hk hI => hstep k D (Nat.lt_succ_of_lt hk) hI)
    obtain ⟨D2, hrun2, hinv2⟩ := hstep n D1 (Nat.lt_succ_self n) hinv
    refine ⟨D2, ?_, hinv2⟩
    rw [List.range_succ, List.foldlM_append, hrun]
    simp only [bind, Except.bind, List.foldlM_cons, List.foldlM_nil, hrun2, pure, Except.pure]

/-- Offsets of a row-major `r x c` matrix: an in-range index pair gives an
offset below `r * c`. -/
theorem offset_lt (r c i j : Nat) (hi : i < r) (hj : j < c) : i * c + j < r * c := by
  calc i * c + j < i * c + c := by omega
    _ = (i + 1) * c := by ring
    _ ≤ r * c := Nat.mul_le_mul_right _ hi

theorem offset_div (c i j : Nat) (hj : j < c) : (i * c + j) / c = i := by
  have hc : 0 < c := by omega
  rw [Nat.mul_comm, Nat.mul_add_div hc, Nat.div_eq_of_lt hj, Nat.add_zero]

theorem offset_mod (c i j : Nat) (hj : j < c) : (i * c + j) % c = j := by
  rw [Nat.mul_comm, Nat.mul_add_mod, Nat.mod_eq_of_lt hj]

/-- Distinct in-range index pairs have distinct row-major offsets. -/
theorem offset_injective (c i j i' j' : Nat) (hj : j < c) (hj' : j' < c)
    (heq : i * c + j = i' * c + j') : i = i' ∧ j = j' := by
  have h1 := offset_div c i j hj
  have h2 := offset_div c i' j' hj'
  have h3 := offset_mod c i j hj
  have h4 := offset_mod c i' j' hj'
  rw [heq] at h1 h3
  exact ⟨h1.symm.trans h2, h3.symm.trans h4⟩

end LoopLemmas

section Transpose

variable {α : Type}

/-- The run of `MAT_T` on a square matrix and a destination in a buffer of its
own: the destination receives a buffer whose offset `i * n + j` holds what the
source has at offset `j * n + i`; nothing else changes. -/
theorem MatT_run (h : Heap α) (n pm pd : Nat) (A D : List α)
    (hA : h.buf pm = some A) (hAlen : A.length = n * n)
    (hD : h.buf pd = some D) (hDlen : D.length = n * n)
    (hfit : n * n < U32) (hne : pd ≠ pm) :
    ∃ T, MatT h ⟨n, n, pm⟩ ⟨n, n, pd⟩ = .ok (h.setBuf pd T) ∧ T.length = n * n
      ∧ ∀ i j, i < n → j < n → T[i * n + j]? = A[j * n + i]? := by
  have hstart : h.setBuf pd D = h := setBuf_self h pd D hD
  have houter := forLoop_setBuf h pd
    (fun h i => (List.range n).foldlM (fun h j => do
      let v ← h.load pm ((j * n + i) % U32)
      h.store pd ((i * n + j) % U32) v) h)
    (fun i T => T.length = n * n
      ∧ ∀ i' j, i' < i → j < n → T[i' * n + j]? = A[j * n + i']?)
    n D ⟨hDlen, fun i' j hi' _ => absurd hi' (Nat.not_lt_zero _)⟩
    (by
      intro i T hi hInv
      have hinner := forLoop_setBuf h pd
        (fun h j => do
          let v ← h.load pm ((j * n + i) % U32)
          h.store pd ((i * n + j) % U32) v)
        (fun j T' => T'.length = n * n
          ∧ (∀ i' j', i' < i → j' < n → T'[i' * n + j']? = A[j' * n + i']?)
          ∧ ∀ j', j' < j → T'[i * n + j']? = A[j' * n + i]?)
        n T ⟨hInv.1, hInv.2, fun j' hj' => absurd hj' (Nat.not_lt_zero _)⟩
        (by
          intro j T' hj hI
          obtain ⟨hlen, hrows, hrow⟩ := hI
          have hsrc : j * n + i < n * n := offset_lt n n j i hj hi
          have hdst : i * n + j < n * n := offset_lt n n i j hi hj
          have hb : j * n + i < A.length := by rw [hAlen]; exact hsrc
          have hv : A[j * n + i]? = some A[j * n + i] := List.getElem?_eq_getElem hb
          refine ⟨T'.set (i * n + j) A[j * n + i], ?_, ?_, ?_, ?_⟩
          · dsimp only
            rw [Nat.mod_eq_of_lt (lt_trans hsrc hfit), Nat.mod_eq_of_lt (lt_trans hdst hfit)]
            have hload : (h.setBuf pd T').load pm (j * n + i) = .ok A[j * n + i] :=
              load_of_getElem? _ pm _ A _
                ((buf_setBuf_other h pd pm T' (Ne.symm hne)).trans hA) hv
            rw [hload]
            exact store_setBuf h pd _ D T' _ hD (by rw [hlen]; exact hdst)
          · rw [List.length_set, hlen]
          · intro i' j' hi' hj'
            have hneq : i * n + j ≠ i' * n + j' := by
              intro heq
              have := (offset_injective n i j i' j' hj hj' heq).1
              omega
            rw [List.getElem?_set_ne hneq]
            exact hrows i' j' hi' hj'
          · intro j' hj'
            by_cases hjj : j' = j
            · subst hjj
              rw [List.getElem?_set_self (by rw [hlen]; exact hdst), hv]
            · have hneq : i * n + j ≠ i * n + j' := by omega
              rw [List.getElem?_set_ne hneq]
              exact hrow j' (by omega))
      obtain ⟨T2, hrun, hlen2, hrows2, hrow2⟩ := hinner
      refine ⟨T2, hrun, hlen2, ?_⟩
      intro i' j hi' hj
      by_cases hii : i' = i
      · subst hii
        exact hrow2 j hj
      · exact hrows2 i' j (by omega) hj)
  obtain ⟨T, hrun, hlen, hent⟩ := houter
  refine ⟨T, ?_, hlen, hent⟩
  unfold MatT
  simp only [ASSERT, and_self, if_true, bind, Except.bind]
  rw [hstart] at hrun
  exact hrun

end Transpose

/-! ### C11: the two covariance-scaling functions agree -/

section CovarianceAgreement

variable {α : Type} [CommRing α]

/-- C11: for a square `cov`, a column vector `x` of matching length and a
matching `dst`, and for a copy `x'` of `x` in a heap where `cov` has the same
contents, `covarianceScale(cov, x, dst)` and `covarianceScaleInPlace(cov, x')`
both return normally, and the contents of `dst` after the first are exactly,
element for element, the contents of `x'` after the second: both are the
triangular product of the contents of `x` with what the backend Cholesky call,
a function of its inputs, left in the temporary copy of `cov`. -/
theorem MatCovScale_agrees_with_in_place (be : Backend α) (al : Allocator α) (h g : Heap α)
    (cov x dst x' : Mat) (C X D : List α) (n : Nat)
    (hcov : cov.Holds h C) (hx : x.Holds h X) (hdst : dst.Holds h D)
    (hcov' : cov.Holds g C) (hx' : x'.Holds g X)
    (hc0 : cov.dim0 = n) (hc1 : cov.dim1 = n) (hx0 : x.dim0 = n) (hx1 : x.dim1 = 1)
    (hd0 : dst.dim0 = n) (hd1 : dst.dim1 = 1) (hy0 : x'.dim0 = n) (hy1 : x'.dim1 = 1) :
    ∃ h' g' R, MatCovScale be al h cov x dst = .ok h'
      ∧ MatCovScaleIP be al g cov x' = .ok g'
      ∧ h'.buf dst.data = some R ∧ g'.buf x'.data = some R
      ∧ R.length = n ∧ R = covScaled be n C X := by
  rcases cov with ⟨c0, c1, pc⟩
  rcases x with ⟨x0, x1, px⟩
  rcases dst with ⟨d0, d1, pd⟩
  rcases x' with ⟨y0, y1, py⟩
  have e0 : n = c0 := hc0.symm
  have e1 : n = c1 := hc1.symm
  have e2 : n = x0 := hx0.symm
  have e3 : 1 = x1 := hx1.symm
  have e4 : n = d0 := hd0.symm
  have e5 : 1 = d1 := hd1.symm
  have e6 : n = y0 := hy0.symm
  have e7 : 1 = y1 := hy1.symm
  subst e0 e1 e2 e3 e4 e5 e6 e7
  have hXlen : X.length = n := by
    have := hx.2.2.2.2
    simpa using this
  refine ⟨_, _, covScaled be n C X, MatCovScale_run be al h pc px pd C X D n hcov hx hdst,
    MatCovScaleIP_run be al g pc py C X n hcov' hx', ?_, ?_, ?_, rfl⟩
  · exact buf_set_app_same h pd _ D _ _ _ _ hdst.2.2.2.1
  · exact buf_set_app_same g py _ X _ _ _ _ hx'.2.2.2.1
  · unfold covScaled
    rw [length_trmvVec, hXlen]

/-- Witness for C11: with `cov = [[4, 2], [2, 5]]`, factored into
`[[2, 1], [0, 2]]`, and `x = x' = [1, 2]`, both functions leave `[4, 4]`. -/
theorem MatCovScale_agrees_with_in_place_witness :
    Mat.Holds covHeap ⟨2, 2, 1⟩ [4, 2, 2, 5] ∧ Mat.Holds covHeap ⟨2, 1, 2⟩ [1, 2]
      ∧ Mat.Holds covHeap ⟨2, 1, 3⟩ [7, 7] ∧ Mat.Holds covHeap ⟨2, 1, 4⟩ [1, 2]
      ∧ ∃ h' g', MatCovScale cholBackend intAlloc covHeap ⟨2, 2, 1⟩ ⟨2, 1, 2⟩ ⟨2, 1, 3⟩ = .ok h'
          ∧ MatCovScaleIP cholBackend intAlloc covHeap ⟨2, 2, 1⟩ ⟨2, 1, 4⟩ = .ok g'
          ∧ h'.buf 3 = some [4, 4] ∧ g'.buf 4 = some [4, 4] := by
  refine ⟨by decide, by decide, by decide, by decide, ?_⟩
  obtain ⟨h', g', R, hrun, hrun', hR, hR', -, hval⟩ :=
    MatCovScale_agrees_with_in_place cholBackend intAlloc covHeap covHeap
      ⟨2, 2, 1⟩ ⟨2, 1, 2⟩ ⟨2, 1, 3⟩ ⟨2, 1, 4⟩ [4, 2, 2, 5] [1, 2] [7, 7] 2
      (by decide) (by decide) (by decide) (by decide) (by decide) rfl rfl rfl rfl rfl rfl rfl rfl
  have hval' : covScaled cholBackend 2 [4, 2, 2, 5] [1, 2] = [4, 4] := by decide
  rw [hval'] at hval
  subst hval
  exact ⟨h', g', hrun, hrun', hR, hR'⟩

end CovarianceAgreement

/-! ### C12: what the covariance-scaling functions change -/

section CovarianceFrame

variable {α : Type} [CommRing α]

/-- C12: `covarianceScale(cov, x, dst)` changes only `dst`: every buffer that
was live before the call, other than that of `dst`, has the contents it had, so
`cov` and `x` are unchanged when `dst` is distinct from them;
`covarianceScaleInPlace(cov, x)` changes only `x`: every live buffer other than
that of `x` has the contents it had, so `cov` is unchanged when `x` is distinct
from it. This holds for every backend, whatever its Cholesky call writes over
the matrix it is given, which is the temporary copy. -/
theorem MatCovScale_frame (be : Backend α) (al : Allocator α) (h : Heap α)
    (cov x dst : Mat) (C X D : List α) (n : Nat)
    (hcov : cov.Holds h C) (hx : x.Holds h X) (hdst : dst.Holds h D)
    (hc0 : cov.dim0 = n) (hc1 : cov.dim1 = n) (hx0 : x.dim0 = n) (hx1 : x.dim1 = 1)
    (hd0 : dst.dim0 = n) (hd1 : dst.dim1 = 1) :
    (∃ h', MatCovScale be al h cov x dst = .ok h'
        ∧ (∀ p B, h.buf p = some B → p ≠ dst.data → h'.buf p = some B)
        ∧ (dst.data ≠ cov.data → h'.buf cov.data = some C)
        ∧ (dst.data ≠ x.data → h'.buf x.data = some X))
      ∧ ∃ g', MatCovScaleIP be al h cov x = .ok g'
        ∧ (∀ p B, h.buf p = some B → p ≠ x.data → g'.buf p = some B)
        ∧ (x.data ≠ cov.data → g'.buf cov.data = some C) := by
  rcases cov with ⟨c0, c1, pc⟩
  rcases x with ⟨x0, x1, px⟩
  rcases dst with ⟨d0, d1, pd⟩
  have e0 : n = c0 := hc0.symm
  have e1 : n = c1 := hc1.symm
  have e2 : n = x0 := hx0.symm
  have e3 : 1 = x1 := hx1.symm
  have e4 : n = d0 := hd0.symm
  have e5 : 1 = d1 := hd1.symm
  subst e0 e1 e2 e3 e4 e5
  have hC : h.buf pc = some C := hcov.2.2.2.1
  have hX : h.buf px = some X := hx.2.2.2.1
  have hD : h.buf pd = some D := hdst.2.2.2.1
  constructor
  · refine ⟨_, MatCovScale_run be al h pc px pd C X D n hcov hx hdst, ?_, ?_, ?_⟩
    · intro p B hp hne
      exact buf_set_app_other h pd p _ D B _ _ _ _ hD hp hne
    · intro hne
      exact buf_set_app_other h pd pc _ D C _ _ _ _ hD hC (Ne.symm hne)
    · intro hne
      exact buf_set_app_other h pd px _ D X _ _ _ _ hD hX (Ne.symm hne)
  · refine ⟨_, MatCovScaleIP_run be al h pc px C X n hcov hx, ?_, ?_⟩
    · intro p B hp hne
      exact buf_set_app_other h px p _ X B _ _ _ _ hX hp hne
    · intro hne
      exact buf_set_app_other h px pc _ X C _ _ _ _ hX hC (Ne.symm hne)

/-- Witness for C12: with `cov = [[4, 2], [2, 5]]`, which the backend factors
in place, and `x = [1, 2]`, `cov` still holds `[4, 2, 2, 5]` after both calls
and `x` still holds `[1, 2]` after the out-of-place one. -/
theorem MatCovScale_frame_witness :
    Mat.Holds covHeap ⟨2, 2, 1⟩ [4, 2, 2, 5] ∧ Mat.Holds covHeap ⟨2, 1, 2⟩ [1, 2]
      ∧ Mat.Holds covHeap ⟨2, 1, 3⟩ [7, 7]
      ∧ (cholBackend.potrf 2 [4, 2, 2, 5] 2).1 ≠ [4, 2, 2, 5]
      ∧ (∃ h', MatCovScale cholBackend intAlloc covHeap ⟨2, 2, 1⟩ ⟨2, 1, 2⟩ ⟨2, 1, 3⟩ = .ok h'
          ∧ h'.buf 1 = some [4, 2, 2, 5] ∧ h'.buf 2 = some [1, 2] ∧ h'.buf 4 = some [1, 2])
      ∧ ∃ g', MatCovScaleIP cholBackend intAlloc covHeap ⟨2, 2, 1⟩ ⟨2, 1, 2⟩ = .ok g'
          ∧ g'.buf 1 = some [4, 2, 2, 5] ∧ g'.buf 3 = some [7, 7] := by
  refine ⟨by decide, by decide, by decide, by decide, ?_⟩
  obtain ⟨⟨h', hrun, hframe, hc, hx⟩, g', hrun', hframe', hc'⟩ :=
    MatCovScale_frame cholBackend intAlloc covHeap ⟨2, 2, 1⟩ ⟨2, 1, 2⟩ ⟨2, 1, 3⟩
      [4, 2, 2, 5] [1, 2] [7, 7] 2 (by decide) (by decide) (by decide) rfl rfl rfl rfl rfl rfl
  exact ⟨⟨h', hrun, hc (by decide), hx (by decide), hframe 4 [1, 2] (by decide) (by decide)⟩,
    g', hrun', hc' (by decide), hframe' 3 [7, 7] (by decide) (by decide)⟩

end CovarianceFrame

/-! ### C13: `determinant` on a failed factorisation -/

section DetFailure

variable {α : Type} [CommRing α]

/-- C13: if the LU factorisation of the temporary copy of the square matrix `m`
reports any non-zero status, positive or negative, then `determinant(m)`
returns exactly zero, whatever the backend left in the temporary and in the
pivot sequence; every buffer that was live before the call, in particular that
of `m`, has the contents it had. -/
theorem MatDet_factorisation_failure (be : Backend α) (al : Allocator α) (h : Heap α)
    (m : Mat) (A : List α) (hm : m.Holds h A) (hsq : m.dim0 = m.dim1)
    (hs : (be.getrf m.dim0 m.dim0 A m.dim0).2.2 ≠ 0) :
    ∃ h', MatDet be al h m = .ok (0, h')
      ∧ h'.buf m.data = some A
      ∧ ∀ p b, h.buf p = some b → h'.buf p = some b := by
  rcases m with ⟨n, c, pm⟩
  simp only at hsq hs
  subst hsq
  have hlen : A.length = n * n := hm.2.2.2.2
  have hcopy := make_copy al h _ A hm
  simp only at hcopy
  refine ⟨{ bufs := h.bufs ++ [some (blit A (be.getrf n n A n).1)],
            allocs := h.allocs + 1, frees := h.frees,
            calls := h.calls ++ [.copy, .getrf] }, ?_, ?_, ?_⟩
  · unfold MatDet
    simp only [ASSERT, if_true]
    rw [hcopy]
    simp only [bind, Except.bind, MatMake, Alloc, getrf_on_temporary be _ _ _ _ _ _ hlen,
      ne_eq, hs, not_false_eq_true, if_true, pure, Except.pure, List.append_assoc,
      List.singleton_append]
  · exact buf_append_old _ _ _ _ _ _ _ hm.2.2.2.1
  · intro p b hp
    exact buf_append_old _ _ _ _ _ _ _ hp

/-- Witness for C13: a 1 x 1 matrix `[0]` whose factorisation reports status 1;
`determinant` returns 0 and the matrix still holds `[0]`. -/
theorem MatDet_factorisation_failure_witness :
    Mat.Holds zeroHeap ⟨1, 1, 1⟩ [0]
      ∧ (singularBackend.getrf 1 1 [0] 1).2.2 ≠ 0
      ∧ ∃ h', MatDet singularBackend intAlloc zeroHeap ⟨1, 1, 1⟩ = .ok (0, h')
          ∧ h'.buf 1 = some [0] ∧ h'.buf 2 = some [5] := by
  refine ⟨by decide, by decide, ?_⟩
  obtain ⟨h', hrun, hm, hold⟩ :=
    MatDet_factorisation_failure singularBackend intAlloc zeroHeap ⟨1, 1, 1⟩ [0]
      (by decide) rfl (by decide)
  exact ⟨h', hrun, hm, hold 2 [5] (by decide)⟩

end DetFailure

/-! ### C14: transposition of a square matrix -/

section TransposeSquare

variable {α : Type}

/-- Two buffers of `n * n` elements that agree at every row-major offset
`i * n + j` of an in-range index pair are equal. -/
theorem eq_of_offsets (n : Nat) (X Y : List α) (hX : X.length = n * n) (hY : Y.length = n * n)
    (hent : ∀ i j, i < n → j < n → X[i * n + j]? = Y[i * n + j]?) : X = Y := by
  apply List.ext_getElem?
  intro k
  by_cases hk : k < n * n
  · have hn : 0 < n := by
      rcases Nat.eq_zero_or_pos n with h0 | h0
      · subst h0
        simp at hk
      · exact h0
    have hdiv : k / n < n := Nat.div_lt_of_lt_mul hk
    have hmod : k % n < n := Nat.mod_lt _ hn
    have hsplit : k / n * n + k % n = k := by
      rw [Nat.mul_comm]
      exact Nat.div_add_mod k n
    have := hent (k / n) (k % n) hdiv hmod
    rw [hsplit] at this
    exact this
  · rw [List.getElem?_eq_none (by omega), List.getElem?_eq_none (by omega)]

/-- C14: for a square `n x n` matrix `m` and an `n x n` destination `dst` in a
buffer of its own, `transpose(m, dst)` returns normally and leaves `dst` equal
to the transpose of `m`: `dst.data[j * n + i] = m.data[i * n + j]` for all
`i, j < n`, with `m` unchanged; transposing the result once more, into any
`n x n` matrix `t2` other than `dst`, gives the contents of `m` back. -/
theorem MatT_square (h : Heap α) (m dst : Mat) (A D : List α) (n : Nat)
    (hm : m.Holds h A) (hdst : dst.Holds h D)
    (hm0 : m.dim0 = n) (hm1 : m.dim1 = n) (hd0 : dst.dim0 = n) (hd1 : dst.dim1 = n)
    (hne : dst.data ≠ m.data) :
    ∃ h' T, MatT h m dst = .ok h' ∧ h'.buf dst.data = some T ∧ T.length = n * n
      ∧ (∀ i j, i < n → j < n → T[j * n + i]? = A[i * n + j]?)
      ∧ h'.buf m.data = some A
      ∧ ∀ (t2 : Mat) (D2 : List α), t2.Holds h' D2 → t2.dim0 = n → t2.dim1 = n →
          t2.data ≠ dst.data →
          ∃ h'', MatT h' dst t2 = .ok h'' ∧ h''.buf t2.data = some A := by
  rcases m with ⟨r, c, pm⟩
  rcases dst with ⟨d0, d1, pd⟩
  have e0 : n = r := hm0.symm
  have e1 : n = c := hm1.symm
  have e2 : n = d0 := hd0.symm
  have e3 : n = d1 := hd1.symm
  subst e0 e1 e2 e3
  have hA : h.buf pm = some A := hm.2.2.2.1
  have hAlen : A.length = n * n := hm.2.2.2.2
  have hD : h.buf pd = some D := hdst.2.2.2.1
  have hDlen : D.length = n * n := hdst.2.2.2.2
  have hfit : n * n < U32 := hm.2.2.1
  obtain ⟨T, hrun, hTlen, hent⟩ := MatT_run h n pm pd A D hA hAlen hD hDlen hfit hne
  have hT : (h.setBuf pd T).buf pd = some T := buf_setBuf_same h pd D T hD
  refine ⟨h.setBuf pd T, T, hrun, hT, hTlen, fun i j hi hj => hent j i hj hi,
    (buf_setBuf_other h pd pm T (Ne.symm hne)).trans hA, ?_⟩
  intro t2 D2 ht2 ht0 ht1 hne2
  rcases t2 with ⟨t0, t1, pt⟩
  have e4 : n = t0 := ht0.symm
  have e5 : n = t1 := ht1.symm
  subst e4 e5
  obtain ⟨T2, hrun2, hT2len, hent2⟩ :=
    MatT_run (h.setBuf pd T) n pd pt T D2 hT hTlen ht2.2.2.2.1 ht2.2.2.2.2 hfit hne2
  have hback : T2 = A :=
    eq_of_offsets n T2 A hT2len hAlen (fun i j hi hj => (hent2 i j hi hj).trans (hent j i hj hi))
  refine ⟨(h.setBuf pd T).setBuf pt T2, hrun2, ?_⟩
  rw [← hback]
  exact buf_setBuf_same _ pt D2 T2 ht2.2.2.2.1

/-- Witness for C14: the 3 x 3 matrix with data `0..8` is transposed into
`[0, 3, 6, 1, 4, 7, 2, 5, 8]` and keeps its data; transposing the result again
gives `0..8`. -/
theorem MatT_square_witness :
    Mat.Holds mulHeap ⟨3, 3, 1⟩ [0, 1, 2, 3, 4, 5, 6, 7, 8]
      ∧ ∃ h', MatT mulHeap ⟨3, 3, 1⟩ ⟨3, 3, 3⟩ = .ok h'
          ∧ h'.buf 3 = some [0, 3, 6, 1, 4, 7, 2, 5, 8]
          ∧ h'.buf 1 = some [0, 1, 2, 3, 4, 5, 6, 7, 8]
          ∧ ∃ h'', MatT h' ⟨3, 3, 3⟩ ⟨3, 3, 2⟩ = .ok h''
              ∧ h''.buf 2 = some [0, 1, 2, 3, 4, 5, 6, 7, 8] := by
  refine ⟨by decide, ?_⟩
  obtain ⟨h', T, hrun, hT, -, -, hm, hround⟩ :=
    MatT_square mulHeap ⟨3, 3, 1⟩ ⟨3, 3, 3⟩ [0, 1, 2, 3, 4, 5, 6, 7, 8]
      [7, 7, 7, 7, 7, 7, 7, 7, 7] 3 (by decide) (by decide) rfl rfl rfl rfl (by decide)
  have hval : MatT mulHeap ⟨3, 3, 1⟩ ⟨3, 3, 3⟩
      = (.ok { bufs := [some [0, 1, 2, 3, 4, 5, 6, 7, 8],
                        some [0, 2, 4, 6, 8, 10, 12, 14, 16],
                        some [0, 3, 6, 1, 4, 7, 2, 5, 8]],
               allocs := 0, frees := 0, calls := [] } : Except Fault (Heap Int)) := by
    decide
  rw [hval] at hrun
  injection hrun with hrun
  subst hrun
  refine ⟨_, hval, by decide, hm, ?_⟩
  exact hround ⟨3, 3, 2⟩ [0, 2, 4, 6, 8, 10, 12, 14, 16] (by decide) rfl rfl (by decide)

end TransposeSquare

/-! ### C15: comparison with a tolerance -/

section Equal

variable {α : Type}

/-- The comparison loop over in-range indices of two live buffers returns, and
returns 1 exactly when every pair passes the scalar predicate. -/
theorem MatEqualLoop_run {ε : Type} (equalFun : α → α → ε → Bool) (h : Heap α) (a b : Mat)
    (eps : ε) (A B : List α) (hA : h.buf a.data = some A) (hB : h.buf b.data = some B)
    (l : List Nat) (hl : ∀ i, i ∈ l → i < A.length ∧ i < B.length) :
    ∃ r, MatEqualLoop equalFun h a b eps l = .ok r
      ∧ (r = true ↔ ∀ i, i ∈ l →
          ∃ x y, A[i]? = some x ∧ B[i]? = some y ∧ equalFun x y eps = true) := by
  induction l with
  | nil => exact ⟨true, rfl, by simp⟩
  | cons i rest ih =>
    obtain ⟨hiA, hiB⟩ := hl i (List.mem_cons_self _ _)
    obtain ⟨r, hrun, hr⟩ := ih (fun k hk => hl k (List.mem_cons_of_mem _ hk))
    have hx : A[i]? = some A[i] := List.getElem?_eq_getElem hiA
    have hy : B[i]? = some B[i] := List.getElem?_eq_getElem hiB
    have hstep : MatEqualLoop equalFun h a b eps (i :: rest)
        = if !(equalFun A[i] B[i] eps) then .ok false
          else MatEqualLoop equalFun h a b eps rest := by
      rw [MatEqualLoop]
      simp only [bind, Except.bind, load_of_getElem? h a.data i A _ hA hx,
        load_of_getElem? h b.data i B _ hB hy, pure, Except.pure]
    by_cases he : equalFun A[i] B[i] eps = true
    · refine ⟨r, ?_, ?_⟩
      · rw [hstep, he]
        exact hrun
      · rw [hr]
        constructor
        · intro hall k hk
          rcases List.mem_cons.mp hk with hki | hkr
          · subst hki
            exact ⟨A[k], B[k], hx, hy, he⟩
          · exact hall k hkr
        · intro hall k hk
          exact hall k (List.mem_cons_of_mem _ hk)
    · refine ⟨false, ?_, ?_⟩
      · rw [hstep]
        simp only [Bool.not_eq_true] at he
        rw [he]
        rfl
      · constructor
        · intro hf
          exact absurd hf (by decide)
        · intro hall
          obtain ⟨x, y, hx', hy', hxy⟩ := hall i (List.mem_cons_self _ _)
          rw [hx] at hx'
          rw [hy] at hy'
          injection hx' with hx'
          injection hy' with hy'
          subst hx' hy'
          exact absurd hxy he

/-- C15: for matrices `a`, `b` whose element counts are below `2^32`,
`equal(a, b, eps)` returns, and it returns true if and only if
`a.rows = b.rows`, `a.cols = b.cols` and the scalar tolerance predicate holds
for `(a.data[k], b.data[k], eps)` at every `k < rows * cols`; in particular it
returns false on any shape mismatch, whatever `eps` and the elements are. -/
theorem MatEqual_iff {ε : Type} (equalFun : α → α → ε → Bool) (h : Heap α) (a b : Mat)
    (A B : List α) (eps : ε) (ha : a.Holds h A) (hb : b.Holds h B) :
    ∃ r, MatEqual equalFun h a b eps = .ok r
      ∧ (r = true ↔ a.dim0 = b.dim0 ∧ a.dim1 = b.dim1
          ∧ ∀ k, k < a.dim0 * a.dim1 →
              ∃ x y, A[k]? = some x ∧ B[k]? = some y ∧ equalFun x y eps = true)
      ∧ (a.dim0 ≠ b.dim0 ∨ a.dim1 ≠ b.dim1 → r = false) := by
  by_cases h0 : a.dim0 = b.dim0
  · by_cases h1 : a.dim1 = b.dim1
    · have hAlen : A.length = a.dim0 * a.dim1 := ha.2.2.2.2
      have hBlen : B.length = a.dim0 * a.dim1 := by
        rw [hb.2.2.2.2, h0, h1]
      obtain ⟨r, hrun, hr⟩ := MatEqualLoop_run equalFun h a b eps A B ha.2.2.2.1 hb.2.2.2.1
        (List.range (a.dim0 * a.dim1))
        (fun i hi => by
          rw [List.mem_range] at hi
          rw [hAlen, hBlen]
          exact ⟨hi, hi⟩)
      refine ⟨r, ?_, ?_, ?_⟩
      · unfold MatEqual
        rw [if_neg (not_not.mpr h0), if_neg (not_not.mpr h1), Nat.mod_eq_of_lt ha.2.2.1]
        exact hrun
      · rw [hr]
        constructor
        · intro hall
          exact ⟨h0, h1, fun k hk => hall k (List.mem_range.mpr hk)⟩
        · intro hall k hk
          exact hall.2.2 k (List.mem_range.mp hk)
      · intro hne
        rcases hne with hne | hne
        · exact absurd h0 hne
        · exact absurd h1 hne
    · refine ⟨false, ?_, ?_, fun _ => rfl⟩
      · unfold MatEqual
        rw [if_neg (not_not.mpr h0), if_pos h1]
      · constructor
        · intro hf
          exact absurd hf (by decide)
        · intro hall
          exact absurd hall.2.1 h1
  · refine ⟨false, ?_, ?_, fun _ => rfl⟩
    · unfold MatEqual
      rw [if_pos h0]
    · constructor
      · intro hf
        exact absurd hf (by decide)
      · intro hall
        exact absurd hall.1 h0

/-- Witness for C15: a 2 x 3 and a 3 x 2 matrix with the identical data `1..6`
compare unequal, also with the tolerance `100`; the 2 x 3 matrix compares equal
to a 2 x 3 matrix with the same data. -/
theorem MatEqual_iff_witness :
    Mat.Holds equalHeap ⟨2, 3, 1⟩ [1, 2, 3, 4, 5, 6]
      ∧ Mat.Holds equalHeap ⟨3, 2, 2⟩ [1, 2, 3, 4, 5, 6]
      ∧ Mat.Holds equalHeap ⟨2, 3, 2⟩ [1, 2, 3, 4, 5, 6]
      ∧ MatEqual f64Equal equalHeap ⟨2, 3, 1⟩ ⟨3, 2, 2⟩ (100 : Int) = .ok false
      ∧ MatEqual f64Equal equalHeap ⟨2, 3, 1⟩ ⟨2, 3, 2⟩ (1 : Int) = .ok true := by
  refine ⟨by decide, by decide, by decide, ?_, ?_⟩
  · obtain ⟨r, hrun, -, hshape⟩ :=
      MatEqual_iff f64Equal equalHeap ⟨2, 3, 1⟩ ⟨3, 2, 2⟩ [1, 2, 3, 4, 5, 6] [1, 2, 3, 4, 5, 6]
        (100 : Int) (by decide) (by decide)
    rw [hshape (Or.inl (by decide))] at hrun
    exact hrun
  · obtain ⟨r, hrun, hiff, -⟩ :=
      MatEqual_iff f64Equal equalHeap ⟨2, 3, 1⟩ ⟨2, 3, 2⟩ [1, 2, 3, 4, 5, 6] [1, 2, 3, 4, 5, 6]
        (1 : Int) (by decide) (by decide)
    have hr : r = true := by
      rw [hiff]
      refine ⟨rfl, rfl, ?_⟩
      intro k hk
      have hk6 : k < 6 := hk
      interval_cases k <;> exact ⟨_, _, rfl, rfl, by decide⟩
    rw [hr] at hrun
    exact hrun

end Equal

/-! ### C16: row-major element addressing -/

section ElementAddressing

variable {α : Type}

/-- C16: for an `r x c` matrix `m` with `r * c < 2^32` and an in-range index
`(i, j)`, `setElement(m, i, j, v)` returns normally and writes the element at
the linear offset `i * c + j`, which is below `r * c`, and no other element of
any buffer; afterwards `getElement(m, i, j)` returns `v` and
`getElement(m, i', j')` returns its previous value, the element at offset
`i' * c + j'`, for every other in-range `(i', j')`, whose offset differs from
`i * c + j`. -/
theorem MatSetElement_then_MatGetElement (h : Heap α) (m : Mat) (A : List α) (i j : Nat)
    (v : α) (hm : m.Holds h A) (hi : i < m.dim0) (hj : j < m.dim1) :
    ∃ h', MatSetElement h m i j v = .ok h'
      ∧ i * m.dim1 + j < m.dim0 * m.dim1
      ∧ h'.buf m.data = some (A.set (i * m.dim1 + j) v)
      ∧ (∀ p, p ≠ m.data → h'.buf p = h.buf p)
      ∧ MatGetElement h' m i j = .ok v
      ∧ ∀ i' j', i' < m.dim0 → j' < m.dim1 → (i', j') ≠ (i, j) →
          i' * m.dim1 + j' ≠ i * m.dim1 + j
            ∧ ∃ w, A[i' * m.dim1 + j']? = some w ∧ MatGetElement h m i' j' = .ok w
                ∧ MatGetElement h' m i' j' = .ok w := by
  rcases m with ⟨r, c, pm⟩
  simp only at hi hj ⊢
  have hA : h.buf pm = some A := hm.2.2.2.1
  have hAlen : A.length = r * c := hm.2.2.2.2
  have hfit : r * c < U32 := hm.2.2.1
  have hp0 : pm ≠ 0 := (buf_some_bounds h pm A hA).1
  have hoff : i * c + j < r * c := offset_lt r c i j hi hj
  have hset : (h.setBuf pm (A.set (i * c + j) v)).buf pm = some (A.set (i * c + j) v) :=
    buf_setBuf_same h pm A _ hA
  have hget : ∀ (g : Heap α) (i' j' : Nat), i' < r → j' < c →
      MatGetElement g ⟨r, c, pm⟩ i' j' = g.load pm (i' * c + j') := by
    intro g i' j' hi' hj'
    unfold MatGetElement
    simp only [ASSERT, Nat.le_of_lt hi', Nat.le_of_lt hj', if_true, bind, Except.bind]
    rw [Nat.mod_eq_of_lt (lt_trans (offset_lt r c i' j' hi' hj') hfit)]
  refine ⟨h.setBuf pm (A.set (i * c + j) v), ?_, hoff, hset, ?_, ?_, ?_⟩
  · unfold MatSetElement
    simp only [ASSERT, ne_eq, hp0, not_false_eq_true, Nat.le_of_lt hi, Nat.le_of_lt hj, if_true,
      bind, Except.bind]
    rw [Nat.mod_eq_of_lt (lt_trans hoff hfit)]
    unfold Heap.store
    rw [hA]
    simp only [hAlen, hoff, if_true]
  · intro p hp
    exact buf_setBuf_other h pm p _ hp
  · rw [hget _ i j hi hj]
    exact load_of_getElem? _ pm _ _ v hset (List.getElem?_set_self (by rw [hAlen]; exact hoff))
  · intro i' j' hi' hj' hne
    have hoff' : i' * c + j' < r * c := offset_lt r c i' j' hi' hj'
    have hb : i' * c + j' < A.length := by rw [hAlen]; exact hoff'
    have hdiff : i' * c + j' ≠ i * c + j := by
      intro heq
      obtain ⟨e1, e2⟩ := offset_injective c i' j' i j hj' hj heq
      exact hne (by rw [e1, e2])
    refine ⟨hdiff, A[i' * c + j'], List.getElem?_eq_getElem hb, ?_, ?_⟩
    · rw [hget _ i' j' hi' hj']
      exact load_of_getElem? h pm _ A _ hA (List.getElem?_eq_getElem hb)
    · rw [hget _ i' j' hi' hj']
      refine load_of_getElem? _ pm _ _ _ hset ?_
      rw [List.getElem?_set_ne (Ne.symm hdiff)]
      exact List.getElem?_eq_getElem hb

/-- Witness for C16: writing `9` at index `(1, 0)` of the 2 x 3 matrix with data
`1..6` changes offset 3 only; `(1, 0)` then reads `9`, and `(0, 2)` still reads
`3`. -/
theorem MatSetElement_then_MatGetElement_witness :
    Mat.Holds equalHeap ⟨2, 3, 1⟩ [1, 2, 3, 4, 5, 6]
      ∧ ∃ h', MatSetElement equalHeap ⟨2, 3, 1⟩ 1 0 9 = .ok h'
          ∧ h'.buf 1 = some [1, 2, 3, 9, 5, 6]
          ∧ MatGetElement h' ⟨2, 3, 1⟩ 1 0 = .ok 9
          ∧ MatGetElement h' ⟨2, 3, 1⟩ 0 2 = .ok 3 := by
  refine ⟨by decide, ?_⟩
  obtain ⟨h', hrun, -, hbuf, -, hget, hothers⟩ :=
    MatSetElement_then_MatGetElement equalHeap ⟨2, 3, 1⟩ [1, 2, 3, 4, 5, 6] 1 0 9
      (by decide) (by decide) (by decide)
  obtain ⟨-, w, hw, -, hw'⟩ := hothers 0 2 (by decide) (by decide) (by decide)
  have hw3 : w = 3 := by
    have h3 : ([1, 2, 3, 4, 5, 6] : List Int)[0 * 3 + 2]? = some 3 := rfl
    have := hw.symm.trans h3
    injection this
  rw [hw3] at hw'
  exact ⟨h', hrun, hbuf, hget, hw'⟩

end ElementAddressing

/-! ### C17: the size of the buffer requested by `make` and `zeroMake` -/

section MakeSize

variable {α : Type} [Zero α]

/-- C17: `make(allocator, rows, cols)` and `zeroMake(allocator, rows, cols)`
return a matrix with exactly the given dimensions, but its buffer is requested
with room for `rows * cols mod 2^32` elements, the product being formed in
32-bit arithmetic before it is multiplied by the element size, and `zeroMake`
zeroes that many elements. For the 32-bit dimensions 65536 x 65536 the buffer
has room for no element at all, where the matrix has `2^32` of them. -/
theorem MatMake_element_count_wraps :
    (∀ (al : Allocator α) (h : Heap α) (rows cols : Nat),
        ∃ B, MatMake al h rows cols
            = (⟨rows, cols, h.bufs.length + 1⟩,
               { bufs := h.bufs ++ [some B], allocs := h.allocs + 1, frees := h.frees,
                 calls := h.calls })
          ∧ B.length = (rows * cols) % U32)
      ∧ (∀ (al : Allocator α) (h : Heap α) (rows cols : Nat),
          MatZeroMake al h rows cols
            = .ok (⟨rows, cols, h.bufs.length + 1⟩,
               { bufs := h.bufs ++ [some (List.replicate ((rows * cols) % U32) 0)],
                 allocs := h.allocs + 1, frees := h.frees, calls := h.calls }))
      ∧ 65536 < U32 ∧ (65536 * 65536) % U32 = 0 ∧ (65536 * 65536) % U32 ≠ 65536 * 65536
      ∧ MatMake intAlloc (mkHeap []) 65536 65536
          = (⟨65536, 65536, 1⟩, { bufs := [some []], allocs := 1, frees := 0, calls := [] })
      ∧ MatZeroMake intAlloc (mkHeap []) 65536 65536
          = .ok (⟨65536, 65536, 1⟩, { bufs := [some []], allocs := 1, frees := 0, calls := [] })
      ∧ MatSetElement (MatMake intAlloc (mkHeap []) 65536 65536).2 ⟨65536, 65536, 1⟩ 0 0 1
          = .error .memory := by
  refine ⟨?_, ?_, by decide, by decide, by decide, by decide, by decide, by decide⟩
  · intro al h rows cols
    exact ⟨(List.range ((rows * cols) % U32)).map al.junk, rfl, by simp⟩
  · intro al h rows cols
    unfold MatZeroMake
    simp only [MatMake, Alloc, bind, Except.bind, pure, Except.pure]
    unfold memset
    rw [buf_append_new]
    simp only [List.length_map, List.length_range, le_refl, if_true]
    rw [setBuf_append_new]
    simp

end MakeSize

/-! ### C18: scaling -/

section ScaleRun

variable {α : Type} [CommRing α]

/-- The in-place vector scale on a whole live buffer. -/
theorem cblas_scal_live (h : Heap α) (n : Nat) (val : α) (x : Nat) (X : List α)
    (hX : h.buf x = some X) (hn : n = X.length) :
    ∃ h', cblas_scal h n val x = .ok h' ∧ h'.buf x = some (X.map (fun v => val * v))
      ∧ ∀ p, p ≠ x → h'.buf p = h.buf p := by
  unfold cblas_scal
  by_cases h0 : n = 0
  · have hnil : X = [] := List.length_eq_zero.mp (hn.symm.trans h0)
    subst hnil
    rw [if_pos h0]
    exact ⟨h.log .scal, rfl, by rw [buf_log, hX]; rfl, fun p _ => buf_log h .scal p⟩
  · rw [if_neg h0, hX]
    subst hn
    simp only [le_refl, if_true, List.take_length, List.drop_length, List.append_nil]
    refine ⟨_, rfl, ?_, ?_⟩
    · rw [buf_log]
      exact buf_setBuf_same h x X _ hX
    · intro p hp
      rw [buf_log]
      exact buf_setBuf_other h x p _ hp

/-- C18: for a matrix `m`, a scalar `s` and a destination `dst` of the same
shape, over exact arithmetic and with the backend vector copy and vector scale
modelled by their contracts, `scale(m, s, dst)` returns normally and leaves
`dst.data[k] = s * m.data[k]` for every `k < rows * cols`; no buffer other
than that of `dst` changes, so `m` is unchanged when `dst` is a distinct
matrix; `scale(m, 1, dst)` makes `dst` equal to `m` and `scale(m, 0, dst)`
makes `dst` the zero matrix of the same shape. -/
theorem MatScale_entries (h : Heap α) (m dst : Mat) (A D : List α) (s : α)
    (hm : m.Holds h A) (hdst : dst.Holds h D)
    (h0 : m.dim0 = dst.dim0) (h1 : m.dim1 = dst.dim1) :
    ∃ h' R, MatScale h m s dst = .ok h' ∧ h'.buf dst.data = some R
      ∧ R.length = m.dim0 * m.dim1
      ∧ (∀ k, k < m.dim0 * m.dim1 → ∃ v, A[k]? = some v ∧ R[k]? = some (s * v))
      ∧ (∀ p, p ≠ dst.data → h'.buf p = h.buf p)
      ∧ (dst.data ≠ m.data → h'.buf m.data = some A)
      ∧ (s = 1 → R = A)
      ∧ (s = 0 → R = List.replicate (m.dim0 * m.dim1) 0) := by
  have hA : h.buf m.data = some A := hm.2.2.2.1
  have hAlen : A.length = m.dim0 * m.dim1 := hm.2.2.2.2
  have hD : h.buf dst.data = some D := hdst.2.2.2.1
  have hDlen : D.length = dst.dim0 * dst.dim1 := hdst.2.2.2.2
  have hfit : m.dim0 * m.dim1 < U32 := hm.2.2.1
  have hcopy := MatCopy_live h m dst A D hA hD hAlen hDlen (by rw [h0, h1]) hfit
  have hmid : ((h.setBuf dst.data A).log .copy).buf dst.data = some A := by
    rw [buf_log]
    exact buf_setBuf_same h dst.data D A hD
  obtain ⟨h', hrun, hR, hframe⟩ := cblas_scal_live ((h.setBuf dst.data A).log .copy)
    ((dst.dim0 * dst.dim1) % U32) s dst.data A hmid
    (by rw [← h0, ← h1, Nat.mod_eq_of_lt hfit, hAlen])
  have hothers : ∀ p, p ≠ dst.data → h'.buf p = h.buf p := by
    intro p hp
    rw [hframe p hp, buf_log]
    exact buf_setBuf_other h dst.data p A hp
  refine ⟨h', A.map (fun v => s * v), ?_, hR, by rw [List.length_map, hAlen], ?_, hothers, ?_,
    ?_, ?_⟩
  · unfold MatScale
    simp only [ASSERT, h0, h1, and_self, if_true, bind, Except.bind]
    rw [← h0, ← h1, hcopy]
    dsimp only
    rw [h0, h1]
    exact hrun
  · intro k hk
    have hb : k < A.length := by rw [hAlen]; exact hk
    refine ⟨A[k], List.getElem?_eq_getElem hb, ?_⟩
    rw [List.getElem?_map, List.getElem?_eq_getElem hb]
    rfl
  · intro hne
    rw [hothers m.data (Ne.symm hne)]
    exact hA
  · intro hs
    subst hs
    simp
  · intro hs
    subst hs
    rw [← hAlen]
    apply List.ext_getElem (by simp)
    intro k hk1 hk2
    simp

/-- Witness for C18: scaling the 3 x 3 matrix with data `0..8` by 2 gives the
data `0, 2, ..., 16` and leaves the matrix as it was. -/
theorem MatScale_entries_witness :
    Mat.Holds mulHeap ⟨3, 3, 1⟩ [0, 1, 2, 3, 4, 5, 6, 7, 8]
      ∧ Mat.Holds mulHeap ⟨3, 3, 3⟩ [7, 7, 7, 7, 7, 7, 7, 7, 7]
      ∧ ∃ h', MatScale mulHeap ⟨3, 3, 1⟩ 2 ⟨3, 3, 3⟩ = .ok h'
          ∧ h'.buf 3 = some [0, 2, 4, 6, 8, 10, 12, 14, 16]
          ∧ h'.buf 1 = some [0, 1, 2, 3, 4, 5, 6, 7, 8] := by
  refine ⟨by decide, by decide, ?_⟩
  obtain ⟨h', R, hrun, hR, -, -, -, hm, -, -⟩ :=
    MatScale_entries mulHeap ⟨3, 3, 1⟩ ⟨3, 3, 3⟩ [0, 1, 2, 3, 4, 5, 6, 7, 8]
      [7, 7, 7, 7, 7, 7, 7, 7, 7] 2 (by decide) (by decide) rfl rfl
  have hval : MatScale mulHeap ⟨3, 3, 1⟩ 2 ⟨3, 3, 3⟩
      = (.ok { bufs := [some [0, 1, 2, 3, 4, 5, 6, 7, 8],
                        some [0, 2, 4, 6, 8, 10, 12, 14, 16],
                        some [0, 2, 4, 6, 8, 10, 12, 14, 16]],
               allocs := 0, frees := 0, calls := [.copy, .scal] }
          : Except Fault (Heap Int)) := by
    decide
  rw [hval] at hrun
  injection hrun with hrun
  subst hrun
  exact ⟨_, hval, by decide, hm (by decide)⟩

end ScaleRun

/-! ### C19: addition and subtraction -/

section AddSub

variable {α : Type}

/-- A read, during an element-wise loop, of an operand that may share its
buffer with the destination: at an offset the loop has not written yet, the
operand reads as it did before the loop. -/
theorem load_operand (h : Heap α) (pc pa : Nat) (C0 A D : List α) (k : Nat)
    (hC : h.buf pc = some C0) (hA : h.buf pa = some A)
    (hD : D[k]? = C0[k]?) (hk : k < A.length) :
    (h.setBuf pc D).load pa k = .ok A[k] := by
  by_cases hp : pa = pc
  · subst hp
    have hCA : C0 = A := by
      rw [hC] at hA
      injection hA
    subst hCA
    exact load_of_getElem? _ pa k D _ (buf_setBuf_same h pa C0 D hC)
      (hD.trans (List.getElem?_eq_getElem hk))
  · exact load_of_getElem? _ pa k A _ ((buf_setBuf_other h pc pa D hp).trans hA)
      (List.getElem?_eq_getElem hk)

/-- The run of the element-wise loop of `MAT_ADD` and `MAT_SUB` on live
buffers of one shape, the destination possibly sharing its buffer with an
operand: the destination receives the element-wise combination. -/
theorem MatAdd_run (f : α → α → α) (h : Heap α) (a b c : Mat) (A B C0 : List α)
    (hA : h.buf a.data = some A) (hB : h.buf b.data = some B) (hC : h.buf c.data = some C0)
    (hAlen : A.length = a.dim0 * a.dim1) (hBlen : B.length = a.dim0 * a.dim1)
    (hClen : C0.length = a.dim0 * a.dim1) (hfit : a.dim0 * a.dim1 < U32)
    (hdims : a.dim0 = b.dim0 ∧ a.dim1 = b.dim1 ∧ a.dim0 = c.dim0 ∧ a.dim1 = c.dim1) :
    MatAdd f h a b c = .ok (h.setBuf c.data (List.zipWith f A B)) := by
  have hloop := forLoop_setBuf h c.data
    (fun h i => do
      let x ← h.load a.data i
      let y ← h.load b.data i
      h.store c.data i (f x y))
    (fun k D => D.length = a.dim0 * a.dim1
      ∧ (∀ q, q < k → D[q]? = (List.zipWith f A B)[q]?)
      ∧ ∀ q, k ≤ q → D[q]? = C0[q]?)
    (a.dim0 * a.dim1) C0
    ⟨hClen, fun q hq => absurd hq (Nat.not_lt_zero _), fun _ _ => rfl⟩
    (by
      intro k D hk hInv
      obtain ⟨hDlen, hdone, hrest⟩ := hInv
      have hkA : k < A.length := by rw [hAlen]; exact hk
      have hkB : k < B.length := by rw [hBlen]; exact hk
      refine ⟨D.set k (f A[k] B[k]), ?_, by rw [List.length_set, hDlen], ?_, ?_⟩
      · dsimp only
        rw [load_operand h c.data a.data C0 A D k hC hA (hrest k (le_refl k)) hkA]
        simp only [bind, Except.bind]
        rw [load_operand h c.data b.data C0 B D k hC hB (hrest k (le_refl k)) hkB]
        exact store_setBuf h c.data k C0 D _ hC (by rw [hDlen]; exact hk)
      · intro q hq
        by_cases hqk : q = k
        · subst hqk
          rw [List.getElem?_set_self (by rw [hDlen]; exact hk), List.getElem?_zipWith,
            List.getElem?_eq_getElem hkA, List.getElem?_eq_getElem hkB]
        · rw [List.getElem?_set_ne (Ne.symm hqk)]
          exact hdone q (by omega)
      · intro q hq
        rw [List.getElem?_set_ne (by omega)]
        exact hrest q (by omega))
  obtain ⟨D, hrun, hDlen, hdone, -⟩ := hloop
  have hD : D = List.zipWith f A B := by
    apply List.ext_getElem?
    intro q
    by_cases hq : q < a.dim0 * a.dim1
    · exact hdone q hq
    · rw [List.getElem?_eq_none (by omega),
        List.getElem?_eq_none (by rw [List.length_zipWith, hAlen, hBlen]; simp; omega)]
  subst hD
  unfold MatAdd
  simp only [ASSERT, if_pos hdims, bind, Except.bind]
  rw [Nat.mod_eq_of_lt hfit, ← hrun, setBuf_self h c.data C0 hC]
  rfl

/-- Generator `MAT_SUB` has the body of `MAT_ADD`. -/
theorem MatSub_eq_MatAdd (f : α → α → α) (h : Heap α) (a b c : Mat) :
    MatSub f h a b c = MatAdd f h a b c := rfl

/-- Subtracting, element by element, an operand from a sum with it gives the
other operand back. -/
theorem zipWith_sub_add [AddGroup α] (A B : List α) (hlen : A.length = B.length) :
    List.zipWith f64Sub (List.zipWith f64Add A B) B = A := by
  induction A generalizing B with
  | nil => simp
  | cons x A ih =>
    cases B with
    | nil => simp at hlen
    | cons y B =>
      simp only [List.zipWith_cons_cons, f64Add, f64Sub, add_sub_cancel_right, List.cons.injEq,
        true_and]
      exact ih B (by simpa using hlen)

/-- C19, as amended: for matrices `a`, `b`, `c` of identical shape over an
exact scalar type, `add(a, b, c)` returns normally and leaves
`c.data[k] = a.data[k] + b.data[k]` for every `k`, also when `c` is the same
matrix as `a` or `b`, and changes no other buffer; `sub(a, b, c)` leaves the
element-wise difference; and when `c` is not the same matrix as `b`, `add`
followed by `sub` with the same operand is the identity: `b` still holds its
contents after `add(a, b, c)`, and `sub(c, b, d)` leaves in `d`, element for
element, the contents that `a` had before the addition, for every `d` of that
shape, `c`, `a` or `b` included. -/
theorem MatAdd_then_MatSub [AddGroup α] (h : Heap α) (a b c : Mat) (A B C0 : List α)
    (ha : a.Holds h A) (hb : b.Holds h B) (hc : c.Holds h C0)
    (hdims : a.dim0 = b.dim0 ∧ a.dim1 = b.dim1 ∧ a.dim0 = c.dim0 ∧ a.dim1 = c.dim1) :
    ∃ h' S, MatAdd f64Add h a b c = .ok h' ∧ h'.buf c.data = some S
      ∧ S.length = a.dim0 * a.dim1
      ∧ (∀ k, k < a.dim0 * a.dim1 →
          ∃ x y, A[k]? = some x ∧ B[k]? = some y ∧ S[k]? = some (x + y))
      ∧ (∀ p, p ≠ c.data → h'.buf p = h.buf p)
      ∧ (∃ h2 T, MatSub f64Sub h a b c = .ok h2 ∧ h2.buf c.data = some T
          ∧ ∀ k, k < a.dim0 * a.dim1 →
              ∃ x y, A[k]? = some x ∧ B[k]? = some y ∧ T[k]? = some (x - y))
      ∧ (c.data ≠ b.data →
          h'.buf b.data = some B
            ∧ ∀ (d : Mat) (D0 : List α), d.Holds h' D0 →
                d.dim0 = a.dim0 → d.dim1 = a.dim1 →
                ∃ h'', MatSub f64Sub h' c b d = .ok h'' ∧ h''.buf d.data = some A) := by
  have hA : h.buf a.data = some A := ha.2.2.2.1
  have hB : h.buf b.data = some B := hb.2.2.2.1
  have hC : h.buf c.data = some C0 := hc.2.2.2.1
  have hAlen : A.length = a.dim0 * a.dim1 := ha.2.2.2.2
  have hBlen : B.length = a.dim0 * a.dim1 := by rw [hb.2.2.2.2, hdims.1, hdims.2.1]
  have hClen : C0.length = a.dim0 * a.dim1 := by rw [hc.2.2.2.2, hdims.2.2.1, hdims.2.2.2]
  have hfit : a.dim0 * a.dim1 < U32 := ha.2.2.1
  have hentry : ∀ (g : α → α → α) (k : Nat), k < a.dim0 * a.dim1 →
      ∃ x y, A[k]? = some x ∧ B[k]? = some y ∧ (List.zipWith g A B)[k]? = some (g x y) := by
    intro g k hk
    have hkA : k < A.length := by rw [hAlen]; exact hk
    have hkB : k < B.length := by rw [hBlen]; exact hk
    refine ⟨A[k], B[k], List.getElem?_eq_getElem hkA, List.getElem?_eq_getElem hkB, ?_⟩
    rw [List.getElem?_zipWith, List.getElem?_eq_getElem hkA, List.getElem?_eq_getElem hkB]
  have hS : (h.setBuf c.data (List.zipWith f64Add A B)).buf c.data
      = some (List.zipWith f64Add A B) := buf_setBuf_same h c.data C0 _ hC
  have hSlen : (List.zipWith f64Add A B).length = a.dim0 * a.dim1 := by
    rw [List.length_zipWith, hAlen, hBlen, Nat.min_self]
  refine ⟨h.setBuf c.data (List.zipWith f64Add A B), List.zipWith f64Add A B,
    MatAdd_run f64Add h a b c A B C0 hA hB hC hAlen hBlen hClen hfit hdims, hS, hSlen,
    hentry f64Add, fun p hp => buf_setBuf_other h c.data p _ hp, ?_, ?_⟩
  · exact ⟨h.setBuf c.data (List.zipWith f64Sub A B), List.zipWith f64Sub A B,
      (MatSub_eq_MatAdd f64Sub h a b c).trans
        (MatAdd_run f64Sub h a b c A B C0 hA hB hC hAlen hBlen hClen hfit hdims),
      buf_setBuf_same h c.data C0 _ hC, hentry f64Sub⟩
  · intro hne
    have hB' : (h.setBuf c.data (List.zipWith f64Add A B)).buf b.data = some B :=
      (buf_setBuf_other h c.data b.data _ (Ne.symm hne)).trans hB
    refine ⟨hB', ?_⟩
    intro d D0 hd hd0 hd1
    have hrun := MatAdd_run f64Sub (h.setBuf c.data (List.zipWith f64Add A B)) c b d
      (List.zipWith f64Add A B) B D0 hS hB' hd.2.2.2.1
      (by rw [hSlen, hdims.2.2.1, hdims.2.2.2])
      (by rw [hBlen, hdims.2.2.1, hdims.2.2.2])
      (by rw [hd.2.2.2.2, hd0, hd1, hdims.2.2.1, hdims.2.2.2])
      (by rw [← hdims.2.2.1, ← hdims.2.2.2]; exact hfit)
      ⟨by rw [← hdims.2.2.1, hdims.1], by rw [← hdims.2.2.2, hdims.2.1],
        by rw [← hdims.2.2.1, hd0], by rw [← hdims.2.2.2, hd1]⟩
    rw [zipWith_sub_add A B (hAlen.trans hBlen.symm)] at hrun
    exact ⟨_, (MatSub_eq_MatAdd f64Sub _ c b d).trans hrun,
      buf_setBuf_same _ d.data D0 A hd.2.2.2.1⟩

/-- Witness for C19: `a = 0..8` and `b = 2 * a` as 3 x 3 matrices give the sum
`0, 3, ..., 24` and the difference `0, -1, ..., -8`; subtracting `b` from the
sum, into the buffer of the sum itself, gives `0..8` back. -/
theorem MatAdd_then_MatSub_witness :
    Mat.Holds mulHeap ⟨3, 3, 1⟩ [0, 1, 2, 3, 4, 5, 6, 7, 8]
      ∧ Mat.Holds mulHeap ⟨3, 3, 2⟩ [0, 2, 4, 6, 8, 10, 12, 14, 16]
      ∧ Mat.Holds mulHeap ⟨3, 3, 3⟩ [7, 7, 7, 7, 7, 7, 7, 7, 7]
      ∧ ∃ h', MatAdd f64Add mulHeap ⟨3, 3, 1⟩ ⟨3, 3, 2⟩ ⟨3, 3, 3⟩ = .ok h'
          ∧ h'.buf 3 = some [0, 3, 6, 9, 12, 15, 18, 21, 24]
          ∧ (∃ h2, MatSub f64Sub mulHeap ⟨3, 3, 1⟩ ⟨3, 3, 2⟩ ⟨3, 3, 3⟩ = .ok h2
              ∧ h2.buf 3 = some [0, -1, -2, -3, -4, -5, -6, -7, -8])
          ∧ ∃ h'', MatSub f64Sub h' ⟨3, 3, 3⟩ ⟨3, 3, 2⟩ ⟨3, 3, 3⟩ = .ok h''
              ∧ h''.buf 3 = some [0, 1, 2, 3, 4, 5, 6, 7, 8] := by
  refine ⟨by decide, by decide, by decide, ?_⟩
  obtain ⟨h', S, hrun, hS, -, -, -, -, hround⟩ :=
    MatAdd_then_MatSub mulHeap ⟨3, 3, 1⟩ ⟨3, 3, 2⟩ ⟨3, 3, 3⟩ [0, 1, 2, 3, 4, 5, 6, 7, 8]
      [0, 2, 4, 6, 8, 10, 12, 14, 16] [7, 7, 7, 7, 7, 7, 7, 7, 7]
      (by decide) (by decide) (by decide) (by decide)
  have hval : MatAdd f64Add mulHeap ⟨3, 3, 1⟩ ⟨3, 3, 2⟩ ⟨3, 3, 3⟩
      = (.ok { bufs := [some [0, 1, 2, 3, 4, 5, 6, 7, 8],
                        some [0, 2, 4, 6, 8, 10, 12, 14, 16],
                        some [0, 3, 6, 9, 12, 15, 18, 21, 24]],
               allocs := 0, frees := 0, calls := [] } : Except Fault (Heap Int)) := by
    decide
  have hsub : MatSub f64Sub mulHeap ⟨3, 3, 1⟩ ⟨3, 3, 2⟩ ⟨3, 3, 3⟩
      = (.ok { bufs := [some [0, 1, 2, 3, 4, 5, 6, 7, 8],
                        some [0, 2, 4, 6, 8, 10, 12, 14, 16],
                        some [0, -1, -2, -3, -4, -5, -6, -7, -8]],
               allocs := 0, frees := 0, calls := [] } : Except Fault (Heap Int)) := by
    decide
  rw [hval] at hrun
  injection hrun with hrun
  subst hrun
  refine ⟨_, hval, by decide, ⟨_, hsub, by decide⟩, ?_⟩
  exact (hround (by decide)).2 ⟨3, 3, 3⟩ [0, 3, 6, 9, 12, 15, 18, 21, 24] (by decide) rfl rfl

/-- Counterexample to C19 as stated: with the 1 x 1 matrices `a = [1]` and
`b = [2]` and with `c` the same matrix as `b`, `add(a, b, c)` leaves
`1 + 2 = 3` in `b`, and `sub(c, b, d)` then subtracts the sum from itself: `d`
holds `[0]`, not the `[1]` of `a`. -/
theorem MatAdd_then_MatSub_aliased_operand :
    Mat.Holds aliasHeap ⟨1, 1, 1⟩ [1] ∧ Mat.Holds aliasHeap ⟨1, 1, 2⟩ [2]
      ∧ Mat.Holds aliasHeap ⟨1, 1, 3⟩ [7]
      ∧ ∃ h' h'', MatAdd f64Add aliasHeap ⟨1, 1, 1⟩ ⟨1, 1, 2⟩ ⟨1, 1, 2⟩ = .ok h'
          ∧ h'.buf 2 = some [3] ∧ h'.buf 1 = some [1]
          ∧ MatSub f64Sub h' ⟨1, 1, 2⟩ ⟨1, 1, 2⟩ ⟨1, 1, 3⟩ = .ok h''
          ∧ h''.buf 3 = some [0] ∧ h''.buf 1 = some [1]
          ∧ h''.buf 3 ≠ h''.buf 1 := by
  refine ⟨by decide, by decide, by decide,
    { bufs := [some [1], some [3], some [7]], allocs := 0, frees := 0, calls := [] },
    { bufs := [some [1], some [3], some [0]], allocs := 0, frees := 0, calls := [] },
    by decide, by decide, by decide, by decide, by decide, by decide, by decide⟩

end AddSub

/-! ### C20: which stage decides whether `inverse` overwrites `dst` -/

section InverseStagesRun

variable {α : Type}

/-- C20: `inverse(m, dst)` overwrites `dst` exactly when the factorisation
stage reports status 0. If that stage reports a non-zero status, `inverse`
returns it and `dst` holds what it held; if it reports 0, `inverse` returns the
status of the inversion stage, zero or not, and `dst` holds the contents of the
temporary after that stage. The result is 0 if and only if both stages report
0. -/
theorem MatInv_overwrites_iff_factored (be : Backend α) (al : Allocator α) (h : Heap α)
    (m dst : Mat) (A D : List α) (n : Nat) (hm : m.Holds h A) (hdst : dst.Holds h D)
    (hm0 : m.dim0 = n) (hm1 : m.dim1 = n) (hd0 : dst.dim0 = n) (hd1 : dst.dim1 = n) :
    ∃ r h', MatInv be al h m dst = .ok (r, h')
      ∧ ((be.getrf n n A n).2.2 ≠ 0 →
          r = (be.getrf n n A n).2.2 ∧ h'.buf dst.data = some D)
      ∧ ((be.getrf n n A n).2.2 = 0 →
          r = inversionStatus be n A ∧ h'.buf dst.data = some (invertedTmp be n A))
      ∧ (r = 0 ↔ (be.getrf n n A n).2.2 = 0 ∧ inversionStatus be n A = 0) := by
  rcases m with ⟨r, c, pm⟩
  rcases dst with ⟨d0, d1, pd⟩
  have e0 : n = r := hm0.symm
  have e1 : n = c := hm1.symm
  have e2 : n = d0 := hd0.symm
  have e3 : n = d1 := hd1.symm
  subst e0 e1 e2 e3
  have hlen : A.length = n * n := hm.2.2.2.2
  have hDlen : D.length = n * n := hdst.2.2.2.2
  have hfit : n * n < U32 := hm.2.2.1
  have hD : h.buf pd = some D := hdst.2.2.2.1
  have hcopy := make_copy al h _ A hm
  simp only at hcopy
  have hT1 : (factoredTmp be n A).length = n * n := by
    unfold factoredTmp
    rw [blit_length, hlen]
  have hT2 : (invertedTmp be n A).length = n * n := by
    unfold invertedTmp
    rw [blit_length, hT1]
  by_cases hs : (be.getrf n n A n).2.2 = 0
  · refine ⟨inversionStatus be n A,
      { bufs := h.bufs.set (pd - 1) (some (invertedTmp be n A)) ++ [none],
        allocs := h.allocs + 1, frees := h.frees + 1,
        calls := h.calls ++ [.copy, .getrf, .getri, .copy] }, ?_, ?_, ?_, ?_⟩
    · unfold MatInv
      simp only [ASSERT, and_self, if_true]
      rw [hcopy]
      simp only [bind, Except.bind, MatMake, Alloc, getrf_on_temporary be _ _ _ _ _ _ hlen, hs,
        ne_eq, not_true_eq_false, if_false, pure, Except.pure, List.append_assoc,
        List.singleton_append]
      have hri := getri_on_temporary be h.bufs (factoredTmp be n A) (h.allocs + 1) h.frees
        (h.calls ++ [.copy, .getrf]) n (be.getrf n n A n).2.1 hT1
      unfold factoredTmp at hri
      rw [hri]
      dsimp only
      have hcp := copy_from_temporary h (invertedTmp be n A) D (h.allocs + 1) h.frees
        (h.calls ++ [.copy, .getrf] ++ [.getri]) n n ⟨n, n, pd⟩ hD hT2 hDlen hfit rfl
      unfold invertedTmp factoredTmp at hcp
      rw [hcp]
      dsimp only
      rw [free_last _ _ _ _ _ _ _ _ (by rw [List.length_set])]
      simp only [inversionStatus, invertedTmp, factoredTmp, List.append_assoc,
        List.singleton_append, List.cons_append, List.nil_append]
    · intro hne
      exact absurd hs hne
    · intro _
      exact ⟨rfl, buf_after_copy_free h pd _ D _ _ _ hD pd |>.trans (if_pos rfl)⟩
    · constructor
      · intro h0
        exact ⟨hs, h0⟩
      · intro h0
        exact h0.2
  · refine ⟨(be.getrf n n A n).2.2,
      { bufs := h.bufs ++ [some (blit A (be.getrf n n A n).1)],
        allocs := h.allocs + 1, frees := h.frees,
        calls := h.calls ++ [.copy, .getrf] }, ?_, ?_, ?_, ?_⟩
    · unfold MatInv
      simp only [ASSERT, and_self, if_true]
      rw [hcopy]
      simp only [bind, Except.bind, MatMake, Alloc, getrf_on_temporary be _ _ _ _ _ _ hlen,
        ne_eq, hs, not_false_eq_true, if_true, pure, Except.pure, List.append_assoc,
        List.singleton_append]
    · intro _
      exact ⟨rfl, buf_append_old _ _ _ _ _ _ _ hD⟩
    · intro h0
      exact absurd h0 hs
    · constructor
      · intro h0
        exact absurd h0 hs
      · intro h0
        exact absurd h0.1 hs

/-- Witness for C20: on a 1 x 1 matrix, with a factorisation stage reporting 0
and an inversion stage that writes `42` and reports 3, `inverse` returns 3 and
`dst`, which held `5`, holds `42`. -/
theorem MatInv_overwrites_iff_factored_witness :
    Mat.Holds zeroHeap ⟨1, 1, 1⟩ [0] ∧ Mat.Holds zeroHeap ⟨1, 1, 2⟩ [5]
      ∧ (stagedBackend.getrf 1 1 [0] 1).2.2 = 0
      ∧ ∃ h', MatInv stagedBackend intAlloc zeroHeap ⟨1, 1, 1⟩ ⟨1, 1, 2⟩ = .ok (3, h')
          ∧ h'.buf 2 = some [42] := by
  refine ⟨by decide, by decide, by decide, ?_⟩
  obtain ⟨r, h', hrun, -, hok, -⟩ :=
    MatInv_overwrites_iff_factored stagedBackend intAlloc zeroHeap ⟨1, 1, 1⟩ ⟨1, 1, 2⟩
      [0] [5] 1 (by decide) (by decide) rfl rfl rfl rfl
  obtain ⟨hr, hdst⟩ := hok (by decide)
  have hr3 : r = 3 := hr.trans (by decide)
  have hT : invertedTmp stagedBackend 1 [0] = [42] := by decide
  subst hr3
  rw [hT] at hdst
  exact ⟨h', hrun, hdst⟩

end InverseStagesRun

/-! ### C21: the status of the Cholesky factorisation is never inspected -/

section CholeskyStatus

variable {α : Type} [CommRing α]

/-- The triangular product reads the upper triangle only: two buffers that
agree at every offset `i * lda + j` with `i ≤ j < N` give the same vector. -/
theorem trmvVec_congr_upper (N lda : Nat) (T T' X : List α)
    (hup : ∀ i j, i ≤ j → j < N → T'.getD (i * lda + j) 0 = T.getD (i * lda + j) 0) :
    trmvVec N T' lda X = trmvVec N T lda X := by
  unfold trmvVec
  apply List.map_congr_left
  intro i _
  by_cases hi : i < N
  · rw [if_pos hi, if_pos hi]
    congr 1
    apply List.map_congr_left
    intro j hj
    rw [List.mem_filter] at hj
    rw [hup i j (by simpa using hj.2) (List.mem_range.mp hj.1)]
  · rw [if_neg hi, if_neg hi]

/-- A sum over the indices of a range that pass a test, as a sum over the whole
range. -/
theorem sum_filter_range (f : Nat → α) (p : Nat → Prop) [DecidablePred p] (n : Nat) :
    (((List.range n).filter (fun j => p j)).map f).sum
      = ∑ j in Finset.range n, if p j then f j else 0 := by
  induction n with
  | zero => simp
  | succ n ih =>
    rw [List.range_succ, List.filter_append, List.map_append, List.sum_append, ih,
      Finset.sum_range_succ]
    by_cases hp : p n <;> simp [hp]

/-- Element `i < N` of the triangular product is the sum over `j` from `i` to
`N - 1` of `T[i * lda + j] * X[j]`. -/
theorem trmvVec_getElem? (N lda : Nat) (T X : List α) (i : Nat) (hi : i < N)
    (hX : i < X.length) :
    (trmvVec N T lda X)[i]?
      = some (∑ j in Finset.range N,
          if i ≤ j then T.getD (i * lda + j) 0 * X.getD j 0 else 0) := by
  unfold trmvVec
  rw [List.getElem?_map, List.getElem?_range hX, Option.map_some', if_pos hi]
  exact congrArg some
    (sum_filter_range (fun j => T.getD (i * lda + j) 0 * X.getD j 0) (fun j => i ≤ j) N)

/-- C21, as amended: `covarianceScale` and `covarianceScaleInPlace` never
inspect the status returned by the backend Cholesky factorisation. For every
input passing the shape assertions whose `x` is a column vector, whatever the
backend and whatever status it reports (a `cov` that is not positive definite
included), both calls return normally, with no failure indication, and the
output vector is the triangular matrix-vector product of `x` with what the
factorisation left in the upper triangle of the temporary copy of `cov`:
element `i` is the sum over `j ≥ i` of `tmp[i, j] * x[j]`, the entries below
the diagonal are not used, and a backend that leaves the same temporary with
another status gives the same final state. -/
theorem MatCovScale_ignores_status (be : Backend α) (al : Allocator α) (h : Heap α)
    (cov x dst : Mat) (C X D : List α) (n : Nat)
    (hcov : cov.Holds h C) (hx : x.Holds h X) (hdst : dst.Holds h D)
    (hc0 : cov.dim0 = n) (hc1 : cov.dim1 = n) (hx0 : x.dim0 = n) (hx1 : x.dim1 = 1)
    (hd0 : dst.dim0 = n) (hd1 : dst.dim1 = 1) :
    ∃ h' g' R, MatCovScale be al h cov x dst = .ok h' ∧ h'.buf dst.data = some R
      ∧ MatCovScaleIP be al h cov x = .ok g' ∧ g'.buf x.data = some R
      ∧ R.length = n
      ∧ R = trmvVec n (blit C (be.potrf n C n).1) n X
      ∧ (∀ i, i < n →
          R[i]? = some (∑ j in Finset.range n,
            if i ≤ j then (blit C (be.potrf n C n).1).getD (i * n + j) 0 * X.getD j 0
            else 0))
      ∧ (∀ T : List α,
          (∀ i j, i ≤ j → j < n →
            T.getD (i * n + j) 0 = (blit C (be.potrf n C n).1).getD (i * n + j) 0) →
          trmvVec n T n X = R)
      ∧ ∀ be' : Backend α, (be'.potrf n C n).1 = (be.potrf n C n).1 →
          MatCovScale be' al h cov x dst = .ok h' ∧ MatCovScaleIP be' al h cov x = .ok g' := by
  rcases cov with ⟨c0, c1, pc⟩
  rcases x with ⟨x0, x1, px⟩
  rcases dst with ⟨d0, d1, pd⟩
  have e0 : n = c0 := hc0.symm
  have e1 : n = c1 := hc1.symm
  have e2 : n = x0 := hx0.symm
  have e3 : 1 = x1 := hx1.symm
  have e4 : n = d0 := hd0.symm
  have e5 : 1 = d1 := hd1.symm
  subst e0 e1 e2 e3 e4 e5
  have hXlen : X.length = n := by
    have := hx.2.2.2.2
    simpa using this
  refine ⟨_, _, covScaled be n C X, MatCovScale_run be al h pc px pd C X D n hcov hx hdst,
    buf_set_app_same h pd _ D _ _ _ _ hdst.2.2.2.1,
    MatCovScaleIP_run be al h pc px C X n hcov hx,
    buf_set_app_same h px _ X _ _ _ _ hx.2.2.2.1, ?_, rfl, ?_, ?_, ?_⟩
  · unfold covScaled
    rw [length_trmvVec, hXlen]
  · intro i hi
    exact trmvVec_getElem? n n _ X i hi (by rw [hXlen]; exact hi)
  · intro T hT
    exact trmvVec_congr_upper n n _ T X hT
  · intro be' hbe
    have h1 := MatCovScale_run be' al h pc px pd C X D n hcov hx hdst
    have h2 := MatCovScaleIP_run be' al h pc px C X n hcov hx
    unfold covScaled at h1 h2 ⊢
    rw [hbe] at h1 h2
    exact ⟨h1, h2⟩

end CholeskyStatus

/-- Counterexample to C21 as stated: the 1 x 1 matrix `cov = [4]`, the 1 x 2 row
vector `x = [1, 2]` and the 1 x 1 vector `dst` pass the four shape assertions of
`covarianceScale` (and the three of `covarianceScaleInPlace`). The out-of-place
call does not return normally: the copy of the two-element temporary vector
into the one-element `dst` fails the assertion of `MatCopy`. The in-place call
returns normally and leaves `[4, 2]`: the second element of `x` is not an entry
of any product with the 1 x 1 temporary, it is left as it was. -/
theorem MatCovScale_row_vector_fails :
    Mat.Holds rowHeap ⟨1, 1, 1⟩ [4] ∧ Mat.Holds rowHeap ⟨1, 2, 2⟩ [1, 2]
      ∧ Mat.Holds rowHeap ⟨1, 1, 3⟩ [7]
      ∧ (Mat.mk 1 1 1).dim0 = (Mat.mk 1 1 1).dim1
      ∧ ((Mat.mk 1 2 2).dim0 = 1 ∨ (Mat.mk 1 2 2).dim1 = 1)
      ∧ (Mat.mk 1 1 1).dim0 = (Mat.mk 1 2 2).dim0
      ∧ ((Mat.mk 1 2 2).dim0 = (Mat.mk 1 1 3).dim0 ∧ (Mat.mk 1 1 3).dim1 = 1)
      ∧ MatCovScale cholBackend intAlloc rowHeap ⟨1, 1, 1⟩ ⟨1, 2, 2⟩ ⟨1, 1, 3⟩
          = .error .assertion
      ∧ (¬ ∃ h', MatCovScale cholBackend intAlloc rowHeap ⟨1, 1, 1⟩ ⟨1, 2, 2⟩ ⟨1, 1, 3⟩
          = .ok h')
      ∧ ∃ g', MatCovScaleIP cholBackend intAlloc rowHeap ⟨1, 1, 1⟩ ⟨1, 2, 2⟩ = .ok g'
          ∧ g'.buf 2 = some [4, 2] := by
  have hrun : MatCovScale cholBackend intAlloc rowHeap ⟨1, 1, 1⟩ ⟨1, 2, 2⟩ ⟨1, 1, 3⟩
      = .error .assertion := by decide
  have hip : MatCovScaleIP cholBackend intAlloc rowHeap ⟨1, 1, 1⟩ ⟨1, 2, 2⟩
      = (.ok { bufs := [some [4], some [4, 2], some [7], none],
               allocs := 1, frees := 1, calls := [.copy, .potrf, .trmv] }
          : Except Fault (Heap Int)) := by decide
  refine ⟨by decide, by decide, by decide, by decide, by decide, by decide, by decide, hrun,
    ?_, _, hip, by decide⟩
  rintro ⟨h', hok⟩
  rw [hrun] at hok
  cases hok

/-- Witness for C21: the matrix `[[1, 2], [2, 1]]` is not positive definite and
the backend reports status `1`, leaving the temporary as copied; both calls
return normally and leave `[1 * 1 + 2 * 2, 1 * 2] = [5, 2]`, and so does a
backend reporting status `0` on the same temporary. -/
theorem MatCovScale_ignores_status_witness :
    Mat.Holds indefiniteHeap ⟨2, 2, 1⟩ [1, 2, 2, 1] ∧ Mat.Holds indefiniteHeap ⟨2, 1, 2⟩ [1, 2]
      ∧ Mat.Holds indefiniteHeap ⟨2, 1, 3⟩ [7, 7]
      ∧ (cholBackend.potrf 2 [1, 2, 2, 1] 2).2 = 1
      ∧ (singularBackend.potrf 2 [1, 2, 2, 1] 2).2 = 0
      ∧ ∃ h' g',
          MatCovScale cholBackend intAlloc indefiniteHeap ⟨2, 2, 1⟩ ⟨2, 1, 2⟩ ⟨2, 1, 3⟩ = .ok h'
          ∧ h'.buf 3 = some [5, 2]
          ∧ MatCovScaleIP cholBackend intAlloc indefiniteHeap ⟨2, 2, 1⟩ ⟨2, 1, 2⟩ = .ok g'
          ∧ g'.buf 2 = some [5, 2]
          ∧ MatCovScale singularBackend intAlloc indefiniteHeap ⟨2, 2, 1⟩ ⟨2, 1, 2⟩ ⟨2, 1, 3⟩
              = .ok h' := by
  refine ⟨by decide, by decide, by decide, by decide, by decide, ?_⟩
  obtain ⟨h', g', R, hrun, hR, hrun', hR', -, hval, -, -, hbe⟩ :=
    MatCovScale_ignores_status cholBackend intAlloc indefiniteHeap
      ⟨2, 2, 1⟩ ⟨2, 1, 2⟩ ⟨2, 1, 3⟩ [1, 2, 2, 1] [1, 2] [7, 7] 2
      (by decide) (by decide) (by decide) rfl rfl rfl rfl rfl rfl
  have hval' : trmvVec 2 (blit [1, 2, 2, 1] (cholBackend.potrf 2 [1, 2, 2, 1] 2).1) 2 [1, 2]
      = ([5, 2] : List Int) := by decide
  rw [hval'] at hval
  subst hval
  exact ⟨h', g', hrun, hR, hrun', hR', (hbe singularBackend (by decide)).1⟩

end Matrices
